import Mathlib

/-!
# Key state machine, repeat engine, cursor loader and geometry tracker of `PlatformWindow`

Shallow embedding of `src/framework/platform/platformwindow.cpp`, and of
`ShaderManager::getShaderById` from `src/framework/graphics/shadermanager.h`.

* The window is a record of the members the functions read or write; every
  function takes the window and returns the new window together with the list
  of events it handed to `m_onInputEvent`, in dispatch order.
* The handler is an observer: it receives the events and does not call back
  into the window while it runs.
* `g_clock.millis()` is passed in as the argument `now`; ticks and delays are
  integers.
* `m_keyInfo` is a table indexed by key code; it is embedded as a total map
  from key codes to records, and the codes of the table are those below
  `KeyLast`.
* `processKeyUp` calls itself; the embedding carries a bound on the nesting of
  calls and answers `none` when the bound is exhausted.
-/

/-- Enumerators of `Fw::Key` and `Fw::KeyboardModifier` named by
platformwindow.cpp. Their header is not part of the sources, so they are
parameters of the embedding; `apple` is the build flag `__APPLE__`. -/
structure Fw where
  KeyUnknown : Nat
  KeyCtrl : Nat
  KeyAlt : Nat
  KeyMeta : Nat
  KeyShift : Nat
  KeyNumLock : Nat
  KeyNumpad0 : Nat
  KeyNumpad9 : Nat
  KeyLast : Nat
  KeyboardCtrlModifier : Nat
  KeyboardAltModifier : Nat
  KeyboardShiftModifier : Nat
  apple : Bool

namespace Fw

/-- The key tested by the second modifier branch: `KeyMeta` when `__APPLE__`
is defined, `KeyAlt` otherwise. -/
def altKey (c : Fw) : Nat := if c.apple then c.KeyMeta else c.KeyAlt

/-- The key is one of the three codes that only toggle a modifier bit. -/
def isModifier (c : Fw) (k : Nat) : Prop :=
  k = c.KeyCtrl ∨ k = c.altKey ∨ k = c.KeyShift

instance (c : Fw) (k : Nat) : Decidable (c.isModifier k) := by
  unfold isModifier; infer_instance

/-- A key that reaches the key table: neither the unknown sentinel nor a modifier. -/
def isOrdinary (c : Fw) (k : Nat) : Prop :=
  k ≠ c.KeyUnknown ∧ ¬ c.isModifier k

instance (c : Fw) (k : Nat) : Decidable (c.isOrdinary k) := by
  unfold isOrdinary; infer_instance

/-- The values taken by the counter of
`for (uint8_t k = Fw::KeyNumpad0; k <= Fw::KeyNumpad9; ++k)`, in order, for
`KeyNumpad9` below 255, where the 8-bit counter does not wrap. -/
def numpadKeys (c : Fw) : List Nat :=
  List.range' c.KeyNumpad0 (c.KeyNumpad9 + 1 - c.KeyNumpad0)

/-- What the code relies on about the enumeration: the keypad digits fit the
8-bit loop counter, the named keys are distinct enumerators, the ten keypad
digits are consecutive codes of the table, and no named key is a keypad
digit. -/
def WellFormed (c : Fw) : Prop :=
  c.KeyNumpad9 < 255 ∧
  c.KeyNumpad9 = c.KeyNumpad0 + 9 ∧ c.KeyNumpad9 < c.KeyLast ∧
  c.KeyNumLock < c.KeyLast ∧
  c.isOrdinary c.KeyNumLock ∧
  c.KeyCtrl ≠ c.KeyUnknown ∧ c.altKey ≠ c.KeyUnknown ∧ c.KeyShift ≠ c.KeyUnknown ∧
  c.KeyCtrl ≠ c.altKey ∧ c.KeyCtrl ≠ c.KeyShift ∧ c.altKey ≠ c.KeyShift ∧
  ∀ k ∈ c.numpadKeys, c.isOrdinary k ∧ k ≠ c.KeyNumLock

instance (c : Fw) : Decidable c.WellFormed := by
  unfold WellFormed; infer_instance

end Fw

/-- The event types of `Fw::InputEventType` used by the key paths. -/
inductive InputEventType where
  | NoInputEvent
  | KeyDownInputEvent
  | KeyPressInputEvent
  | KeyUpInputEvent
  deriving DecidableEq, Repr

/-- The fields of `InputEvent` that the key paths populate. `autoRepeatTicks`
is an `int` of 32 bits in the source; the embedding keeps its value as an
integer and narrows what is assigned to it with `narrowInt32`. -/
structure InputEvent where
  type : InputEventType
  keyCode : Nat
  keyboardModifiers : Nat
  autoRepeatTicks : Int
  deriving DecidableEq, Repr

/-- Modelled from the spec: `InputEvent::reset` is declared in a header that is
not part of the sources. Per the data model it sets the record to the given
type and drops what the previous dispatch left in it, while the modifier mask,
which lives in the same record, is kept. -/
def InputEvent.reset (c : Fw) (e : InputEvent) (eventType : InputEventType) : InputEvent :=
  { e with type := eventType, keyCode := c.KeyUnknown, autoRepeatTicks := 0 }

/-- One entry of `m_keyInfo`: the pressed flag, the tick of the first press,
the tick of the last KeyPress, and the repeat delay. -/
structure KeyInfo where
  state : Bool
  firstTicks : Int
  lastTicks : Int
  delay : Int
  deriving DecidableEq, Repr

/-- The members of `PlatformWindow` read or written by platformwindow.cpp.
`m_onInputEvent` records whether a handler is registered, `m_keyPressTimer`
is the tick at which the throttle timer was last restarted, and `m_maximized`
and `m_fullscreen` are what `isMaximized()` and `isFullscreen()` return. -/
structure PlatformWindow where
  m_keyInfo : Nat → KeyInfo
  m_inputEvent : InputEvent
  m_mouseButtonStates : Nat
  m_onInputEvent : Bool
  m_keyPressTimer : Int
  m_position : Int × Int
  m_size : Int × Int
  m_unmaximizedPos : Int × Int
  m_unmaximizedSize : Int × Int
  m_maximized : Bool
  m_fullscreen : Bool

/-- The value an `int` of 32 bits holds after a 64-bit `ticks_t` value is
assigned to it: the low 32 bits, read as a signed number. The declaration
`int autoRepeatTicks` is in inputevent.h, a header outside the sources. -/
def narrowInt32 (x : Int) : Int := (x + 2147483648) % 4294967296 - 2147483648

/-- The bits of `x` outside `mask`, that is `x & ~mask`. -/
def clearBits (x mask : Nat) : Nat := x ^^^ (x &&& mask)

namespace PlatformWindow

/-- Assignment to `m_keyInfo[keyCode]`. -/
def setKey (w : PlatformWindow) (keyCode : Nat) (v : KeyInfo) : PlatformWindow :=
  { w with m_keyInfo := fun j => if j = keyCode then v else w.m_keyInfo j }

/-- Assignment to `m_inputEvent`. -/
def setEvent (w : PlatformWindow) (e : InputEvent) : PlatformWindow :=
  { w with m_inputEvent := e }

/-- The statement `m_inputEvent.keyboardModifiers |= mask`. -/
def orModifiers (w : PlatformWindow) (mask : Nat) : PlatformWindow :=
  w.setEvent { w.m_inputEvent with
    keyboardModifiers := w.m_inputEvent.keyboardModifiers ||| mask }

/-- The statement `m_inputEvent.keyboardModifiers &= ~mask`. -/
def andNotModifiers (w : PlatformWindow) (mask : Nat) : PlatformWindow :=
  w.setEvent { w.m_inputEvent with
    keyboardModifiers := clearBits w.m_inputEvent.keyboardModifiers mask }

/-- Modelled from the spec: `Timer::ticksElapsed` is declared outside the
sources; it is the time elapsed since the timer was last restarted. -/
def ticksElapsed (w : PlatformWindow) (now : Int) : Int := now - w.m_keyPressTimer

/-- Embedding of `PlatformWindow::updateUnmaximizedCoords`. -/
def updateUnmaximizedCoords (w : PlatformWindow) : PlatformWindow :=
  if !w.m_maximized && !w.m_fullscreen then
    { w with m_unmaximizedPos := w.m_position, m_unmaximizedSize := w.m_size }
  else w

/-- Embedding of `PlatformWindow::processKeyDown`, run at clock value `now`. -/
def processKeyDown (c : Fw) (now : Int) (keyCode : Nat) (w : PlatformWindow) :
    PlatformWindow × List InputEvent :=
  if keyCode = c.KeyUnknown then (w, [])
  else if keyCode = c.KeyCtrl then (w.orModifiers c.KeyboardCtrlModifier, [])
  else if keyCode = c.altKey then (w.orModifiers c.KeyboardAltModifier, [])
  else if keyCode = c.KeyShift then (w.orModifiers c.KeyboardShiftModifier, [])
  else if (w.m_keyInfo keyCode).state then (w, [])
  else
    let w1 := w.setKey keyCode { w.m_keyInfo keyCode with state := true, lastTicks := -1 }
    let down : InputEvent :=
      { w1.m_inputEvent.reset c .KeyDownInputEvent with
        type := .KeyDownInputEvent, keyCode := keyCode }
    let w2 := w1.setEvent down
    if w2.m_onInputEvent then
      let press : InputEvent := { down.reset c .KeyPressInputEvent with keyCode := keyCode }
      let w3 := w2.setEvent press
      let w4 := w3.setKey keyCode { w3.m_keyInfo keyCode with lastTicks := now }
      let w5 := w4.setKey keyCode { w4.m_keyInfo keyCode with firstTicks := now }
      (w5, [down, press])
    else (w2, [])

/-- Lines 149 to 158 of `processKeyUp`: the release of the key itself. -/
def releaseKey (c : Fw) (keyCode : Nat) (w : PlatformWindow) :
    PlatformWindow × List InputEvent :=
  if !(w.m_keyInfo keyCode).state then (w, [])
  else
    let w1 := w.setKey keyCode { w.m_keyInfo keyCode with state := false }
    if w1.m_onInputEvent then
      let up : InputEvent := { w1.m_inputEvent.reset c .KeyUpInputEvent with keyCode := keyCode }
      (w1.setEvent up, [up])
    else (w1, [])

/-- A loop `for k in keys: if (m_keyInfo[k].state) body(k)`, the shape of both
the keypad loop of `processKeyUp` and the loop of `releaseAllKeys`. The pressed
flag is read from the window as the earlier iterations left it. -/
def forPressed (body : Nat → PlatformWindow → Option (PlatformWindow × List InputEvent)) :
    List Nat → PlatformWindow → Option (PlatformWindow × List InputEvent)
  | [], w => some (w, [])
  | k :: ks, w =>
    if (w.m_keyInfo k).state then
      match body k w with
      | none => none
      | some (w1, evs1) =>
        match forPressed body ks w1 with
        | none => none
        | some (w2, evs2) => some (w2, evs1 ++ evs2)
    else forPressed body ks w

/-- Embedding of `PlatformWindow::processKeyUp`. The first argument bounds the
nesting of calls: a call needs one unit, and the calls it makes get one less. -/
def processKeyUp (c : Fw) : Nat → Nat → PlatformWindow →
    Option (PlatformWindow × List InputEvent)
  | 0, _, _ => none
  | depth + 1, keyCode, w =>
    if keyCode = c.KeyUnknown then some (w, [])
    else if keyCode = c.KeyCtrl then some (w.andNotModifiers c.KeyboardCtrlModifier, [])
    else if keyCode = c.altKey then some (w.andNotModifiers c.KeyboardAltModifier, [])
    else if keyCode = c.KeyShift then some (w.andNotModifiers c.KeyboardShiftModifier, [])
    else
      let numpad :=
        if keyCode = c.KeyNumLock then
          forPressed (fun k w1 => processKeyUp c depth k w1) c.numpadKeys w
        else some (w, [])
      match numpad with
      | none => none
      | some (w1, evs1) =>
        let r := releaseKey c keyCode w1
        some (r.1, evs1 ++ r.2)

/-- Embedding of `PlatformWindow::releaseAllKeys`. -/
def releaseAllKeys (c : Fw) (depth : Nat) (w : PlatformWindow) :
    Option (PlatformWindow × List InputEvent) :=
  match forPressed (fun k w1 => processKeyUp c depth k w1) (List.range c.KeyLast) w with
  | none => none
  | some (w1, evs) =>
    some ({ w1.setEvent { w1.m_inputEvent with keyboardModifiers := 0 } with
            m_mouseButtonStates := 0 }, evs)

/-- One iteration of the loop of `fireKeysPress`. -/
def fireKey (c : Fw) (now : Int) (keyCode : Nat) (w : PlatformWindow) :
    PlatformWindow × List InputEvent :=
  let keyInfo := w.m_keyInfo keyCode
  if !keyInfo.state then (w, [])
  else
    let lastPressTicks := keyInfo.lastTicks
    let firstKeyPress := keyInfo.firstTicks
    if now - lastPressTicks ≥ keyInfo.delay then
      let r : PlatformWindow × List InputEvent :=
        if w.m_onInputEvent then
          let press : InputEvent :=
            { w.m_inputEvent.reset c .KeyPressInputEvent with
              keyCode := keyCode, autoRepeatTicks := narrowInt32 (now - firstKeyPress) }
          (w.setEvent press, [press])
        else (w, [])
      (r.1.setKey keyCode { r.1.m_keyInfo keyCode with lastTicks := now }, r.2)
    else (w, [])

/-- The loop of `fireKeysPress` over the given key codes. -/
def fireKeys (c : Fw) (now : Int) : List Nat → PlatformWindow →
    PlatformWindow × List InputEvent
  | [], w => (w, [])
  | k :: ks, w =>
    let r1 := fireKey c now k w
    let r2 := fireKeys c now ks r1.1
    (r2.1, r1.2 ++ r2.2)

/-- Embedding of `PlatformWindow::fireKeysPress`, run at clock value `now`. -/
def fireKeysPress (c : Fw) (now : Int) (w : PlatformWindow) :
    PlatformWindow × List InputEvent :=
  if w.ticksElapsed now < 10 then (w, [])
  else fireKeys c now (List.range c.KeyLast) { w with m_keyPressTimer := now }

end PlatformWindow

/-! ## Cursor loader -/

/-- What `loadMouseCursor` reads of a decoded image: `getBpp()`, `getWidth()`,
`getHeight()`, and the pixel buffer handed on to the platform routine. -/
structure Image where
  bpp : Int
  width : Int
  height : Int
  pixels : List Nat
  deriving DecidableEq, Repr

/-- What a call of `loadMouseCursor` does: the value it returns, the calls of
`internalLoadMouseCursor` it makes and the messages it logs, each in order. -/
structure CursorLoad where
  result : Int
  platformCalls : List (Image × (Int × Int))
  logged : List String
  deriving DecidableEq, Repr

/-- Embedding of `PlatformWindow::loadMouseCursor`. The image service
`Image::load` and the platform routine `internalLoadMouseCursor` are the two
collaborators, passed as functions. -/
def PlatformWindow.loadMouseCursor (load : String → Option Image)
    (internalLoadMouseCursor : Image → Int × Int → Int)
    (file : String) (hotSpot : Int × Int) : CursorLoad :=
  match load file with
  | none =>
    { result := -1, platformCalls := [],
      logged := ["unable to load cursor image file " ++ file] }
  | some image =>
    if image.bpp ≠ 4 then
      { result := -1, platformCalls := [],
        logged := ["the cursor image must have 4 channels"] }
    else if image.width ≠ 32 ∨ image.height ≠ 32 then
      { result := -1, platformCalls := [],
        logged := ["the cursor image must have 32x32 dimension"] }
    else
      { result := internalLoadMouseCursor image hotSpot,
        platformCalls := [(image, hotSpot)], logged := [] }

/-! ## Sequences of calls -/

/-- The calls a backend makes on the window: the four key routines, and
registering or removing the input handler. -/
inductive Op where
  | keyDown (now : Int) (keyCode : Nat)
  | keyUp (keyCode : Nat)
  | releaseAll
  | fire (now : Int)
  | setHandler
  | clearHandler
  deriving DecidableEq, Repr

/-- One call on the window. -/
def step (c : Fw) (depth : Nat) : Op → PlatformWindow →
    Option (PlatformWindow × List InputEvent)
  | .keyDown now k, w => some (w.processKeyDown c now k)
  | .keyUp k, w => PlatformWindow.processKeyUp c depth k w
  | .releaseAll, w => w.releaseAllKeys c depth
  | .fire now, w => some (w.fireKeysPress c now)
  | .setHandler, w => some ({ w with m_onInputEvent := true }, [])
  | .clearHandler, w => some ({ w with m_onInputEvent := false }, [])

/-- A sequence of calls; the events of all of them, in dispatch order. -/
def run (c : Fw) (depth : Nat) : List Op → PlatformWindow →
    Option (PlatformWindow × List InputEvent)
  | [], w => some (w, [])
  | op :: ops, w =>
    match step c depth op w with
    | none => none
    | some (w1, evs1) =>
      match run c depth ops w1 with
      | none => none
      | some (w2, evs2) => some (w2, evs1 ++ evs2)

/-- The call is one of the four key routines, on a key code of the table. -/
def Op.isKeyOp (c : Fw) : Op → Prop
  | .keyDown _ k => k < c.KeyLast
  | .keyUp k => k < c.KeyLast
  | .releaseAll => True
  | .fire _ => True
  | .setHandler => False
  | .clearHandler => False

instance (c : Fw) (op : Op) : Decidable (op.isKeyOp c) := by
  cases op <;> unfold Op.isKeyOp <;> infer_instance

/-- The call `processKeyDown(k)` on the window `w` marks a key pressed: `k` is
neither the unknown sentinel nor a modifier and is not marked pressed yet. -/
def marksPressed (c : Fw) (k : Nat) (w : PlatformWindow) : Bool :=
  decide (c.isOrdinary k) && !(w.m_keyInfo k).state

/-- A handler is registered at every `processKeyDown` of the sequence that
marks a key pressed, the sequence being run from the window `w`. Calls of
`processKeyDown` that mark no key (a modifier, the unknown sentinel, a key
already pressed) may come with or without a handler. -/
def handlerAtPresses (c : Fw) (depth : Nat) : List Op → PlatformWindow → Bool
  | [], _ => true
  | op :: ops, w =>
    (match op with
      | .keyDown _ k => !marksPressed c k w || w.m_onInputEvent
      | _ => true) &&
    (match step c depth op w with
      | none => true
      | some (w1, _) => handlerAtPresses c depth ops w1)

/-- Every key is released, as in a window just created. -/
def AllReleased (w : PlatformWindow) : Prop := ∀ k, (w.m_keyInfo k).state = false

/-- The key codes of the table marked pressed, in ascending order. -/
def pressedKeys (c : Fw) (w : PlatformWindow) : List Nat :=
  (List.range c.KeyLast).filter fun k => (w.m_keyInfo k).state

/-- Effect of one event on "key `k` has a KeyDown not yet followed by a KeyUp". -/
def downStep (k : Nat) (b : Bool) (e : InputEvent) : Bool :=
  if e.keyCode = k then
    if e.type = .KeyDownInputEvent then true
    else if e.type = .KeyUpInputEvent then false
    else b
  else b

/-- The event list contains a KeyDown of `k` with no KeyUp of `k` after it. -/
def unmatchedDown (k : Nat) (evs : List InputEvent) : Bool :=
  evs.foldl (downStep k) false

/-- Every KeyPress of the list comes after a KeyDown of the same key with no
KeyUp of that key in between. -/
def KeyPressOrdered (evs : List InputEvent) : Prop :=
  ∀ pre e post, evs = pre ++ e :: post → e.type = .KeyPressInputEvent →
    unmatchedDown e.keyCode pre = true

/-- The type and key code of an event. -/
def InputEvent.kind (e : InputEvent) : InputEventType × Nat := (e.type, e.keyCode)

/-- What a run of key releases does to the window: `evs` are the events
dispatched between the window `w` and the window `w2`. The handler flag is
kept; every event is a KeyUp of a key pressed in `w` and released in `w2`; no
key is released twice; no key becomes pressed; and with a handler registered
every key released on the way has its KeyUp. -/
structure Releases (w w2 : PlatformWindow) (evs : List InputEvent) : Prop where
  handler : w2.m_onInputEvent = w.m_onInputEvent
  types : ∀ e ∈ evs, e.type = .KeyUpInputEvent
  sub : ∀ k, (w2.m_keyInfo k).state = true → (w.m_keyInfo k).state = true
  released : ∀ e ∈ evs,
    (w.m_keyInfo e.keyCode).state = true ∧ (w2.m_keyInfo e.keyCode).state = false
  nodup : (evs.map InputEvent.keyCode).Nodup
  complete : w.m_onInputEvent = true → ∀ k, (w.m_keyInfo k).state = true →
    (w2.m_keyInfo k).state = false → k ∈ evs.map InputEvent.keyCode

/-- Only ordinary key codes of the table are marked pressed. -/
def PressedOrdinary (c : Fw) (w : PlatformWindow) : Prop :=
  ∀ k, (w.m_keyInfo k).state = true → c.isOrdinary k ∧ k < c.KeyLast

/-! ## Shader registry -/

/-- Embedding of `ShaderManager::getShaderById` (shadermanager.h). The id is a
`uint8_t`. A handle is `some program` or the null handle `none`. Reading
`m_shadersVector` outside its bounds is undefined in the source; the embedding
answers `none` for such a read and `some handle` for a returned handle. -/
def ShaderManager.getShaderById {Program : Type} (m_shadersVector : List (Option Program))
    (id : Fin 256) : Option (Option Program) :=
  if id.val > 0 ∧ id.val ≤ m_shadersVector.length then m_shadersVector[id.val - 1]?
  else some none

/-! ## Histories of the modifier state and of a key -/

/-- The modifier mask a key code toggles, read off the branches of
`processKeyDown` and `processKeyUp` in their order: none for the unknown
sentinel and for an ordinary key. -/
def Fw.maskOf (c : Fw) (k : Nat) : Nat :=
  if k = c.KeyUnknown then 0
  else if k = c.KeyCtrl then c.KeyboardCtrlModifier
  else if k = c.altKey then c.KeyboardAltModifier
  else if k = c.KeyShift then c.KeyboardShiftModifier
  else 0

/-- Effect of one call on "bit `i` was set by a modifier down and not cleared
since by the up of a modifier with that bit or by `releaseAllKeys`". -/
def bitStep (c : Fw) (i : Nat) (b : Bool) : Op → Bool
  | .keyDown _ k => b || (c.maskOf k).testBit i
  | .keyUp k => b && !(c.maskOf k).testBit i
  | .releaseAll => false
  | .fire _ => b
  | .setHandler => b
  | .clearHandler => b

/-- Bit `i` is set by a modifier down of the sequence and not cleared since. -/
def bitAfter (c : Fw) (i : Nat) (ops : List Op) : Bool :=
  ops.foldl (bitStep c i) false

/-- The call is on a key code of the table, when it names a key. -/
def Op.inTable (c : Fw) : Op → Prop
  | .keyDown _ k => k < c.KeyLast
  | .keyUp k => k < c.KeyLast
  | .releaseAll => True
  | .fire _ => True
  | .setHandler => True
  | .clearHandler => True

instance (c : Fw) (op : Op) : Decidable (op.inTable c) := by
  cases op <;> unfold Op.inTable <;> infer_instance

/-- The events of the dispatch path of the call `op` made on the window `w`,
field by field, the modifier mask being the modifier state of `w`.
`processKeyDown(k)`: no event, or a KeyDown of `k` followed by a KeyPress of
`k`, both with `autoRepeatTicks` 0. `processKeyUp(k)`: KeyUp events with
`autoRepeatTicks` 0, of `k` or, when `k` is NumLock, of a keypad digit.
`fireKeysPress`: KeyPress events of keys pressed in `w`, with `autoRepeatTicks`
the narrowed `now - firstTicks` of the key. `releaseAllKeys`: KeyUp events of
keys pressed in `w`, with `autoRepeatTicks` 0. Registering or removing the
handler dispatches nothing. -/
def EventsOfPath (c : Fw) (w : PlatformWindow) (op : Op) (evs : List InputEvent) : Prop :=
  match op with
  | .keyDown _ k =>
    evs = [] ∨
    evs = [⟨.KeyDownInputEvent, k, w.m_inputEvent.keyboardModifiers, 0⟩,
           ⟨.KeyPressInputEvent, k, w.m_inputEvent.keyboardModifiers, 0⟩]
  | .keyUp k =>
    ∀ e ∈ evs, e.type = .KeyUpInputEvent ∧
      (e.keyCode = k ∨ (k = c.KeyNumLock ∧ e.keyCode ∈ c.numpadKeys)) ∧
      e.keyboardModifiers = w.m_inputEvent.keyboardModifiers ∧ e.autoRepeatTicks = 0
  | .releaseAll =>
    ∀ e ∈ evs, e.type = .KeyUpInputEvent ∧ (w.m_keyInfo e.keyCode).state = true ∧
      e.keyboardModifiers = w.m_inputEvent.keyboardModifiers ∧ e.autoRepeatTicks = 0
  | .fire now =>
    ∀ e ∈ evs, e.type = .KeyPressInputEvent ∧ (w.m_keyInfo e.keyCode).state = true ∧
      e.keyboardModifiers = w.m_inputEvent.keyboardModifiers ∧
      e.autoRepeatTicks = narrowInt32 (now - (w.m_keyInfo e.keyCode).firstTicks)
  | .setHandler => evs = []
  | .clearHandler => evs = []

/-- Effect of one event on the alternation of KeyDown and KeyUp of key `k`:
`some b` while they alternate, `b` telling whether the last one was a KeyDown;
`none` once a KeyDown follows a KeyDown or a KeyUp comes with no KeyDown open. -/
def altStep (k : Nat) (s : Option Bool) (e : InputEvent) : Option Bool :=
  match s with
  | none => none
  | some b =>
    if e.keyCode = k then
      if e.type = .KeyDownInputEvent then (if b then none else some true)
      else if e.type = .KeyUpInputEvent then (if b then some false else none)
      else some b
    else some b

/-- The KeyDown and KeyUp events of key `k` alternate, starting with a KeyDown:
`some true` when the last of them is a KeyDown, `some false` when it is a
KeyUp or there is none, `none` when they do not alternate. -/
def alternation (k : Nat) (evs : List InputEvent) : Option Bool :=
  evs.foldl (altStep k) (some false)

/-- Number of events of the given type for key `k`. -/
def countEvents (t : InputEventType) (k : Nat) (evs : List InputEvent) : Nat :=
  (evs.filter fun e => decide (e.type = t ∧ e.keyCode = k)).length

/-- Two windows agree on everything but the timestamps of keys that are not
marked pressed. -/
def AgreeUpToStale (a b : PlatformWindow) : Prop :=
  (∀ k, (a.m_keyInfo k).state = (b.m_keyInfo k).state ∧
    (a.m_keyInfo k).delay = (b.m_keyInfo k).delay ∧
    ((a.m_keyInfo k).state = true → a.m_keyInfo k = b.m_keyInfo k)) ∧
  a.m_inputEvent = b.m_inputEvent ∧
  a.m_mouseButtonStates = b.m_mouseButtonStates ∧
  a.m_onInputEvent = b.m_onInputEvent ∧
  a.m_keyPressTimer = b.m_keyPressTimer ∧
  a.m_position = b.m_position ∧ a.m_size = b.m_size ∧
  a.m_unmaximizedPos = b.m_unmaximizedPos ∧ a.m_unmaximizedSize = b.m_unmaximizedSize ∧
  a.m_maximized = b.m_maximized ∧ a.m_fullscreen = b.m_fullscreen

/-- Two results of a routine agree: both ran out of nesting depth, or both
returned, with the same events and windows that agree up to stale
timestamps. -/
def AgreeResults (ra rb : Option (PlatformWindow × List InputEvent)) : Prop :=
  match ra, rb with
  | none, none => True
  | some x, some y => x.2 = y.2 ∧ AgreeUpToStale x.1 y.1
  | _, _ => False

/-! ## Sample data used to instantiate the theorems -/

/-- A sample enumeration: named keys on distinct codes, keypad digits on
141 to 150, a table of 160 codes, one modifier bit per modifier key. -/
def sampleFw : Fw :=
  { KeyUnknown := 0, KeyCtrl := 21, KeyAlt := 23, KeyMeta := 25, KeyShift := 22,
    KeyNumLock := 18, KeyNumpad0 := 141, KeyNumpad9 := 150, KeyLast := 160,
    KeyboardCtrlModifier := 1, KeyboardAltModifier := 2, KeyboardShiftModifier := 4,
    apple := false }

/-- A window with every key released, a handler registered, and a repeat
delay of 30 ms on every key. -/
def sampleWindow : PlatformWindow :=
  { m_keyInfo := fun _ => { state := false, firstTicks := 0, lastTicks := 0, delay := 30 },
    m_inputEvent :=
      { type := .NoInputEvent, keyCode := 0, keyboardModifiers := 0, autoRepeatTicks := 0 },
    m_mouseButtonStates := 0,
    m_onInputEvent := true,
    m_keyPressTimer := 0,
    m_position := (10, 20),
    m_size := (800, 600),
    m_unmaximizedPos := (0, 0),
    m_unmaximizedSize := (640, 480),
    m_maximized := false,
    m_fullscreen := false }

/-- The sample window after NumLock (18) and the keypad digits 1 and 4 (142,
145) went down at clock values 5, 6 and 7. -/
def samplePressed : PlatformWindow :=
  (PlatformWindow.processKeyDown sampleFw 7 18
    (PlatformWindow.processKeyDown sampleFw 6 145
      (PlatformWindow.processKeyDown sampleFw 5 142 sampleWindow).1).1).1

/-- The calls that lead from `sampleWindow` to `samplePressed`. -/
def sampleOps : List Op := [.keyDown 5 142, .keyDown 6 145, .keyDown 7 18]

/-- The events dispatched by `sampleOps` on `sampleWindow`. -/
def sampleEvents : List InputEvent :=
  [⟨.KeyDownInputEvent, 142, 0, 0⟩, ⟨.KeyPressInputEvent, 142, 0, 0⟩,
   ⟨.KeyDownInputEvent, 145, 0, 0⟩, ⟨.KeyPressInputEvent, 145, 0, 0⟩,
   ⟨.KeyDownInputEvent, 18, 0, 0⟩, ⟨.KeyPressInputEvent, 18, 0, 0⟩]

/-- A sequence in which the handler comes and goes: Ctrl goes down and key 30
goes down a second time while no handler is registered. -/
def sampleHandlerOps : List Op :=
  [.clearHandler, .keyDown 1 21, .setHandler, .keyDown 5 30, .fire 60, .clearHandler,
   .keyDown 61 30, .keyUp 21, .releaseAll]

/-- The sample window after key 30 went down at clock value 0. -/
def sampleHeld : PlatformWindow :=
  (PlatformWindow.processKeyDown sampleFw 0 30 sampleWindow).1

/-- The window `sampleHeld` after a run of the repeat engine at clock value 25,
which restarts the throttle timer and finds no key due. -/
def sampleThrottled : PlatformWindow :=
  (PlatformWindow.fireKeysPress sampleFw 25 sampleHeld).1

/-- The sample window with no handler registered. -/
def sampleMute : PlatformWindow := { sampleWindow with m_onInputEvent := false }

/-- The window `sampleMute` where the released key 30 carries the timestamps
of an earlier press. -/
def sampleMuteStale : PlatformWindow :=
  sampleMute.setKey 30 { state := false, firstTicks := 99, lastTicks := 99, delay := 30 }

/-- Ctrl and Shift go down, Shift goes up. -/
def sampleModOps : List Op := [.keyDown 1 21, .keyDown 2 22, .keyUp 22]

/-- The sample window after `sampleModOps`. -/
def sampleModWindow : PlatformWindow :=
  ((sampleWindow.orModifiers 1).orModifiers 4).andNotModifiers 4

/-! ## Basic facts about the window updates -/

open PlatformWindow

@[simp] theorem setKey_keyInfo_same (w : PlatformWindow) (k : Nat) (v : KeyInfo) :
    (w.setKey k v).m_keyInfo k = v := by
  simp [setKey]

theorem setKey_keyInfo_other (w : PlatformWindow) (k j : Nat) (v : KeyInfo) (h : j ≠ k) :
    (w.setKey k v).m_keyInfo j = w.m_keyInfo j := by
  simp [setKey, h]

theorem setKey_keyInfo (w : PlatformWindow) (k j : Nat) (v : KeyInfo) :
    (w.setKey k v).m_keyInfo j = if j = k then v else w.m_keyInfo j := rfl

@[simp] theorem setKey_inputEvent (w : PlatformWindow) (k : Nat) (v : KeyInfo) :
    (w.setKey k v).m_inputEvent = w.m_inputEvent := rfl

@[simp] theorem setKey_onInputEvent (w : PlatformWindow) (k : Nat) (v : KeyInfo) :
    (w.setKey k v).m_onInputEvent = w.m_onInputEvent := rfl

@[simp] theorem setKey_mouse (w : PlatformWindow) (k : Nat) (v : KeyInfo) :
    (w.setKey k v).m_mouseButtonStates = w.m_mouseButtonStates := rfl

@[simp] theorem setKey_timer (w : PlatformWindow) (k : Nat) (v : KeyInfo) :
    (w.setKey k v).m_keyPressTimer = w.m_keyPressTimer := rfl

@[simp] theorem setEvent_keyInfo (w : PlatformWindow) (e : InputEvent) :
    (w.setEvent e).m_keyInfo = w.m_keyInfo := rfl

@[simp] theorem setEvent_inputEvent (w : PlatformWindow) (e : InputEvent) :
    (w.setEvent e).m_inputEvent = e := rfl

@[simp] theorem setEvent_onInputEvent (w : PlatformWindow) (e : InputEvent) :
    (w.setEvent e).m_onInputEvent = w.m_onInputEvent := rfl

@[simp] theorem setEvent_mouse (w : PlatformWindow) (e : InputEvent) :
    (w.setEvent e).m_mouseButtonStates = w.m_mouseButtonStates := rfl

@[simp] theorem setEvent_timer (w : PlatformWindow) (e : InputEvent) :
    (w.setEvent e).m_keyPressTimer = w.m_keyPressTimer := rfl

theorem testBit_clearBits (x mask i : Nat) :
    (clearBits x mask).testBit i = (x.testBit i && !mask.testBit i) := by
  unfold clearBits
  rw [Nat.testBit_xor, Nat.testBit_and]
  cases x.testBit i <;> cases mask.testBit i <;> rfl

theorem orModifiers_idem (w : PlatformWindow) (mask : Nat) :
    (w.orModifiers mask).orModifiers mask = w.orModifiers mask := by
  simp [orModifiers, setEvent, Nat.lor_assoc]

/-! ## Cursor loader and geometry tracker -/

/-- C8: `loadMouseCursor` returns -1 and makes no call of the platform routine
when the file does not decode, when the image does not have exactly 4
channels, or when it is not exactly 32x32; for a 32x32 image of 4 channels it
calls the platform routine once, with that image and hot spot, and returns
what the routine returned. -/
theorem loadMouseCursor_outcome (load : String → Option Image)
    (platform : Image → Int × Int → Int) (file : String) (hotSpot : Int × Int) :
    (load file = none →
      (loadMouseCursor load platform file hotSpot).result = -1 ∧
      (loadMouseCursor load platform file hotSpot).platformCalls = []) ∧
    (∀ image, load file = some image →
      (image.bpp ≠ 4 ∨ image.width ≠ 32 ∨ image.height ≠ 32) →
      (loadMouseCursor load platform file hotSpot).result = -1 ∧
      (loadMouseCursor load platform file hotSpot).platformCalls = []) ∧
    (∀ image, load file = some image →
      image.bpp = 4 → image.width = 32 → image.height = 32 →
      (loadMouseCursor load platform file hotSpot).platformCalls = [(image, hotSpot)] ∧
      (loadMouseCursor load platform file hotSpot).result = platform image hotSpot) := by
  refine ⟨?_, ?_, ?_⟩
  · intro h
    simp [loadMouseCursor, h]
  · intro image h hbad
    by_cases h4 : image.bpp = 4
    · have hdim : image.width ≠ 32 ∨ image.height ≠ 32 := by
        rcases hbad with hb | hb | hb
        · exact absurd h4 hb
        · exact Or.inl hb
        · exact Or.inr hb
      simp only [loadMouseCursor, h, h4, ne_eq, not_true_eq_false, if_false, if_pos hdim]
      exact ⟨trivial, trivial⟩
    · simp [loadMouseCursor, h, h4]
  · intro image h h4 hw hh
    simp [loadMouseCursor, h, h4, hw, hh]

/-- Instance of `loadMouseCursor_outcome`: a 16x16 image, a 32x32 image of 3
channels and a file that does not decode fail without a platform call; a
32x32 image of 4 channels is handed to the platform routine. -/
theorem loadMouseCursor_outcome_witness :
    (loadMouseCursor (fun _ => some ⟨4, 16, 16, []⟩) (fun _ _ => 7) "small.png" (1, 2)).result
      = -1 ∧
    (loadMouseCursor (fun _ => some ⟨4, 16, 16, []⟩) (fun _ _ => 7) "small.png"
      (1, 2)).platformCalls = [] ∧
    (loadMouseCursor (fun _ => some ⟨3, 32, 32, []⟩) (fun _ _ => 7) "rgb.png" (1, 2)).result
      = -1 ∧
    (loadMouseCursor (fun _ => none) (fun _ _ => 7) "missing.png" (1, 2)).result = -1 ∧
    (loadMouseCursor (fun _ => some ⟨4, 32, 32, []⟩) (fun _ _ => 7) "cursor.png"
      (1, 2)).platformCalls = [(⟨4, 32, 32, []⟩, (1, 2))] ∧
    (loadMouseCursor (fun _ => some ⟨4, 32, 32, []⟩) (fun _ _ => 7) "cursor.png"
      (1, 2)).result = 7 :=
  ⟨((loadMouseCursor_outcome (fun _ => some ⟨4, 16, 16, []⟩) (fun _ _ => 7) "small.png"
      (1, 2)).2.1 ⟨4, 16, 16, []⟩ rfl (by decide)).1,
    by decide, by decide, by decide, by decide, by decide⟩

/-- C9: `updateUnmaximizedCoords` keeps the cached unmaximized position and
size when the window is maximized or fullscreen, sets them to the current
position and size when it is neither, and changes no other member. -/
theorem updateUnmaximizedCoords_effect (w : PlatformWindow) :
    ((w.m_maximized = true ∨ w.m_fullscreen = true) →
      w.updateUnmaximizedCoords.m_unmaximizedPos = w.m_unmaximizedPos ∧
      w.updateUnmaximizedCoords.m_unmaximizedSize = w.m_unmaximizedSize) ∧
    ((w.m_maximized = false ∧ w.m_fullscreen = false) →
      w.updateUnmaximizedCoords.m_unmaximizedPos = w.m_position ∧
      w.updateUnmaximizedCoords.m_unmaximizedSize = w.m_size) ∧
    w.updateUnmaximizedCoords.m_position = w.m_position ∧
    w.updateUnmaximizedCoords.m_size = w.m_size ∧
    w.updateUnmaximizedCoords.m_keyInfo = w.m_keyInfo ∧
    w.updateUnmaximizedCoords.m_inputEvent = w.m_inputEvent ∧
    w.updateUnmaximizedCoords.m_mouseButtonStates = w.m_mouseButtonStates ∧
    w.updateUnmaximizedCoords.m_onInputEvent = w.m_onInputEvent ∧
    w.updateUnmaximizedCoords.m_keyPressTimer = w.m_keyPressTimer ∧
    w.updateUnmaximizedCoords.m_maximized = w.m_maximized ∧
    w.updateUnmaximizedCoords.m_fullscreen = w.m_fullscreen := by
  unfold updateUnmaximizedCoords
  cases hm : w.m_maximized <;> cases hf : w.m_fullscreen <;> simp [hm, hf]

/-! ## Key down -/

theorem processKeyDown_pressed (c : Fw) (now : Int) (k : Nat) (w : PlatformWindow)
    (hk : c.isOrdinary k) (hp : (w.m_keyInfo k).state = true) :
    processKeyDown c now k w = (w, []) := by
  obtain ⟨h0, hm⟩ := hk
  simp only [Fw.isModifier, not_or] at hm
  simp [processKeyDown, h0, hm.1, hm.2.1, hm.2.2, hp]

theorem processKeyDown_unpressed (c : Fw) (now : Int) (k : Nat) (w : PlatformWindow)
    (hk : c.isOrdinary k) (hp : (w.m_keyInfo k).state = false)
    (hh : w.m_onInputEvent = true) :
    (processKeyDown c now k w).2 =
      [⟨.KeyDownInputEvent, k, w.m_inputEvent.keyboardModifiers, 0⟩,
       ⟨.KeyPressInputEvent, k, w.m_inputEvent.keyboardModifiers, 0⟩] ∧
    (processKeyDown c now k w).1.m_keyInfo k =
      { w.m_keyInfo k with state := true, lastTicks := now, firstTicks := now } ∧
    (∀ j, j ≠ k → (processKeyDown c now k w).1.m_keyInfo j = w.m_keyInfo j) ∧
    (processKeyDown c now k w).1.m_onInputEvent = true := by
  obtain ⟨h0, hm⟩ := hk
  simp only [Fw.isModifier, not_or] at hm
  refine ⟨?_, ?_, ?_, ?_⟩
  · simp [processKeyDown, h0, hm.1, hm.2.1, hm.2.2, hp, hh, InputEvent.reset]
  · simp [processKeyDown, h0, hm.1, hm.2.1, hm.2.2, hp, hh]
  · intro j hj
    simp [processKeyDown, h0, hm.1, hm.2.1, hm.2.2, hp, hh, setKey_keyInfo, hj]
  · simp [processKeyDown, h0, hm.1, hm.2.1, hm.2.2, hp, hh]

theorem processKeyDown_state_after (c : Fw) (now : Int) (k : Nat) (w : PlatformWindow)
    (hk : c.isOrdinary k) :
    ((processKeyDown c now k w).1.m_keyInfo k).state = true := by
  obtain ⟨h0, hm⟩ := hk
  simp only [Fw.isModifier, not_or] at hm
  cases hp : (w.m_keyInfo k).state
  · cases hh : w.m_onInputEvent <;>
      simp [processKeyDown, h0, hm.1, hm.2.1, hm.2.2, hp, hh]
  · simp [processKeyDown, h0, hm.1, hm.2.1, hm.2.2, hp]

/-- C3: a second `processKeyDown` of the same key right after the first
dispatches no event and returns the window exactly as the first call left
it, for every key code, window and pair of clock values. -/
theorem processKeyDown_twice (c : Fw) (now1 now2 : Int) (k : Nat) (w : PlatformWindow) :
    processKeyDown c now2 k (processKeyDown c now1 k w).1 =
      ((processKeyDown c now1 k w).1, []) := by
  by_cases h0 : k = c.KeyUnknown
  · simp [processKeyDown, h0]
  by_cases h1 : k = c.KeyCtrl
  · subst h1
    simp [processKeyDown, h0, orModifiers_idem]
  by_cases h2 : k = c.altKey
  · subst h2
    simp [processKeyDown, h0, h1, orModifiers_idem]
  by_cases h3 : k = c.KeyShift
  · subst h3
    simp [processKeyDown, h0, h1, h2, orModifiers_idem]
  have hk : c.isOrdinary k := ⟨h0, by simp [Fw.isModifier, h1, h2, h3]⟩
  exact processKeyDown_pressed c now2 k _ hk (processKeyDown_state_after c now1 k w hk)

/-! ## Key up -/

theorem wellFormed_numpad (c : Fw) (hc : c.WellFormed) (k : Nat) (hk : k ∈ c.numpadKeys) :
    c.isOrdinary k ∧ k ≠ c.KeyNumLock :=
  hc.2.2.2.2.2.2.2.2.2.2.2 k hk

theorem wellFormed_numLock (c : Fw) (hc : c.WellFormed) : c.isOrdinary c.KeyNumLock :=
  hc.2.2.2.2.1

theorem wellFormed_numLock_not_numpad (c : Fw) (hc : c.WellFormed) :
    c.KeyNumLock ∉ c.numpadKeys :=
  fun h => (wellFormed_numpad c hc _ h).2 rfl

theorem releaseKey_unpressed (c : Fw) (k : Nat) (w : PlatformWindow)
    (hp : (w.m_keyInfo k).state = false) : releaseKey c k w = (w, []) := by
  simp [releaseKey, hp]

theorem releaseKey_events (c : Fw) (k : Nat) (w : PlatformWindow) :
    (releaseKey c k w).2 =
      if (w.m_keyInfo k).state = true ∧ w.m_onInputEvent = true then
        [⟨.KeyUpInputEvent, k, w.m_inputEvent.keyboardModifiers, 0⟩]
      else [] := by
  cases hp : (w.m_keyInfo k).state <;> cases hh : w.m_onInputEvent <;>
    simp [releaseKey, hp, hh, InputEvent.reset]

theorem releaseKey_keyInfo (c : Fw) (k j : Nat) (w : PlatformWindow) :
    (releaseKey c k w).1.m_keyInfo j =
      if j = k then { w.m_keyInfo k with state := false } else w.m_keyInfo j := by
  cases hp : (w.m_keyInfo k).state <;> cases hh : w.m_onInputEvent
  · by_cases hj : j = k
    · subst hj
      simp only [releaseKey, hp, Bool.not_false, if_true]
      rw [← hp]
    · simp [releaseKey, hp, hj]
  · by_cases hj : j = k
    · subst hj
      simp only [releaseKey, hp, Bool.not_false, if_true]
      rw [← hp]
    · simp [releaseKey, hp, hj]
  · simp [releaseKey, hp, hh, setKey_keyInfo]
  · simp [releaseKey, hp, hh, setKey_keyInfo]

theorem releaseKey_frame (c : Fw) (k : Nat) (w : PlatformWindow) :
    (releaseKey c k w).1.m_onInputEvent = w.m_onInputEvent ∧
    (releaseKey c k w).1.m_inputEvent.keyboardModifiers = w.m_inputEvent.keyboardModifiers ∧
    (releaseKey c k w).1.m_mouseButtonStates = w.m_mouseButtonStates ∧
    (releaseKey c k w).1.m_keyPressTimer = w.m_keyPressTimer := by
  cases hp : (w.m_keyInfo k).state <;> cases hh : w.m_onInputEvent <;>
    simp [releaseKey, hp, hh, InputEvent.reset]

theorem processKeyUp_ordinary (c : Fw) (depth k : Nat) (w : PlatformWindow)
    (hk : c.isOrdinary k) (hn : k ≠ c.KeyNumLock) :
    processKeyUp c (depth + 1) k w = some (releaseKey c k w) := by
  obtain ⟨h0, hm⟩ := hk
  simp only [Fw.isModifier, not_or] at hm
  simp [processKeyUp, h0, hm.1, hm.2.1, hm.2.2, hn]

theorem processKeyUp_numLock (c : Fw) (depth : Nat) (w : PlatformWindow)
    (hk : c.isOrdinary c.KeyNumLock) :
    processKeyUp c (depth + 1) c.KeyNumLock w =
      match forPressed (fun k w1 => processKeyUp c depth k w1) c.numpadKeys w with
      | none => none
      | some (w1, evs1) =>
        some ((releaseKey c c.KeyNumLock w1).1, evs1 ++ (releaseKey c c.KeyNumLock w1).2) := by
  obtain ⟨h0, hm⟩ := hk
  simp only [Fw.isModifier, not_or] at hm
  simp [processKeyUp, h0, hm.1, hm.2.1, hm.2.2]

theorem forPressed_congr (body1 body2 : Nat → PlatformWindow →
      Option (PlatformWindow × List InputEvent)) (ks : List Nat)
    (h : ∀ k ∈ ks, ∀ w, body1 k w = body2 k w) (w : PlatformWindow) :
    forPressed body1 ks w = forPressed body2 ks w := by
  induction ks generalizing w with
  | nil => rfl
  | cons k ks ih =>
    have ih2 : ∀ w, forPressed body1 ks w = forPressed body2 ks w :=
      fun w => ih (fun j hj => h j (List.mem_cons_of_mem _ hj)) w
    simp only [forPressed, h k (List.mem_cons_self _ _), ih2]

theorem forPressed_none_pressed (body : Nat → PlatformWindow →
      Option (PlatformWindow × List InputEvent)) (ks : List Nat) (w : PlatformWindow)
    (h : ∀ k ∈ ks, (w.m_keyInfo k).state = false) :
    forPressed body ks w = some (w, []) := by
  induction ks with
  | nil => rfl
  | cons k ks ih =>
    simp only [forPressed, h k (List.mem_cons_self _ _), Bool.false_eq_true, if_false]
    exact ih (fun j hj => h j (List.mem_cons_of_mem _ hj))

/-- The keypad loop of `processKeyUp`, whose nested calls release the digit itself. -/
theorem numpad_loop_eq (c : Fw) (hc : c.WellFormed) (depth : Nat) (w : PlatformWindow) :
    forPressed (fun k w1 => processKeyUp c (depth + 1) k w1) c.numpadKeys w =
      forPressed (fun k w1 => some (releaseKey c k w1)) c.numpadKeys w := by
  apply forPressed_congr
  intro k hk w1
  exact processKeyUp_ordinary c depth k w1 (wellFormed_numpad c hc k hk).1
    (wellFormed_numpad c hc k hk).2

/-- C1 (amended): for a key that is neither the unknown sentinel nor a
modifier and is not marked pressed, in a window with a handler registered
(and, when the key is NumLock, with no keypad digit marked pressed),
`processKeyDown` immediately followed by `processKeyUp` dispatches exactly
KeyDown, KeyPress, KeyUp of that key, in that order. -/
theorem keyDown_keyUp_events (c : Fw) (hc : c.WellFormed) (now : Int) (depth k : Nat)
    (w : PlatformWindow) (hk : c.isOrdinary k) (hh : w.m_onInputEvent = true)
    (hp : (w.m_keyInfo k).state = false)
    (hn : k = c.KeyNumLock → ∀ d ∈ c.numpadKeys, (w.m_keyInfo d).state = false) :
    ∃ w2 ups, processKeyUp c (depth + 1) k (processKeyDown c now k w).1 = some (w2, ups) ∧
      ((processKeyDown c now k w).2 ++ ups).map InputEvent.kind =
        [(.KeyDownInputEvent, k), (.KeyPressInputEvent, k), (.KeyUpInputEvent, k)] := by
  obtain ⟨hev, hki, hother, hh1⟩ := processKeyDown_unpressed c now k w hk hp hh
  have hst : ((processKeyDown c now k w).1.m_keyInfo k).state = true := by rw [hki]
  by_cases hnl : k = c.KeyNumLock
  · subst hnl
    have hloop : forPressed (fun k w1 => processKeyUp c depth k w1) c.numpadKeys
        (processKeyDown c now c.KeyNumLock w).1 =
        some ((processKeyDown c now c.KeyNumLock w).1, []) := by
      apply forPressed_none_pressed
      intro d hd
      rw [hother d (wellFormed_numpad c hc d hd).2]
      exact hn rfl d hd
    refine ⟨(releaseKey c c.KeyNumLock (processKeyDown c now c.KeyNumLock w).1).1,
      [] ++ (releaseKey c c.KeyNumLock (processKeyDown c now c.KeyNumLock w).1).2, ?_, ?_⟩
    · rw [processKeyUp_numLock c depth _ hk, hloop]
    · simp [hev, releaseKey_events, hst, hh1, InputEvent.kind]
  · refine ⟨(releaseKey c k (processKeyDown c now k w).1).1,
      (releaseKey c k (processKeyDown c now k w).1).2, ?_, ?_⟩
    · rw [processKeyUp_ordinary c depth k _ hk hnl]
    · simp [hev, releaseKey_events, hst, hh1, InputEvent.kind]

/-- Instance of `keyDown_keyUp_events`: key 30 on the sample window. -/
theorem keyDown_keyUp_events_witness :
    sampleFw.WellFormed ∧ sampleFw.isOrdinary 30 ∧ sampleWindow.m_onInputEvent = true ∧
    (sampleWindow.m_keyInfo 30).state = false ∧
    ∃ w2 ups, processKeyUp sampleFw 1 30 (processKeyDown sampleFw 7 30 sampleWindow).1 =
        some (w2, ups) ∧
      ((processKeyDown sampleFw 7 30 sampleWindow).2 ++ ups).map InputEvent.kind =
        [(.KeyDownInputEvent, 30), (.KeyPressInputEvent, 30), (.KeyUpInputEvent, 30)] :=
  ⟨by decide, by decide, rfl, rfl,
    keyDown_keyUp_events sampleFw (by decide) 7 0 30 sampleWindow (by decide) rfl rfl
      (by decide)⟩

/-- C1 fails as stated: with a handler registered and Ctrl not marked pressed,
`processKeyDown(KeyCtrl)` followed by `processKeyUp(KeyCtrl)` dispatches no
event at all. -/
theorem ctrl_down_up_dispatches_nothing :
    sampleWindow.m_onInputEvent = true ∧
    (sampleWindow.m_keyInfo sampleFw.KeyCtrl).state = false ∧
    (processKeyDown sampleFw 7 sampleFw.KeyCtrl sampleWindow).2 = [] ∧
    (processKeyUp sampleFw 2 sampleFw.KeyCtrl
      (processKeyDown sampleFw 7 sampleFw.KeyCtrl sampleWindow).1).map Prod.snd = some [] := by
  decide

/-! ## Modifier keys -/

/-- C10: for Ctrl, Alt on the non-Apple build, and Shift, `processKeyDown`
sets the bits of the key's modifier mask and `processKeyUp` clears them, every
other bit of the modifier state staying as it was; neither call dispatches an
event, changes a key record or changes the mouse button mask. -/
theorem modifier_key_effect (c : Fw) (hc : c.WellFormed) (now : Int) (depth : Nat)
    (w : PlatformWindow) (m mask : Nat)
    (hm : (m = c.KeyCtrl ∧ mask = c.KeyboardCtrlModifier) ∨
          (c.apple = false ∧ m = c.KeyAlt ∧ mask = c.KeyboardAltModifier) ∨
          (m = c.KeyShift ∧ mask = c.KeyboardShiftModifier)) :
    ((processKeyDown c now m w).2 = [] ∧
      (∀ i, (processKeyDown c now m w).1.m_inputEvent.keyboardModifiers.testBit i =
        (w.m_inputEvent.keyboardModifiers.testBit i || mask.testBit i)) ∧
      (processKeyDown c now m w).1.m_keyInfo = w.m_keyInfo ∧
      (processKeyDown c now m w).1.m_mouseButtonStates = w.m_mouseButtonStates) ∧
    ∃ w2, processKeyUp c (depth + 1) m w = some (w2, []) ∧
      (∀ i, w2.m_inputEvent.keyboardModifiers.testBit i =
        (w.m_inputEvent.keyboardModifiers.testBit i && !mask.testBit i)) ∧
      w2.m_keyInfo = w.m_keyInfo ∧
      w2.m_mouseButtonStates = w.m_mouseButtonStates := by
  obtain ⟨-, -, -, -, -, hcu, hau, hsu, hca, hcs, has, -⟩ := hc
  rcases hm with ⟨rfl, rfl⟩ | ⟨hap, rfl, rfl⟩ | ⟨rfl, rfl⟩
  · refine ⟨⟨?_, ?_, ?_, ?_⟩, w.andNotModifiers c.KeyboardCtrlModifier, ?_, ?_, ?_, ?_⟩
    · simp [processKeyDown, hcu]
    · intro i
      simp [processKeyDown, hcu, orModifiers, Nat.testBit_or]
    · simp [processKeyDown, hcu, orModifiers]
    · simp [processKeyDown, hcu, orModifiers]
    · simp only [processKeyUp, hcu, if_false, if_true]
    · intro i
      simp [andNotModifiers, testBit_clearBits]
    · rfl
    · rfl
  · have hak : c.altKey = c.KeyAlt := by simp [Fw.altKey, hap]
    rw [hak] at hau hca has
    refine ⟨⟨?_, ?_, ?_, ?_⟩, w.andNotModifiers c.KeyboardAltModifier, ?_, ?_, ?_, ?_⟩
    · simp [processKeyDown, hau, Ne.symm hca, hak]
    · intro i
      simp [processKeyDown, hau, Ne.symm hca, hak, orModifiers, Nat.testBit_or]
    · simp [processKeyDown, hau, Ne.symm hca, hak, orModifiers]
    · simp [processKeyDown, hau, Ne.symm hca, hak, orModifiers]
    · simp only [processKeyUp, hau, Ne.symm hca, hak, if_false, if_true]
    · intro i
      simp [andNotModifiers, testBit_clearBits]
    · rfl
    · rfl
  · refine ⟨⟨?_, ?_, ?_, ?_⟩, w.andNotModifiers c.KeyboardShiftModifier, ?_, ?_, ?_, ?_⟩
    · simp [processKeyDown, hsu, Ne.symm hcs, Ne.symm has]
    · intro i
      simp [processKeyDown, hsu, Ne.symm hcs, Ne.symm has, orModifiers, Nat.testBit_or]
    · simp [processKeyDown, hsu, Ne.symm hcs, Ne.symm has, orModifiers]
    · simp [processKeyDown, hsu, Ne.symm hcs, Ne.symm has, orModifiers]
    · simp only [processKeyUp, hsu, Ne.symm hcs, Ne.symm has, if_false, if_true]
    · intro i
      simp [andNotModifiers, testBit_clearBits]
    · rfl
    · rfl

/-- Instance of `modifier_key_effect`: Alt on the sample window. -/
theorem modifier_key_effect_witness :
    sampleFw.WellFormed ∧ sampleFw.apple = false ∧
    ((processKeyDown sampleFw 7 23 sampleWindow).2 = [] ∧
      (∀ i, (processKeyDown sampleFw 7 23 sampleWindow).1.m_inputEvent.keyboardModifiers.testBit i =
        (sampleWindow.m_inputEvent.keyboardModifiers.testBit i || (2 : Nat).testBit i)) ∧
      (processKeyDown sampleFw 7 23 sampleWindow).1.m_keyInfo = sampleWindow.m_keyInfo ∧
      (processKeyDown sampleFw 7 23 sampleWindow).1.m_mouseButtonStates =
        sampleWindow.m_mouseButtonStates) ∧
    ∃ w2, processKeyUp sampleFw 1 23 sampleWindow = some (w2, []) ∧
      (∀ i, w2.m_inputEvent.keyboardModifiers.testBit i =
        (sampleWindow.m_inputEvent.keyboardModifiers.testBit i && !(2 : Nat).testBit i)) ∧
      w2.m_keyInfo = sampleWindow.m_keyInfo ∧
      w2.m_mouseButtonStates = sampleWindow.m_mouseButtonStates :=
  ⟨by decide, rfl,
    modifier_key_effect sampleFw (by decide) 7 0 sampleWindow 23 2
      (Or.inr (Or.inl ⟨rfl, rfl, rfl⟩))⟩

/-! ## Releasing NumLock -/

theorem keyInfo_clear_unpressed (v : KeyInfo) (h : v.state = false) :
    { v with state := false } = v := by
  cases v
  simp_all

theorem forPressed_releaseKey (c : Fw) (ks : List Nat) (hnd : ks.Nodup) (w : PlatformWindow)
    (hh : w.m_onInputEvent = true) :
    ∃ w2 evs, forPressed (fun k w1 => some (releaseKey c k w1)) ks w = some (w2, evs) ∧
      evs.map InputEvent.kind =
        (ks.filter fun k => (w.m_keyInfo k).state).map
          (fun k => (InputEventType.KeyUpInputEvent, k)) ∧
      (∀ j, w2.m_keyInfo j =
        if j ∈ ks then { w.m_keyInfo j with state := false } else w.m_keyInfo j) ∧
      w2.m_onInputEvent = true := by
  induction ks generalizing w with
  | nil => exact ⟨w, [], rfl, rfl, fun j => by simp, hh⟩
  | cons k ks ih =>
    obtain ⟨hk, hks⟩ := List.nodup_cons.mp hnd
    cases hp : (w.m_keyInfo k).state
    · obtain ⟨w2, evs, hrun, hev, hki, hh2⟩ := ih hks w hh
      refine ⟨w2, evs, ?_, ?_, ?_, hh2⟩
      · simp only [forPressed, hp, Bool.false_eq_true, if_false]
        exact hrun
      · rw [hev, List.filter_cons_of_neg (by simp [hp])]
      · intro j
        rw [hki j]
        by_cases hj : j = k
        · subst hj
          simp [hk, keyInfo_clear_unpressed _ hp]
        · simp [hj]
    · have hh1 : (releaseKey c k w).1.m_onInputEvent = true := by
        rw [(releaseKey_frame c k w).1, hh]
      obtain ⟨w2, evs, hrun, hev, hki, hh2⟩ := ih hks (releaseKey c k w).1 hh1
      refine ⟨w2, (releaseKey c k w).2 ++ evs, ?_, ?_, ?_, hh2⟩
      · simp only [forPressed, hp, if_true, hrun]
      · have hfil : (ks.filter fun j => ((releaseKey c k w).1.m_keyInfo j).state) =
            ks.filter fun j => (w.m_keyInfo j).state := by
          apply List.filter_congr
          intro j hj
          have hjk : j ≠ k := fun h => hk (h ▸ hj)
          rw [releaseKey_keyInfo, if_neg hjk]
        rw [List.map_append, hev, hfil, List.filter_cons_of_pos (by simp [hp])]
        simp [releaseKey_events, hp, hh, InputEvent.kind]
      · intro j
        rw [hki j]
        by_cases hj : j = k
        · subst hj
          simp [hk, releaseKey_keyInfo]
        · simp [hj, releaseKey_keyInfo]

/-- C5: in a window with a handler registered and NumLock marked pressed,
`processKeyUp(KeyNumLock)` dispatches one KeyUp for each keypad digit marked
pressed, in ascending key-code order, then one KeyUp of NumLock as the last
event. Afterwards NumLock and every keypad digit are released, their
timestamps and delay are as before, and every other key record is unchanged. -/
theorem numLock_release (c : Fw) (hc : c.WellFormed) (depth : Nat) (w : PlatformWindow)
    (hh : w.m_onInputEvent = true) (hp : (w.m_keyInfo c.KeyNumLock).state = true) :
    ∃ w2 evs, processKeyUp c (depth + 2) c.KeyNumLock w = some (w2, evs) ∧
      evs.map InputEvent.kind =
        ((c.numpadKeys.filter fun k => (w.m_keyInfo k).state).map
          (fun k => (InputEventType.KeyUpInputEvent, k))) ++
          [(InputEventType.KeyUpInputEvent, c.KeyNumLock)] ∧
      (c.numpadKeys.filter fun k => (w.m_keyInfo k).state).Pairwise (· < ·) ∧
      (∀ d, d ∈ c.numpadKeys ↔ c.KeyNumpad0 ≤ d ∧ d ≤ c.KeyNumpad9) ∧
      (w2.m_keyInfo c.KeyNumLock).state = false ∧
      (∀ d ∈ c.numpadKeys, (w2.m_keyInfo d).state = false) ∧
      (∀ j, w2.m_keyInfo j =
        if j = c.KeyNumLock ∨ j ∈ c.numpadKeys then { w.m_keyInfo j with state := false }
        else w.m_keyInfo j) := by
  have hnd : c.numpadKeys.Nodup := List.nodup_range' _ _
  have hnl : c.KeyNumLock ∉ c.numpadKeys := wellFormed_numLock_not_numpad c hc
  obtain ⟨w1, evs1, hrun, hev, hki, hh1⟩ := forPressed_releaseKey c c.numpadKeys hnd w hh
  have hst1 : (w1.m_keyInfo c.KeyNumLock).state = true := by
    rw [hki, if_neg hnl, hp]
  have hall : ∀ j, (releaseKey c c.KeyNumLock w1).1.m_keyInfo j =
      if j = c.KeyNumLock ∨ j ∈ c.numpadKeys then { w.m_keyInfo j with state := false }
      else w.m_keyInfo j := by
    intro j
    rw [releaseKey_keyInfo]
    by_cases hj : j = c.KeyNumLock
    · subst hj
      simp [hki, hnl]
    · simp [hj, hki]
  refine ⟨(releaseKey c c.KeyNumLock w1).1, evs1 ++ (releaseKey c c.KeyNumLock w1).2,
    ?_, ?_, ?_, ?_, ?_, ?_, hall⟩
  · rw [processKeyUp_numLock c (depth + 1) w (wellFormed_numLock c hc),
      numpad_loop_eq c hc depth w, hrun]
  · rw [List.map_append, hev]
    simp [releaseKey_events, hst1, hh1, InputEvent.kind]
  · exact (List.pairwise_lt_range' _ _).filter _
  · intro d
    have h9 : c.KeyNumpad9 = c.KeyNumpad0 + 9 := hc.2.1
    simp only [Fw.numpadKeys, List.mem_range'_1]
    omega
  · rw [hall]
    simp
  · intro d hd
    rw [hall]
    simp [hd]

/-- Instance of `numLock_release`: NumLock and the keypad digits 1 and 4 are
pressed. -/
theorem numLock_release_witness :
    sampleFw.WellFormed ∧ samplePressed.m_onInputEvent = true ∧
    (samplePressed.m_keyInfo sampleFw.KeyNumLock).state = true ∧
    ∃ w2 evs, processKeyUp sampleFw 2 sampleFw.KeyNumLock samplePressed = some (w2, evs) ∧
      evs.map InputEvent.kind =
        ((sampleFw.numpadKeys.filter fun k => (samplePressed.m_keyInfo k).state).map
          (fun k => (InputEventType.KeyUpInputEvent, k))) ++
          [(InputEventType.KeyUpInputEvent, sampleFw.KeyNumLock)] ∧
      (sampleFw.numpadKeys.filter fun k => (samplePressed.m_keyInfo k).state).Pairwise
        (· < ·) ∧
      (∀ d, d ∈ sampleFw.numpadKeys ↔ sampleFw.KeyNumpad0 ≤ d ∧ d ≤ sampleFw.KeyNumpad9) ∧
      (w2.m_keyInfo sampleFw.KeyNumLock).state = false ∧
      (∀ d ∈ sampleFw.numpadKeys, (w2.m_keyInfo d).state = false) ∧
      (∀ j, w2.m_keyInfo j =
        if j = sampleFw.KeyNumLock ∨ j ∈ sampleFw.numpadKeys then
          { samplePressed.m_keyInfo j with state := false }
        else samplePressed.m_keyInfo j) :=
  ⟨by decide, by decide, by decide,
    numLock_release sampleFw (by decide) 0 samplePressed (by decide) (by decide)⟩

/-! ## The repeat engine -/

theorem narrowInt32_of_fits (x : Int) (h1 : -2147483648 ≤ x) (h2 : x < 2147483648) :
    narrowInt32 x = x := by
  unfold narrowInt32
  omega

theorem fireKey_unpressed (c : Fw) (now : Int) (j : Nat) (w : PlatformWindow)
    (hp : (w.m_keyInfo j).state = false) : fireKey c now j w = (w, []) := by
  simp [fireKey, hp]

theorem fireKey_not_due (c : Fw) (now : Int) (j : Nat) (w : PlatformWindow)
    (hd : ¬ now - (w.m_keyInfo j).lastTicks ≥ (w.m_keyInfo j).delay) :
    fireKey c now j w = (w, []) := by
  cases hp : (w.m_keyInfo j).state
  · exact fireKey_unpressed c now j w hp
  · simp only [fireKey, hp, Bool.not_true, Bool.false_eq_true, if_false, if_neg hd]

theorem fireKey_due (c : Fw) (now : Int) (j : Nat) (w : PlatformWindow)
    (hp : (w.m_keyInfo j).state = true)
    (hd : now - (w.m_keyInfo j).lastTicks ≥ (w.m_keyInfo j).delay) :
    (fireKey c now j w).2 =
      (if w.m_onInputEvent = true then
        [⟨.KeyPressInputEvent, j, w.m_inputEvent.keyboardModifiers,
          narrowInt32 (now - (w.m_keyInfo j).firstTicks)⟩]
      else []) ∧
    (fireKey c now j w).1.m_keyInfo j = { w.m_keyInfo j with lastTicks := now } := by
  cases hh : w.m_onInputEvent <;>
    simp [fireKey, hp, hd, hh, InputEvent.reset]

theorem fireKey_frame (c : Fw) (now : Int) (j : Nat) (w : PlatformWindow) :
    (fireKey c now j w).1.m_onInputEvent = w.m_onInputEvent ∧
    (fireKey c now j w).1.m_inputEvent.keyboardModifiers = w.m_inputEvent.keyboardModifiers ∧
    (fireKey c now j w).1.m_keyPressTimer = w.m_keyPressTimer ∧
    (fireKey c now j w).1.m_mouseButtonStates = w.m_mouseButtonStates ∧
    (∀ k, k ≠ j → (fireKey c now j w).1.m_keyInfo k = w.m_keyInfo k) ∧
    (∀ k, ((fireKey c now j w).1.m_keyInfo k).state = (w.m_keyInfo k).state) ∧
    (∀ e ∈ (fireKey c now j w).2, e.type = .KeyPressInputEvent ∧ e.keyCode = j ∧
      (w.m_keyInfo j).state = true) := by
  cases hp : (w.m_keyInfo j).state
  · rw [fireKey_unpressed c now j w hp]
    simp
  · by_cases hd : now - (w.m_keyInfo j).lastTicks ≥ (w.m_keyInfo j).delay
    · cases hh : w.m_onInputEvent
      · simp only [fireKey, hp, hd, hh, Bool.not_true, Bool.false_eq_true, if_false, if_true]
        refine ⟨by simp [hh], rfl, rfl, rfl, ?_, ?_, ?_⟩
        · intro k hk
          simp [setKey_keyInfo, hk]
        · intro k
          by_cases hk : k = j
          · subst hk
            simp [hp]
          · simp [setKey_keyInfo, hk]
        · simp
      · simp only [fireKey, hp, hd, hh, Bool.not_true, Bool.false_eq_true, if_false, if_true]
        refine ⟨by simp [hh], rfl, rfl, rfl, ?_, ?_, ?_⟩
        · intro k hk
          simp [setKey_keyInfo, hk]
        · intro k
          by_cases hk : k = j
          · subst hk
            simp [hp]
          · simp [setKey_keyInfo, hk]
        · simp [InputEvent.reset]
    · rw [fireKey_not_due c now j w hd]
      simp

theorem fireKey_congr (c : Fw) (now : Int) (k : Nat) (w1 w : PlatformWindow)
    (hki : w1.m_keyInfo k = w.m_keyInfo k) (hh : w1.m_onInputEvent = w.m_onInputEvent)
    (hm : w1.m_inputEvent.keyboardModifiers = w.m_inputEvent.keyboardModifiers) :
    (fireKey c now k w1).2 = (fireKey c now k w).2 ∧
    (fireKey c now k w1).1.m_keyInfo k = (fireKey c now k w).1.m_keyInfo k := by
  cases hp : (w.m_keyInfo k).state
  · rw [fireKey_unpressed c now k w hp, fireKey_unpressed c now k w1 (by rw [hki, hp])]
    exact ⟨rfl, hki⟩
  · by_cases hd : now - (w.m_keyInfo k).lastTicks ≥ (w.m_keyInfo k).delay
    · obtain ⟨e1, k1⟩ := fireKey_due c now k w hp hd
      obtain ⟨e2, k2⟩ := fireKey_due c now k w1 (by rw [hki, hp]) (by rw [hki]; exact hd)
      rw [e1, k1, e2, k2, hki, hh, hm]
      exact ⟨rfl, rfl⟩
    · rw [fireKey_not_due c now k w hd, fireKey_not_due c now k w1 (by rw [hki]; exact hd)]
      exact ⟨rfl, hki⟩

theorem fireKeys_frame (c : Fw) (now : Int) (ks : List Nat) (w : PlatformWindow) :
    (fireKeys c now ks w).1.m_onInputEvent = w.m_onInputEvent ∧
    (fireKeys c now ks w).1.m_inputEvent.keyboardModifiers = w.m_inputEvent.keyboardModifiers ∧
    (fireKeys c now ks w).1.m_keyPressTimer = w.m_keyPressTimer ∧
    (fireKeys c now ks w).1.m_mouseButtonStates = w.m_mouseButtonStates ∧
    (∀ k, k ∉ ks → (fireKeys c now ks w).1.m_keyInfo k = w.m_keyInfo k) ∧
    (∀ k, ((fireKeys c now ks w).1.m_keyInfo k).state = (w.m_keyInfo k).state) ∧
    (∀ e ∈ (fireKeys c now ks w).2, e.type = .KeyPressInputEvent ∧ e.keyCode ∈ ks ∧
      (w.m_keyInfo e.keyCode).state = true) := by
  induction ks generalizing w with
  | nil => simp [fireKeys]
  | cons j ks ih =>
    obtain ⟨a1, a2, a3, a4, a5, a6, a7⟩ := fireKey_frame c now j w
    obtain ⟨b1, b2, b3, b4, b5, b6, b7⟩ := ih (fireKey c now j w).1
    simp only [fireKeys]
    refine ⟨b1.trans a1, b2.trans a2, b3.trans a3, b4.trans a4, ?_, ?_, ?_⟩
    · intro k hk
      rw [List.mem_cons, not_or] at hk
      rw [b5 k hk.2, a5 k hk.1]
    · intro k
      rw [b6 k, a6 k]
    · intro e he
      rcases List.mem_append.mp he with h | h
      · obtain ⟨t, kc, st⟩ := a7 e h
        exact ⟨t, by rw [kc]; exact List.mem_cons_self _ _, by rw [kc]; exact st⟩
      · obtain ⟨t, kc, st⟩ := b7 e h
        exact ⟨t, List.mem_cons_of_mem _ kc, by rw [← a6]; exact st⟩

theorem fireKeys_key (c : Fw) (now : Int) (ks : List Nat) (hnd : ks.Nodup) (k : Nat)
    (hk : k ∈ ks) (w : PlatformWindow) :
    (fireKeys c now ks w).2.filter (fun e => decide (e.keyCode = k)) = (fireKey c now k w).2 ∧
    (fireKeys c now ks w).1.m_keyInfo k = (fireKey c now k w).1.m_keyInfo k := by
  induction ks generalizing w with
  | nil => exact absurd hk (List.not_mem_nil _)
  | cons j ks ih =>
    obtain ⟨hj, hks⟩ := List.nodup_cons.mp hnd
    obtain ⟨a1, a2, -, -, a5, -, a7⟩ := fireKey_frame c now j w
    simp only [fireKeys, List.filter_append]
    by_cases hjk : k = j
    · subst hjk
      obtain ⟨-, -, -, -, b5, -, b7⟩ := fireKeys_frame c now ks (fireKey c now k w).1
      have hrest : (fireKeys c now ks (fireKey c now k w).1).2.filter
          (fun e => decide (e.keyCode = k)) = [] := by
        rw [List.filter_eq_nil_iff]
        intro e he
        have := (b7 e he).2.1
        simp only [decide_eq_true_eq]
        intro h
        exact hj (h ▸ this)
      have hfirst : (fireKey c now k w).2.filter (fun e => decide (e.keyCode = k)) =
          (fireKey c now k w).2 := by
        rw [List.filter_eq_self]
        intro e he
        simp [(a7 e he).2.1]
      rw [hrest, hfirst, List.append_nil]
      exact ⟨rfl, b5 k hj⟩
    · have hk2 : k ∈ ks := by
        rcases List.mem_cons.mp hk with h | h
        · exact absurd h hjk
        · exact h
      obtain ⟨i1, i2⟩ := ih hks hk2 (fireKey c now j w).1
      obtain ⟨g1, g2⟩ := fireKey_congr c now k (fireKey c now j w).1 w (a5 k hjk) a1 a2
      have hfirst : (fireKey c now j w).2.filter (fun e => decide (e.keyCode = k)) = [] := by
        rw [List.filter_eq_nil_iff]
        intro e he
        simp only [decide_eq_true_eq, (a7 e he).2.1]
        exact fun h => hjk h.symm
      rw [hfirst, List.nil_append, i1, i2, g1, g2]
      exact ⟨rfl, rfl⟩

/-- C6 (amended): in a run of `fireKeysPress` that is not throttled, with a
handler registered, for a key of the table that is marked pressed: a KeyPress
of the key is dispatched exactly when `now - lastTicks >= delay`; it is then
the only event of the run for that key, its `autoRepeatTicks` is
`now - firstTicks` narrowed to an `int` of 32 bits, which is `now - firstTicks`
itself whenever that difference lies in the range of such an `int`, and
`lastTicks` becomes `now`; otherwise the run dispatches no event for the key
and leaves its record unchanged. -/
theorem fireKeysPress_key (c : Fw) (now : Int) (w : PlatformWindow) (k : Nat)
    (hel : ¬ w.ticksElapsed now < 10) (hh : w.m_onInputEvent = true)
    (hk : k < c.KeyLast) (hp : (w.m_keyInfo k).state = true) :
    ((∃ e ∈ (fireKeysPress c now w).2, e.type = .KeyPressInputEvent ∧ e.keyCode = k) ↔
      now - (w.m_keyInfo k).lastTicks ≥ (w.m_keyInfo k).delay) ∧
    (now - (w.m_keyInfo k).lastTicks ≥ (w.m_keyInfo k).delay →
      (fireKeysPress c now w).2.filter (fun e => decide (e.keyCode = k)) =
        [⟨.KeyPressInputEvent, k, w.m_inputEvent.keyboardModifiers,
          narrowInt32 (now - (w.m_keyInfo k).firstTicks)⟩] ∧
      (-2147483648 ≤ now - (w.m_keyInfo k).firstTicks →
        now - (w.m_keyInfo k).firstTicks < 2147483648 →
        narrowInt32 (now - (w.m_keyInfo k).firstTicks) = now - (w.m_keyInfo k).firstTicks) ∧
      (fireKeysPress c now w).1.m_keyInfo k = { w.m_keyInfo k with lastTicks := now }) ∧
    (¬ now - (w.m_keyInfo k).lastTicks ≥ (w.m_keyInfo k).delay →
      (fireKeysPress c now w).2.filter (fun e => decide (e.keyCode = k)) = [] ∧
      (fireKeysPress c now w).1.m_keyInfo k = w.m_keyInfo k) := by
  have hrun : fireKeysPress c now w =
      fireKeys c now (List.range c.KeyLast) { w with m_keyPressTimer := now } := by
    simp only [fireKeysPress, if_neg hel]
  obtain ⟨f1, f2⟩ := fireKeys_key c now (List.range c.KeyLast) (List.nodup_range _) k
    (List.mem_range.mpr hk) { w with m_keyPressTimer := now }
  obtain ⟨g1, g2⟩ := fireKey_congr c now k { w with m_keyPressTimer := now } w rfl rfl rfl
  rw [g1] at f1
  rw [g2] at f2
  rw [hrun]
  have hdue : now - (w.m_keyInfo k).lastTicks ≥ (w.m_keyInfo k).delay →
      (fireKeys c now (List.range c.KeyLast) { w with m_keyPressTimer := now }).2.filter
          (fun e => decide (e.keyCode = k)) =
        [⟨.KeyPressInputEvent, k, w.m_inputEvent.keyboardModifiers,
          narrowInt32 (now - (w.m_keyInfo k).firstTicks)⟩] ∧
      (-2147483648 ≤ now - (w.m_keyInfo k).firstTicks →
        now - (w.m_keyInfo k).firstTicks < 2147483648 →
        narrowInt32 (now - (w.m_keyInfo k).firstTicks) = now - (w.m_keyInfo k).firstTicks) ∧
      (fireKeys c now (List.range c.KeyLast) { w with m_keyPressTimer := now }).1.m_keyInfo k =
        { w.m_keyInfo k with lastTicks := now } := by
    intro hd
    obtain ⟨e1, k1⟩ := fireKey_due c now k w hp hd
    rw [f1, f2, e1, k1, if_pos hh]
    exact ⟨rfl, narrowInt32_of_fits _, rfl⟩
  have hnot : ¬ now - (w.m_keyInfo k).lastTicks ≥ (w.m_keyInfo k).delay →
      (fireKeys c now (List.range c.KeyLast) { w with m_keyPressTimer := now }).2.filter
          (fun e => decide (e.keyCode = k)) = [] ∧
      (fireKeys c now (List.range c.KeyLast) { w with m_keyPressTimer := now }).1.m_keyInfo k =
        w.m_keyInfo k := by
    intro hd
    rw [f1, f2, fireKey_not_due c now k w hd]
    exact ⟨rfl, rfl⟩
  refine ⟨⟨?_, ?_⟩, hdue, hnot⟩
  · rintro ⟨e, he, -, hkc⟩
    by_contra hd
    have hmem : e ∈ (fireKeys c now (List.range c.KeyLast)
        { w with m_keyPressTimer := now }).2.filter (fun e => decide (e.keyCode = k)) :=
      List.mem_filter.mpr ⟨he, by simp [hkc]⟩
    rw [(hnot hd).1] at hmem
    exact absurd hmem (List.not_mem_nil _)
  · intro hd
    have hmem : (⟨.KeyPressInputEvent, k, w.m_inputEvent.keyboardModifiers,
        narrowInt32 (now - (w.m_keyInfo k).firstTicks)⟩ : InputEvent) ∈
        (fireKeys c now (List.range c.KeyLast) { w with m_keyPressTimer := now }).2.filter
          (fun e => decide (e.keyCode = k)) := by
      rw [(hdue hd).1]
      exact List.mem_singleton.mpr rfl
    exact ⟨_, (List.mem_filter.mp hmem).1, rfl, rfl⟩

/-- Instance of `fireKeysPress_key`: key 30, down since clock value 0 with a
delay of 30, at clock value 40. -/
theorem fireKeysPress_key_witness :
    ¬ sampleHeld.ticksElapsed 40 < 10 ∧ sampleHeld.m_onInputEvent = true ∧
    30 < sampleFw.KeyLast ∧ (sampleHeld.m_keyInfo 30).state = true ∧
    ((∃ e ∈ (fireKeysPress sampleFw 40 sampleHeld).2,
        e.type = .KeyPressInputEvent ∧ e.keyCode = 30) ↔
      40 - (sampleHeld.m_keyInfo 30).lastTicks ≥ (sampleHeld.m_keyInfo 30).delay) ∧
    (40 - (sampleHeld.m_keyInfo 30).lastTicks ≥ (sampleHeld.m_keyInfo 30).delay →
      (fireKeysPress sampleFw 40 sampleHeld).2.filter (fun e => decide (e.keyCode = 30)) =
        [⟨.KeyPressInputEvent, 30, sampleHeld.m_inputEvent.keyboardModifiers,
          narrowInt32 (40 - (sampleHeld.m_keyInfo 30).firstTicks)⟩] ∧
      (-2147483648 ≤ 40 - (sampleHeld.m_keyInfo 30).firstTicks →
        40 - (sampleHeld.m_keyInfo 30).firstTicks < 2147483648 →
        narrowInt32 (40 - (sampleHeld.m_keyInfo 30).firstTicks) =
          40 - (sampleHeld.m_keyInfo 30).firstTicks) ∧
      (fireKeysPress sampleFw 40 sampleHeld).1.m_keyInfo 30 =
        { sampleHeld.m_keyInfo 30 with lastTicks := 40 }) ∧
    (¬ 40 - (sampleHeld.m_keyInfo 30).lastTicks ≥ (sampleHeld.m_keyInfo 30).delay →
      (fireKeysPress sampleFw 40 sampleHeld).2.filter (fun e => decide (e.keyCode = 30)) = [] ∧
      (fireKeysPress sampleFw 40 sampleHeld).1.m_keyInfo 30 = sampleHeld.m_keyInfo 30) :=
  ⟨by decide, by decide, by decide, by decide,
    fireKeysPress_key sampleFw 40 sampleHeld 30 (by decide) (by decide) (by decide)
      (by decide)⟩

set_option maxRecDepth 20000 in
/-- C6 fails as stated: key 30 is down since clock value 0 with a delay of 30
and the repeat engine runs, not throttled and with a handler registered, at
clock value 2147483653. The KeyPress is dispatched, `now - firstTicks` is
2147483653, and the `autoRepeatTicks` of the event is -2147483643. -/
theorem autoRepeatTicks_wraps_beyond_int :
    ¬ sampleHeld.ticksElapsed 2147483653 < 10 ∧ sampleHeld.m_onInputEvent = true ∧
    30 < sampleFw.KeyLast ∧ (sampleHeld.m_keyInfo 30).state = true ∧
    2147483653 - (sampleHeld.m_keyInfo 30).lastTicks ≥ (sampleHeld.m_keyInfo 30).delay ∧
    2147483653 - (sampleHeld.m_keyInfo 30).firstTicks = 2147483653 ∧
    (fireKeysPress sampleFw 2147483653 sampleHeld).2 =
      [⟨.KeyPressInputEvent, 30, 0, -2147483643⟩] := by
  decide

theorem fireKeysPress_noop_when_throttled (c : Fw) (now : Int) (w : PlatformWindow)
    (h : w.ticksElapsed now < 10) : fireKeysPress c now w = (w, []) := by
  simp only [fireKeysPress, if_pos h]

theorem fireKeysPress_timer (c : Fw) (now : Int) (w : PlatformWindow)
    (h : ¬ w.ticksElapsed now < 10) : (fireKeysPress c now w).1.m_keyPressTimer = now := by
  simp only [fireKeysPress, if_neg h]
  exact (fireKeys_frame c now _ _).2.2.1

/-- C7 (amended): a run of `fireKeysPress` made while fewer than 10 ms have
elapsed on the throttle timer dispatches no event and returns the window
unchanged; a run that is not throttled restarts the timer at its clock value,
so a run made less than 10 ms after a run that was not throttled dispatches
no event and changes nothing, whatever keys are pressed. -/
theorem fireKeysPress_throttle (c : Fw) (t1 t2 : Int) (w : PlatformWindow)
    (h1 : ¬ w.ticksElapsed t1 < 10) (h2 : t2 - t1 < 10) :
    (fireKeysPress c t1 w).1.m_keyPressTimer = t1 ∧
    fireKeysPress c t2 (fireKeysPress c t1 w).1 = ((fireKeysPress c t1 w).1, []) ∧
    ∀ (now : Int) (w0 : PlatformWindow), w0.ticksElapsed now < 10 →
      fireKeysPress c now w0 = (w0, []) := by
  refine ⟨fireKeysPress_timer c t1 w h1, ?_, fun now w0 h => fireKeysPress_noop_when_throttled c now w0 h⟩
  apply fireKeysPress_noop_when_throttled
  unfold ticksElapsed
  rw [fireKeysPress_timer c t1 w h1]
  exact h2

/-- Instance of `fireKeysPress_throttle`: runs at clock values 40 and 45 with
key 30 held since 0. -/
theorem fireKeysPress_throttle_witness :
    ¬ sampleHeld.ticksElapsed 40 < 10 ∧ (45 : Int) - 40 < 10 ∧
    (fireKeysPress sampleFw 40 sampleHeld).1.m_keyPressTimer = 40 ∧
    fireKeysPress sampleFw 45 (fireKeysPress sampleFw 40 sampleHeld).1 =
      ((fireKeysPress sampleFw 40 sampleHeld).1, []) ∧
    ∀ (now : Int) (w0 : PlatformWindow), w0.ticksElapsed now < 10 →
      fireKeysPress sampleFw now w0 = (w0, []) :=
  ⟨by decide, by decide, fireKeysPress_throttle sampleFw 40 45 sampleHeld (by decide) (by decide)⟩

set_option maxRecDepth 20000 in
/-- C7 fails as stated: two runs of `fireKeysPress` 6 ms apart, at clock values
30 and 36, the timer having been restarted at 25 and key 30 being held since
0 with a delay of 30. The first run is throttled and dispatches nothing; the
second is not, and dispatches a KeyPress. -/
theorem second_run_fires_after_throttled_first :
    sampleThrottled.m_keyPressTimer = 25 ∧ (36 : Int) - 30 < 10 ∧
    (fireKeysPress sampleFw 30 sampleThrottled).2 = [] ∧
    (fireKeysPress sampleFw 36 (fireKeysPress sampleFw 30 sampleThrottled).1).2 =
      [⟨.KeyPressInputEvent, 30, 0, 36⟩] := by
  decide

/-! ## Runs of key releases -/

theorem Releases.of_same (w w2 : PlatformWindow) (hk : w2.m_keyInfo = w.m_keyInfo)
    (hh : w2.m_onInputEvent = w.m_onInputEvent) : Releases w w2 [] where
  handler := hh
  types := by simp
  sub := by
    intro k h
    rw [← hk]
    exact h
  released := by simp
  nodup := by simp
  complete := by
    intro _ k h1 h2
    rw [hk, h1] at h2
    exact absurd h2 (by simp)

theorem Releases.append {w w1 w2 : PlatformWindow} {evs1 evs2 : List InputEvent}
    (h1 : Releases w w1 evs1) (h2 : Releases w1 w2 evs2) :
    Releases w w2 (evs1 ++ evs2) where
  handler := h2.handler.trans h1.handler
  types := by
    intro e he
    rcases List.mem_append.mp he with h | h
    · exact h1.types e h
    · exact h2.types e h
  sub := fun k h => h1.sub k (h2.sub k h)
  released := by
    intro e he
    rcases List.mem_append.mp he with h | h
    · refine ⟨(h1.released e h).1, ?_⟩
      cases hs : (w2.m_keyInfo e.keyCode).state
      · rfl
      · have := h2.sub _ hs
        rw [(h1.released e h).2] at this
        exact absurd this (by simp)
    · exact ⟨h1.sub _ (h2.released e h).1, (h2.released e h).2⟩
  nodup := by
    rw [List.map_append, List.nodup_append]
    refine ⟨h1.nodup, h2.nodup, ?_⟩
    intro k hk1 hk2
    obtain ⟨e1, he1, rfl⟩ := List.mem_map.mp hk1
    obtain ⟨e2, he2, heq⟩ := List.mem_map.mp hk2
    have a := (h1.released e1 he1).2
    have b := (h2.released e2 he2).1
    rw [heq, a] at b
    exact absurd b (by simp)
  complete := by
    intro hh k hp hr
    rw [List.map_append, List.mem_append]
    cases hs : (w1.m_keyInfo k).state
    · exact Or.inl (h1.complete hh k hp hs)
    · exact Or.inr (h2.complete (h1.handler.trans hh) k hs hr)

theorem releaseKey_releases (c : Fw) (k : Nat) (w : PlatformWindow) :
    Releases w (releaseKey c k w).1 (releaseKey c k w).2 where
  handler := (releaseKey_frame c k w).1
  types := by
    intro e he
    rw [releaseKey_events] at he
    split at he
    · rw [List.mem_singleton.mp he]
    · exact absurd he (List.not_mem_nil _)
  sub := by
    intro j h
    rw [releaseKey_keyInfo] at h
    split at h
    · exact absurd h (by simp)
    · exact h
  released := by
    intro e he
    rw [releaseKey_events] at he
    split at he
    · rename_i hc
      rw [List.mem_singleton.mp he]
      exact ⟨hc.1, by simp [releaseKey_keyInfo]⟩
    · exact absurd he (List.not_mem_nil _)
  nodup := by
    rw [releaseKey_events]
    split <;> simp
  complete := by
    intro hh j hp hr
    rw [releaseKey_keyInfo] at hr
    split at hr
    · rename_i hjk
      subst hjk
      rw [releaseKey_events, if_pos ⟨hp, hh⟩]
      simp
    · rw [hp] at hr
      exact absurd hr (by simp)

theorem releaseKey_state (c : Fw) (k : Nat) (w : PlatformWindow) :
    ((releaseKey c k w).1.m_keyInfo k).state = false := by
  simp [releaseKey_keyInfo]

theorem forPressed_releases
    (body : Nat → PlatformWindow → Option (PlatformWindow × List InputEvent))
    (good : Nat → Prop) (ks : List Nat)
    (hbody : ∀ k ∈ ks, ∀ w, ∃ w2 evs, body k w = some (w2, evs) ∧ Releases w w2 evs ∧
      (good k → (w2.m_keyInfo k).state = false))
    (w : PlatformWindow) :
    ∃ w2 evs, forPressed body ks w = some (w2, evs) ∧ Releases w w2 evs ∧
      ∀ k ∈ ks, good k → (w2.m_keyInfo k).state = false := by
  induction ks generalizing w with
  | nil =>
    exact ⟨w, [], rfl, Releases.of_same w w rfl rfl, fun k hk => absurd hk (List.not_mem_nil _)⟩
  | cons k ks ih =>
    have ih2 := ih (fun j hj => hbody j (List.mem_cons_of_mem _ hj))
    cases hp : (w.m_keyInfo k).state
    · obtain ⟨w2, evs, hrun, hrel, hgood⟩ := ih2 w
      refine ⟨w2, evs, ?_, hrel, ?_⟩
      · simp only [forPressed, hp, Bool.false_eq_true, if_false]
        exact hrun
      · intro j hj hg
        rcases List.mem_cons.mp hj with h | h
        · subst h
          cases hs : (w2.m_keyInfo j).state
          · rfl
          · have := hrel.sub _ hs
            rw [hp] at this
            exact absurd this (by simp)
        · exact hgood j h hg
    · obtain ⟨w1, evs1, hb, hrel1, hg1⟩ := hbody k (List.mem_cons_self _ _) w
      obtain ⟨w2, evs2, hrun, hrel2, hgood⟩ := ih2 w1
      refine ⟨w2, evs1 ++ evs2, ?_, hrel1.append hrel2, ?_⟩
      · simp only [forPressed, hp, if_true, hb, hrun]
      · intro j hj hg
        rcases List.mem_cons.mp hj with h | h
        · subst h
          cases hs : (w2.m_keyInfo j).state
          · rfl
          · have := hrel2.sub _ hs
            rw [hg1 hg] at this
            exact absurd this (by simp)
        · exact hgood j h hg

theorem processKeyUp_ordinary_releases (c : Fw) (depth k : Nat) (w : PlatformWindow)
    (hk : c.isOrdinary k) (hn : k ≠ c.KeyNumLock) :
    ∃ w2 evs, processKeyUp c (depth + 1) k w = some (w2, evs) ∧ Releases w w2 evs ∧
      (w2.m_keyInfo k).state = false :=
  ⟨(releaseKey c k w).1, (releaseKey c k w).2, by
    rw [processKeyUp_ordinary c depth k w hk hn], releaseKey_releases c k w,
    releaseKey_state c k w⟩

/-- With a well-formed enumeration two levels of calls are enough for
`processKeyUp`, which then only releases keys; an ordinary key is released
afterwards. -/
theorem processKeyUp_releases (c : Fw) (hc : c.WellFormed) (depth k : Nat)
    (w : PlatformWindow) :
    ∃ w2 evs, processKeyUp c (depth + 2) k w = some (w2, evs) ∧ Releases w w2 evs ∧
      (c.isOrdinary k → (w2.m_keyInfo k).state = false) := by
  by_cases h0 : k = c.KeyUnknown
  · refine ⟨w, [], by simp [processKeyUp, h0], Releases.of_same w w rfl rfl, ?_⟩
    exact fun h => absurd h0 h.1
  by_cases h1 : k = c.KeyCtrl
  · refine ⟨w.andNotModifiers c.KeyboardCtrlModifier, [],
      by rw [processKeyUp, if_neg h0, if_pos h1],
      Releases.of_same _ _ rfl rfl, ?_⟩
    exact fun h => absurd (Or.inl h1) h.2
  by_cases h2 : k = c.altKey
  · refine ⟨w.andNotModifiers c.KeyboardAltModifier, [],
      by rw [processKeyUp, if_neg h0, if_neg h1, if_pos h2],
      Releases.of_same _ _ rfl rfl, ?_⟩
    exact fun h => absurd (Or.inr (Or.inl h2)) h.2
  by_cases h3 : k = c.KeyShift
  · refine ⟨w.andNotModifiers c.KeyboardShiftModifier, [],
      by rw [processKeyUp, if_neg h0, if_neg h1, if_neg h2, if_pos h3],
      Releases.of_same _ _ rfl rfl, ?_⟩
    exact fun h => absurd (Or.inr (Or.inr h3)) h.2
  have hk : c.isOrdinary k := ⟨h0, by simp [Fw.isModifier, h1, h2, h3]⟩
  by_cases hn : k = c.KeyNumLock
  · subst hn
    obtain ⟨w1, evs1, hrun, hrel, -⟩ := forPressed_releases
      (fun k w1 => processKeyUp c (depth + 1) k w1) (fun _ => True) c.numpadKeys
      (fun j hj w0 => by
        obtain ⟨w2, evs, a, b, d⟩ := processKeyUp_ordinary_releases c depth j w0
          (wellFormed_numpad c hc j hj).1 (wellFormed_numpad c hc j hj).2
        exact ⟨w2, evs, a, b, fun _ => d⟩) w
    refine ⟨(releaseKey c c.KeyNumLock w1).1, evs1 ++ (releaseKey c c.KeyNumLock w1).2, ?_,
      hrel.append (releaseKey_releases c _ w1), fun _ => releaseKey_state c _ w1⟩
    rw [processKeyUp_numLock c (depth + 1) w hk, hrun]
  · obtain ⟨w2, evs, a, b, d⟩ := processKeyUp_ordinary_releases c (depth + 1) k w hk hn
    exact ⟨w2, evs, a, b, fun _ => d⟩

theorem releaseAllKeys_releases (c : Fw) (hc : c.WellFormed) (depth : Nat)
    (w : PlatformWindow) :
    ∃ w2 evs, releaseAllKeys c (depth + 2) w = some (w2, evs) ∧ Releases w w2 evs ∧
      (∀ k, k < c.KeyLast → c.isOrdinary k → (w2.m_keyInfo k).state = false) ∧
      w2.m_inputEvent.keyboardModifiers = 0 ∧ w2.m_mouseButtonStates = 0 := by
  obtain ⟨w1, evs, hrun, hrel, hgood⟩ := forPressed_releases
    (fun k w1 => processKeyUp c (depth + 2) k w1) c.isOrdinary (List.range c.KeyLast)
    (fun k _ w0 => processKeyUp_releases c hc depth k w0) w
  refine ⟨{ w1.setEvent { w1.m_inputEvent with keyboardModifiers := 0 } with
      m_mouseButtonStates := 0 }, evs, ?_, ?_, ?_, rfl, rfl⟩
  · simp only [releaseAllKeys, hrun]
  · have := hrel.append (Releases.of_same w1
      { w1.setEvent { w1.m_inputEvent with keyboardModifiers := 0 } with
        m_mouseButtonStates := 0 } rfl rfl)
    rwa [List.append_nil] at this
  · intro k hk ho
    exact hgood k (List.mem_range.mpr hk) ho

theorem processKeyDown_frame (c : Fw) (now : Int) (k : Nat) (w : PlatformWindow) :
    (processKeyDown c now k w).1.m_onInputEvent = w.m_onInputEvent ∧
    (∀ j, j ≠ k → (processKeyDown c now k w).1.m_keyInfo j = w.m_keyInfo j) ∧
    (¬ c.isOrdinary k →
      (processKeyDown c now k w).1.m_keyInfo = w.m_keyInfo ∧ (processKeyDown c now k w).2 = []) := by
  by_cases h0 : k = c.KeyUnknown
  · subst h0
    simp [processKeyDown, Fw.isOrdinary]
  by_cases h1 : k = c.KeyCtrl
  · subst h1
    simp [processKeyDown, h0, orModifiers]
  by_cases h2 : k = c.altKey
  · subst h2
    simp [processKeyDown, h0, h1, orModifiers]
  by_cases h3 : k = c.KeyShift
  · subst h3
    simp [processKeyDown, h0, h1, h2, orModifiers]
  have hk : c.isOrdinary k := ⟨h0, by simp [Fw.isModifier, h1, h2, h3]⟩
  cases hp : (w.m_keyInfo k).state
  · cases hh : w.m_onInputEvent
    · refine ⟨?_, ?_, fun h => absurd hk h⟩
      · simp [processKeyDown, h0, h1, h2, h3, hp, hh]
      · intro j hj
        simp [processKeyDown, h0, h1, h2, h3, hp, hh, setKey_keyInfo, hj]
    · obtain ⟨-, -, a, b⟩ := processKeyDown_unpressed c now k w hk hp hh
      exact ⟨b, a, fun h => absurd hk h⟩
  · rw [processKeyDown_pressed c now k w hk hp]
    exact ⟨rfl, fun _ _ => rfl, fun h => absurd hk h⟩

theorem processKeyDown_pressedOrdinary (c : Fw) (now : Int) (k : Nat) (w : PlatformWindow)
    (hk : k < c.KeyLast) (h : PressedOrdinary c w) :
    PressedOrdinary c (processKeyDown c now k w).1 := by
  obtain ⟨-, hother, hnot⟩ := processKeyDown_frame c now k w
  intro j hj
  by_cases ho : c.isOrdinary k
  · by_cases hjk : j = k
    · subst hjk
      exact ⟨ho, hk⟩
    · rw [hother j hjk] at hj
      exact h j hj
  · rw [(hnot ho).1] at hj
    exact h j hj

theorem Releases.pressedOrdinary {c : Fw} {w w2 : PlatformWindow} {evs : List InputEvent}
    (hrel : Releases w w2 evs) (h : PressedOrdinary c w) : PressedOrdinary c w2 :=
  fun k hk => h k (hrel.sub k hk)

theorem fireKeysPress_frame (c : Fw) (now : Int) (w : PlatformWindow) :
    (fireKeysPress c now w).1.m_onInputEvent = w.m_onInputEvent ∧
    (∀ k, ((fireKeysPress c now w).1.m_keyInfo k).state = (w.m_keyInfo k).state) ∧
    (∀ e ∈ (fireKeysPress c now w).2, e.type = .KeyPressInputEvent ∧
      (w.m_keyInfo e.keyCode).state = true) := by
  by_cases h : w.ticksElapsed now < 10
  · rw [fireKeysPress_noop_when_throttled c now w h]
    simp
  · simp only [fireKeysPress, if_neg h]
    obtain ⟨a1, -, -, -, -, a6, a7⟩ :=
      fireKeys_frame c now (List.range c.KeyLast) { w with m_keyPressTimer := now }
    exact ⟨a1, a6, fun e he => ⟨(a7 e he).1, (a7 e he).2.2⟩⟩

theorem step_pressedOrdinary (c : Fw) (hc : c.WellFormed) (depth : Nat) (op : Op)
    (w : PlatformWindow) (hop : op.isKeyOp c) (h : PressedOrdinary c w) :
    ∃ w2 evs, step c (depth + 2) op w = some (w2, evs) ∧ PressedOrdinary c w2 := by
  cases op with
  | keyDown now k =>
    exact ⟨(processKeyDown c now k w).1, (processKeyDown c now k w).2, rfl,
      processKeyDown_pressedOrdinary c now k w hop h⟩
  | keyUp k =>
    obtain ⟨w2, evs, hrun, hrel, -⟩ := processKeyUp_releases c hc depth k w
    exact ⟨w2, evs, hrun, hrel.pressedOrdinary h⟩
  | releaseAll =>
    obtain ⟨w2, evs, hrun, hrel, -⟩ := releaseAllKeys_releases c hc depth w
    exact ⟨w2, evs, hrun, hrel.pressedOrdinary h⟩
  | fire now =>
    refine ⟨(fireKeysPress c now w).1, (fireKeysPress c now w).2, rfl, ?_⟩
    intro k hk
    rw [(fireKeysPress_frame c now w).2.1 k] at hk
    exact h k hk
  | setHandler => exact absurd hop (by simp [Op.isKeyOp])
  | clearHandler => exact absurd hop (by simp [Op.isKeyOp])

theorem run_pressedOrdinary (c : Fw) (hc : c.WellFormed) (depth : Nat) (ops : List Op)
    (hops : ∀ op ∈ ops, op.isKeyOp c) (w : PlatformWindow) (h : PressedOrdinary c w) :
    ∃ w2 evs, run c (depth + 2) ops w = some (w2, evs) ∧ PressedOrdinary c w2 := by
  induction ops generalizing w with
  | nil => exact ⟨w, [], rfl, h⟩
  | cons op ops ih =>
    obtain ⟨w1, evs1, hs, h1⟩ :=
      step_pressedOrdinary c hc depth op w (hops op (List.mem_cons_self _ _)) h
    obtain ⟨w2, evs2, hr, h2⟩ := ih (fun o ho => hops o (List.mem_cons_of_mem _ ho)) w1 h1
    exact ⟨w2, evs1 ++ evs2, by simp only [run, hs, hr], h2⟩

theorem releaseAllKeys_of_pressedOrdinary (c : Fw) (hc : c.WellFormed) (depth : Nat)
    (w : PlatformWindow) (hinv : PressedOrdinary c w) (hh : w.m_onInputEvent = true) :
    ∃ w2 evs, releaseAllKeys c (depth + 2) w = some (w2, evs) ∧
      evs.length = (pressedKeys c w).length ∧
      (∀ e ∈ evs, e.type = .KeyUpInputEvent) ∧
      (evs.map InputEvent.keyCode).Perm (pressedKeys c w) ∧
      w2.m_inputEvent.keyboardModifiers = 0 ∧ w2.m_mouseButtonStates = 0 := by
  obtain ⟨w2, evs, hrun, hrel, hgood, hm, hb⟩ := releaseAllKeys_releases c hc depth w
  have hperm : (evs.map InputEvent.keyCode).Perm (pressedKeys c w) := by
    refine (List.perm_ext_iff_of_nodup hrel.nodup ((List.nodup_range _).filter _)).mpr ?_
    intro k
    simp only [pressedKeys, List.mem_filter, List.mem_range]
    constructor
    · intro hk
      obtain ⟨e, he, rfl⟩ := List.mem_map.mp hk
      exact ⟨(hinv _ (hrel.released e he).1).2, (hrel.released e he).1⟩
    · rintro ⟨hlt, hp⟩
      exact hrel.complete hh k hp (hgood k hlt (hinv k hp).1)
  refine ⟨w2, evs, hrun, ?_, hrel.types, hperm, hm, hb⟩
  rw [← hperm.length_eq, List.length_map]

/-- C4: in a window reached from an all-released window through
`processKeyDown`, `processKeyUp`, `releaseAllKeys` and `fireKeysPress` on key
codes of the table, with a handler registered, `releaseAllKeys` dispatches as
many events as there are keys marked pressed, all of them KeyUp, one per
pressed key, and ends with the modifier state and the mouse button mask
equal to 0. -/
theorem releaseAllKeys_reachable (c : Fw) (hc : c.WellFormed) (depth : Nat)
    (ops : List Op) (w0 w : PlatformWindow) (evs0 : List InputEvent)
    (h0 : AllReleased w0) (hops : ∀ op ∈ ops, op.isKeyOp c)
    (hrun : run c (depth + 2) ops w0 = some (w, evs0))
    (hh : w.m_onInputEvent = true) :
    ∃ w2 evs, releaseAllKeys c (depth + 2) w = some (w2, evs) ∧
      evs.length = (pressedKeys c w).length ∧
      (∀ e ∈ evs, e.type = .KeyUpInputEvent) ∧
      (evs.map InputEvent.keyCode).Perm (pressedKeys c w) ∧
      w2.m_inputEvent.keyboardModifiers = 0 ∧ w2.m_mouseButtonStates = 0 := by
  have hinv0 : PressedOrdinary c w0 := by
    intro k hk
    rw [h0 k] at hk
    exact absurd hk (by simp)
  obtain ⟨w1, evs1, hr, hinv⟩ := run_pressedOrdinary c hc depth ops hops w0 hinv0
  rw [hrun] at hr
  have hw : w = w1 := congrArg Prod.fst (Option.some.inj hr)
  subst hw
  exact releaseAllKeys_of_pressedOrdinary c hc depth w hinv hh

/-- Instance of `releaseAllKeys_reachable`: NumLock and two keypad digits
went down on the sample window. -/
theorem releaseAllKeys_reachable_witness :
    sampleFw.WellFormed ∧ AllReleased sampleWindow ∧
    (∀ op ∈ sampleOps, op.isKeyOp sampleFw) ∧
    run sampleFw 2 sampleOps sampleWindow = some (samplePressed, sampleEvents) ∧
    samplePressed.m_onInputEvent = true ∧
    ∃ w2 evs, releaseAllKeys sampleFw 2 samplePressed = some (w2, evs) ∧
      evs.length = (pressedKeys sampleFw samplePressed).length ∧
      (∀ e ∈ evs, e.type = .KeyUpInputEvent) ∧
      (evs.map InputEvent.keyCode).Perm (pressedKeys sampleFw samplePressed) ∧
      w2.m_inputEvent.keyboardModifiers = 0 ∧ w2.m_mouseButtonStates = 0 :=
  ⟨by decide, fun _ => rfl, by decide, rfl, rfl,
    releaseAllKeys_reachable sampleFw (by decide) 0 sampleOps sampleWindow samplePressed
      sampleEvents (fun _ => rfl) (by decide) rfl rfl⟩

/-! ## Ordering of KeyPress after KeyDown -/

theorem unmatchedDown_append (k : Nat) (evs1 evs2 : List InputEvent) :
    unmatchedDown k (evs1 ++ evs2) = evs2.foldl (downStep k) (unmatchedDown k evs1) := by
  simp [unmatchedDown, List.foldl_append]

theorem foldl_downStep_inert (k : Nat) (evs : List InputEvent) (b : Bool)
    (h : ∀ e ∈ evs, e.keyCode ≠ k ∨ e.type = .KeyPressInputEvent) :
    evs.foldl (downStep k) b = b := by
  induction evs generalizing b with
  | nil => rfl
  | cons e evs ih =>
    have hstep : downStep k b e = b := by
      rcases h e (List.mem_cons_self _ _) with h1 | h1
      · simp [downStep, h1]
      · simp [downStep, h1]
    rw [List.foldl_cons, hstep]
    exact ih b (fun e2 he2 => h e2 (List.mem_cons_of_mem _ he2))

theorem keyPressOrdered_nil : KeyPressOrdered [] := by
  intro pre e post h
  simp at h

theorem keyPressOrdered_append (log evs : List InputEvent) (hlog : KeyPressOrdered log)
    (hevs : ∀ pre e post, evs = pre ++ e :: post → e.type = .KeyPressInputEvent →
      unmatchedDown e.keyCode (log ++ pre) = true) :
    KeyPressOrdered (log ++ evs) := by
  intro p e q heq ht
  rcases List.append_eq_append_iff.mp heq with ⟨a, ha, hb⟩ | ⟨b, ha, hb⟩
  · rw [ha]
    exact hevs a e q hb ht
  · cases b with
    | nil =>
      rw [List.append_nil] at ha
      rw [List.nil_append] at hb
      have := hevs [] e q hb.symm ht
      rw [List.append_nil, ha] at this
      exact this
    | cons x b =>
      rw [List.cons_append] at hb
      obtain ⟨hx, -⟩ := List.cons.inj hb
      subst hx
      exact hlog p e b ha ht

/-- The invariant behind the ordering: the events so far are ordered, and
every key marked pressed has a KeyDown not yet followed by a KeyUp. -/
theorem ordered_step (c : Fw) (hc : c.WellFormed) (depth : Nat) (op : Op)
    (w : PlatformWindow) (log : List InputEvent)
    (hlog : KeyPressOrdered log)
    (hpressed : ∀ k, (w.m_keyInfo k).state = true → unmatchedDown k log = true)
    (hdown : ∀ now k, op = .keyDown now k → c.isOrdinary k →
      (w.m_keyInfo k).state = false → w.m_onInputEvent = true) :
    ∃ w2 evs, step c (depth + 2) op w = some (w2, evs) ∧
      KeyPressOrdered (log ++ evs) ∧
      (∀ k, (w2.m_keyInfo k).state = true → unmatchedDown k (log ++ evs) = true) ∧
      w2.m_onInputEvent =
        (match op with
          | .setHandler => true
          | .clearHandler => false
          | _ => w.m_onInputEvent) := by
  cases op with
  | keyDown now k =>
    obtain ⟨f1, f2, f3⟩ := processKeyDown_frame c now k w
    refine ⟨(processKeyDown c now k w).1, (processKeyDown c now k w).2, rfl, ?_, ?_, f1⟩
    · by_cases ho : c.isOrdinary k
      · cases hp : (w.m_keyInfo k).state
        · obtain ⟨hev, -, -, -⟩ :=
            processKeyDown_unpressed c now k w ho hp (hdown now k rfl ho hp)
          rw [hev]
          apply keyPressOrdered_append log _ hlog
          intro pre e post heq ht
          cases pre with
          | nil =>
            rw [List.nil_append] at heq
            obtain ⟨he, -⟩ := List.cons.inj heq
            rw [← he] at ht
            exact absurd ht (by simp)
          | cons x pre =>
            rw [List.cons_append] at heq
            obtain ⟨hx, hrest⟩ := List.cons.inj heq
            cases pre with
            | nil =>
              rw [List.nil_append] at hrest
              obtain ⟨he, -⟩ := List.cons.inj hrest
              rw [← he, ← hx, unmatchedDown_append]
              simp [downStep]
            | cons y pre =>
              rw [List.cons_append] at hrest
              obtain ⟨-, hnil⟩ := List.cons.inj hrest
              simp at hnil
        · rw [processKeyDown_pressed c now k w ho hp, List.append_nil]
          exact hlog
      · rw [(f3 ho).2, List.append_nil]
        exact hlog
    · intro j hj
      by_cases ho : c.isOrdinary k
      · cases hp : (w.m_keyInfo k).state
        · obtain ⟨hev, -, -, -⟩ :=
            processKeyDown_unpressed c now k w ho hp (hdown now k rfl ho hp)
          rw [hev, unmatchedDown_append]
          by_cases hjk : j = k
          · subst hjk
            simp [downStep]
          · rw [f2 j hjk] at hj
            rw [foldl_downStep_inert j _ _ (by
              intro e he
              simp only [List.mem_cons, List.mem_singleton, List.not_mem_nil, or_false] at he
              rcases he with rfl | rfl
              · exact Or.inl (fun h => hjk h.symm)
              · exact Or.inl (fun h => hjk h.symm))]
            exact hpressed j hj
        · rw [processKeyDown_pressed c now k w ho hp] at hj ⊢
          rw [List.append_nil]
          exact hpressed j hj
      · rw [(f3 ho).1] at hj
        rw [(f3 ho).2, List.append_nil]
        exact hpressed j hj
  | keyUp k =>
    obtain ⟨w2, evs, hrun, hrel, -⟩ := processKeyUp_releases c hc depth k w
    refine ⟨w2, evs, hrun, ?_, ?_, hrel.handler⟩
    · apply keyPressOrdered_append log _ hlog
      intro pre e post heq ht
      have he : e ∈ evs := by rw [heq]; simp
      rw [hrel.types e he] at ht
      exact absurd ht (by simp)
    · intro j hj
      rw [unmatchedDown_append, foldl_downStep_inert j evs _ (by
        intro e he
        refine Or.inl (fun h => ?_)
        have := (hrel.released e he).2
        rw [h, hj] at this
        exact absurd this (by simp))]
      exact hpressed j (hrel.sub j hj)
  | releaseAll =>
    obtain ⟨w2, evs, hrun, hrel, -⟩ := releaseAllKeys_releases c hc depth w
    refine ⟨w2, evs, hrun, ?_, ?_, hrel.handler⟩
    · apply keyPressOrdered_append log _ hlog
      intro pre e post heq ht
      have he : e ∈ evs := by rw [heq]; simp
      rw [hrel.types e he] at ht
      exact absurd ht (by simp)
    · intro j hj
      rw [unmatchedDown_append, foldl_downStep_inert j evs _ (by
        intro e he
        refine Or.inl (fun h => ?_)
        have := (hrel.released e he).2
        rw [h, hj] at this
        exact absurd this (by simp))]
      exact hpressed j (hrel.sub j hj)
  | fire now =>
    obtain ⟨f1, f2, f3⟩ := fireKeysPress_frame c now w
    refine ⟨(fireKeysPress c now w).1, (fireKeysPress c now w).2, rfl, ?_, ?_, f1⟩
    · apply keyPressOrdered_append log _ hlog
      intro pre e post heq _
      have he : e ∈ (fireKeysPress c now w).2 := by rw [heq]; simp
      rw [unmatchedDown_append, foldl_downStep_inert e.keyCode pre _ (by
        intro e2 he2
        have : e2 ∈ (fireKeysPress c now w).2 := by rw [heq]; simp [he2]
        exact Or.inr (f3 e2 this).1)]
      exact hpressed _ (f3 e he).2
    · intro j hj
      rw [f2 j] at hj
      rw [unmatchedDown_append, foldl_downStep_inert j _ _ (fun e he => Or.inr (f3 e he).1)]
      exact hpressed j hj
  | setHandler =>
    exact ⟨{ w with m_onInputEvent := true }, [], rfl, by rwa [List.append_nil],
      fun j hj => by rw [List.append_nil]; exact hpressed j hj, rfl⟩
  | clearHandler =>
    exact ⟨{ w with m_onInputEvent := false }, [], rfl, by rwa [List.append_nil],
      fun j hj => by rw [List.append_nil]; exact hpressed j hj, rfl⟩

theorem ordered_run (c : Fw) (hc : c.WellFormed) (depth : Nat) (ops : List Op)
    (w : PlatformWindow) (log : List InputEvent)
    (hlog : KeyPressOrdered log)
    (hpressed : ∀ k, (w.m_keyInfo k).state = true → unmatchedDown k log = true)
    (hd : handlerAtPresses c (depth + 2) ops w = true) :
    ∃ w2 evs, run c (depth + 2) ops w = some (w2, evs) ∧ KeyPressOrdered (log ++ evs) := by
  induction ops generalizing w log with
  | nil => exact ⟨w, [], rfl, by rwa [List.append_nil]⟩
  | cons op ops ih =>
    simp only [handlerAtPresses, Bool.and_eq_true] at hd
    have hdown : ∀ now k, op = .keyDown now k → c.isOrdinary k →
        (w.m_keyInfo k).state = false → w.m_onInputEvent = true := by
      intro now k hop ho hp
      subst hop
      have h1 := hd.1
      simpa [marksPressed, ho, hp] using h1
    obtain ⟨w1, evs1, hs, hl1, hp1, -⟩ := ordered_step c hc depth op w log hlog hpressed hdown
    have hd1 : handlerAtPresses c (depth + 2) ops w1 = true := by
      have h2 := hd.2
      simpa only [hs] using h2
    obtain ⟨w2, evs2, hr, hl2⟩ := ih w1 (log ++ evs1) hl1 hp1 hd1
    refine ⟨w2, evs1 ++ evs2, by simp only [run, hs, hr], ?_⟩
    rw [← List.append_assoc]
    exact hl2

/-- C2 (amended): for every finite sequence of `processKeyDown`,
`processKeyUp`, `releaseAllKeys`, `fireKeysPress` and registering or removing
the handler, started from a window with no key pressed, in which a handler is
registered at every `processKeyDown` that marks a key pressed: the sequence
runs to its end and every KeyPress it dispatches comes after a KeyDown of the
same key with no KeyUp of that key in between. -/
theorem keyPress_after_keyDown (c : Fw) (hc : c.WellFormed) (depth : Nat) (ops : List Op)
    (w0 : PlatformWindow) (h0 : AllReleased w0)
    (hd : handlerAtPresses c (depth + 2) ops w0 = true) :
    ∃ w evs, run c (depth + 2) ops w0 = some (w, evs) ∧ KeyPressOrdered evs := by
  obtain ⟨w, evs, hr, ho⟩ := ordered_run c hc depth ops w0 [] keyPressOrdered_nil
    (fun k hk => by rw [h0 k] at hk; exact absurd hk (by simp)) hd
  exact ⟨w, evs, hr, by rwa [List.nil_append] at ho⟩

set_option maxRecDepth 20000 in
/-- Instance of `keyPress_after_keyDown`: with no handler registered Ctrl goes
down; with a handler key 30 goes down and the repeat engine runs; with no
handler again key 30 goes down a second time, Ctrl goes up and all keys are
released. -/
theorem keyPress_after_keyDown_witness :
    sampleFw.WellFormed ∧ AllReleased sampleWindow ∧
    handlerAtPresses sampleFw 2 sampleHandlerOps sampleWindow = true ∧
    ∃ w evs, run sampleFw 2 sampleHandlerOps sampleWindow = some (w, evs) ∧
      KeyPressOrdered evs :=
  ⟨by decide, fun _ => rfl, by decide,
    keyPress_after_keyDown sampleFw (by decide) 0 sampleHandlerOps sampleWindow
      (fun _ => rfl) (by decide)⟩

set_option maxRecDepth 20000 in
/-- C2 fails as stated: on the sample window the handler is removed, key 30
goes down, a handler is registered again and the repeat engine runs at clock
value 40. The only event delivered is a KeyPress of key 30, with no KeyDown
before it. -/
theorem keyPress_without_keyDown :
    AllReleased sampleWindow ∧
    (run sampleFw 2 [.clearHandler, .keyDown 0 30, .setHandler, .fire 40] sampleWindow).map
      Prod.snd = some [⟨.KeyPressInputEvent, 30, 0, 40⟩] ∧
    ¬ KeyPressOrdered [⟨.KeyPressInputEvent, 30, 0, 40⟩] := by
  refine ⟨fun _ => rfl, by decide, ?_⟩
  intro h
  have := h [] ⟨.KeyPressInputEvent, 30, 0, 40⟩ [] rfl rfl
  simp [unmatchedDown] at this

/-! ## Calls that change nothing -/

/-- C11 (amended): for a key code that is not a modifier, `processKeyDown` of
a key already marked pressed, `processKeyUp` of a key not marked pressed (for
NumLock: with no keypad digit marked pressed either), and both calls on the
unknown sentinel dispatch no event and return the window unchanged. -/
theorem ignored_key_calls (c : Fw) (now : Int) (depth k : Nat) (w : PlatformWindow)
    (hk : ¬ c.isModifier k) :
    ((w.m_keyInfo k).state = true → processKeyDown c now k w = (w, [])) ∧
    ((w.m_keyInfo k).state = false →
      (k = c.KeyNumLock → ∀ d ∈ c.numpadKeys, (w.m_keyInfo d).state = false) →
      processKeyUp c (depth + 1) k w = some (w, [])) ∧
    (k = c.KeyUnknown →
      processKeyDown c now k w = (w, []) ∧ processKeyUp c (depth + 1) k w = some (w, [])) := by
  have hm := hk
  simp only [Fw.isModifier, not_or] at hm
  refine ⟨?_, ?_, ?_⟩
  · intro hp
    by_cases h0 : k = c.KeyUnknown
    · simp [processKeyDown, h0]
    · exact processKeyDown_pressed c now k w ⟨h0, hk⟩ hp
  · intro hp hn
    by_cases h0 : k = c.KeyUnknown
    · simp [processKeyUp, h0]
    · by_cases hnl : k = c.KeyNumLock
      · subst hnl
        rw [processKeyUp_numLock c depth w ⟨h0, hk⟩,
          forPressed_none_pressed _ _ _ (hn rfl)]
        simp only [releaseKey_unpressed c _ w hp, List.append_nil]
      · rw [processKeyUp_ordinary c depth k w ⟨h0, hk⟩ hnl, releaseKey_unpressed c k w hp]
  · intro h0
    subst h0
    exact ⟨by simp [processKeyDown], by simp [processKeyUp]⟩

/-- Instance of `ignored_key_calls`: key 30 on the sample window, where it is
released, and on `sampleHeld`, where it is pressed. -/
theorem ignored_key_calls_witness :
    ¬ sampleFw.isModifier 30 ∧ (sampleHeld.m_keyInfo 30).state = true ∧
    (sampleWindow.m_keyInfo 30).state = false ∧
    processKeyDown sampleFw 9 30 sampleHeld = (sampleHeld, []) ∧
    processKeyUp sampleFw 1 30 sampleWindow = some (sampleWindow, []) :=
  ⟨by decide, by decide, by decide,
    (ignored_key_calls sampleFw 9 0 30 sampleHeld (by decide)).1 (by decide),
    (ignored_key_calls sampleFw 9 0 30 sampleWindow (by decide)).2.1 (by decide)
      (by decide)⟩

/-- C11 fails as stated: NumLock (18) is not marked pressed and the keypad
digit 142 is; `processKeyUp(KeyNumLock)` dispatches the KeyUp of the digit and
releases it. -/
theorem numLock_up_releases_digits_when_unpressed :
    ¬ sampleFw.isModifier sampleFw.KeyNumLock ∧
    ((processKeyDown sampleFw 5 142 sampleWindow).1.m_keyInfo sampleFw.KeyNumLock).state
      = false ∧
    ((processKeyDown sampleFw 5 142 sampleWindow).1.m_keyInfo 142).state = true ∧
    (processKeyUp sampleFw 2 sampleFw.KeyNumLock
      (processKeyDown sampleFw 5 142 sampleWindow).1).map Prod.snd =
      some [⟨.KeyUpInputEvent, 142, 0, 0⟩] ∧
    (processKeyUp sampleFw 2 sampleFw.KeyNumLock
      (processKeyDown sampleFw 5 142 sampleWindow).1).map
        (fun r => (r.1.m_keyInfo 142).state) = some false := by
  decide

/-! ## Shader lookup by id -/

/-- C12: `getShaderById` returns the element at index `id - 1` when
`1 <= id <= length`, and the null handle otherwise, in particular for 0 and
for every id above the length; it never reads the vector outside its
bounds. -/
theorem getShaderById_lookup {Program : Type} (v : List (Option Program)) (id : Fin 256) :
    ShaderManager.getShaderById v id ≠ none ∧
    (∀ h : 1 ≤ id.val ∧ id.val ≤ v.length,
      ShaderManager.getShaderById v id = some (v.get ⟨id.val - 1, by omega⟩)) ∧
    (¬ (1 ≤ id.val ∧ id.val ≤ v.length) → ShaderManager.getShaderById v id = some none) ∧
    (id.val = 0 → ShaderManager.getShaderById v id = some none) ∧
    (v.length < id.val → ShaderManager.getShaderById v id = some none) := by
  have hin : ∀ h : 1 ≤ id.val ∧ id.val ≤ v.length,
      ShaderManager.getShaderById v id = some (v.get ⟨id.val - 1, by omega⟩) := by
    intro h
    have hlt : id.val - 1 < v.length := by omega
    have hc : id.val > 0 ∧ id.val ≤ v.length := ⟨h.1, h.2⟩
    simp only [ShaderManager.getShaderById, if_pos hc]
    rw [List.getElem?_eq_getElem hlt]
    rfl
  have hout : ¬ (1 ≤ id.val ∧ id.val ≤ v.length) →
      ShaderManager.getShaderById v id = some none := by
    intro h
    have hc : ¬ (id.val > 0 ∧ id.val ≤ v.length) := fun hx => h ⟨hx.1, hx.2⟩
    simp only [ShaderManager.getShaderById, if_neg hc]
  refine ⟨?_, hin, hout, fun h => hout (by omega), fun h => hout (by omega)⟩
  by_cases h : 1 ≤ id.val ∧ id.val ≤ v.length
  · rw [hin h]
    simp
  · rw [hout h]
    simp

/-- Instance of `getShaderById_lookup`: a vector of two programs, ids 0 to 3. -/
theorem getShaderById_lookup_witness :
    ShaderManager.getShaderById [some "map", some "outfit"] 0 = some none ∧
    ShaderManager.getShaderById [some "map", some "outfit"] 1 = some (some "map") ∧
    ShaderManager.getShaderById [some "map", some "outfit"] 2 = some (some "outfit") ∧
    ShaderManager.getShaderById [some "map", some "outfit"] 3 = some none :=
  ⟨(getShaderById_lookup [some "map", some "outfit"] 0).2.2.2.1 rfl,
    (getShaderById_lookup [some "map", some "outfit"] 1).2.1 (by decide),
    (getShaderById_lookup [some "map", some "outfit"] 2).2.1 (by decide),
    (getShaderById_lookup [some "map", some "outfit"] 3).2.2.2.2 (by decide)⟩

/-! ## Messages of the cursor loader -/

/-- C13, evaluated on the code: a file that does not decode is reported with
its path, but for a 32x32 image of 3 channels and for a 16x16 image
`loadMouseCursor` logs a fixed message that names the constraint and does not
contain the path of the file. -/
theorem loadMouseCursor_messages :
    (∀ (platform : Image → Int × Int → Int) (file : String) (hotSpot : Int × Int),
      (loadMouseCursor (fun _ => none) platform file hotSpot).logged =
        ["unable to load cursor image file " ++ file] ∧
      file.toList <:+: ("unable to load cursor image file " ++ file).toList) ∧
    (loadMouseCursor (fun _ => some ⟨3, 32, 32, []⟩) (fun _ _ => 7) "cursors/rgb.png"
      (1, 2)).logged = ["the cursor image must have 4 channels"] ∧
    ¬ "cursors/rgb.png".toList <:+: "the cursor image must have 4 channels".toList ∧
    (loadMouseCursor (fun _ => some ⟨4, 16, 16, []⟩) (fun _ _ => 7) "cursors/small.png"
      (1, 2)).logged = ["the cursor image must have 32x32 dimension"] ∧
    ¬ "cursors/small.png".toList <:+: "the cursor image must have 32x32 dimension".toList := by
  refine ⟨?_, by decide, by decide, by decide, by decide⟩
  intro platform file hotSpot
  refine ⟨rfl, ?_⟩
  show file.data <:+: ("unable to load cursor image file " ++ file).data
  rw [String.data_append]
  exact (List.suffix_append _ _).isInfix

/-! ## The record of a key after it goes down -/

/-- C14 (amended): for a key that is neither the unknown sentinel nor a
modifier and is not marked pressed, after `processKeyDown` at clock value
`now` the key is marked pressed, and when a handler is registered its
`firstTicks` and `lastTicks` are both `now`. -/
theorem processKeyDown_record (c : Fw) (now : Int) (k : Nat) (w : PlatformWindow)
    (hk : c.isOrdinary k) (hp : (w.m_keyInfo k).state = false) :
    ((processKeyDown c now k w).1.m_keyInfo k).state = true ∧
    (w.m_onInputEvent = true →
      ((processKeyDown c now k w).1.m_keyInfo k).firstTicks = now ∧
      ((processKeyDown c now k w).1.m_keyInfo k).lastTicks = now) := by
  refine ⟨processKeyDown_state_after c now k w hk, ?_⟩
  intro hh
  rw [(processKeyDown_unpressed c now k w hk hp hh).2.1]
  exact ⟨rfl, rfl⟩

/-- Instance of `processKeyDown_record`: key 30 on the sample window at clock
value 7. -/
theorem processKeyDown_record_witness :
    sampleFw.isOrdinary 30 ∧ (sampleWindow.m_keyInfo 30).state = false ∧
    ((processKeyDown sampleFw 7 30 sampleWindow).1.m_keyInfo 30).state = true ∧
    (sampleWindow.m_onInputEvent = true →
      ((processKeyDown sampleFw 7 30 sampleWindow).1.m_keyInfo 30).firstTicks = 7 ∧
      ((processKeyDown sampleFw 7 30 sampleWindow).1.m_keyInfo 30).lastTicks = 7) :=
  ⟨by decide, by decide, processKeyDown_record sampleFw 7 30 sampleWindow (by decide) (by decide)⟩

/-- C14 fails as stated: with no handler registered, `processKeyDown` of the
released key 30 at clock value 7 marks it pressed with `lastTicks = -1` and
leaves `firstTicks` at its old value 0. -/
theorem processKeyDown_record_without_handler :
    sampleFw.isOrdinary 30 ∧ (sampleMute.m_keyInfo 30).state = false ∧
    (processKeyDown sampleFw 7 30 sampleMute).1.m_keyInfo 30 =
      { state := true, firstTicks := 0, lastTicks := -1, delay := 30 } := by
  decide

/-! ## Windows reached from an all-released window -/

theorem allReleased_pressedOrdinary (c : Fw) (w0 : PlatformWindow) (h0 : AllReleased w0) :
    PressedOrdinary c w0 := by
  intro k hk
  rw [h0 k] at hk
  exact absurd hk (by simp)

theorem reached_pressedOrdinary (c : Fw) (hc : c.WellFormed) (depth : Nat) (ops : List Op)
    (w0 w : PlatformWindow) (evs0 : List InputEvent) (h0 : AllReleased w0)
    (hops : ∀ op ∈ ops, op.isKeyOp c)
    (hrun : run c (depth + 2) ops w0 = some (w, evs0)) : PressedOrdinary c w := by
  obtain ⟨w1, evs1, hr, hinv⟩ :=
    run_pressedOrdinary c hc depth ops hops w0 (allReleased_pressedOrdinary c w0 h0)
  rw [hrun] at hr
  have hw : w = w1 := congrArg Prod.fst (Option.some.inj hr)
  rw [hw]
  exact hinv

theorem releaseAllKeys_clears (c : Fw) (hc : c.WellFormed) (depth : Nat) (w : PlatformWindow)
    (hinv : PressedOrdinary c w) :
    ∃ w2 evs, releaseAllKeys c (depth + 2) w = some (w2, evs) ∧
      ∀ k, (w2.m_keyInfo k).state = false := by
  obtain ⟨w2, evs, hrun, hrel, hgood, -, -⟩ := releaseAllKeys_releases c hc depth w
  refine ⟨w2, evs, hrun, ?_⟩
  intro k
  cases hs : (w2.m_keyInfo k).state
  · rfl
  · have hp := hinv k (hrel.sub k hs)
    rw [hgood k hp.2 hp.1] at hs
    exact absurd hs (by simp)

/-- C15: in a window reached from an all-released window through
`processKeyDown`, `processKeyUp`, `releaseAllKeys` and `fireKeysPress` on key
codes of the table, with or without a handler, `releaseAllKeys` returns and
leaves no key code marked pressed. -/
theorem releaseAllKeys_leaves_none_pressed (c : Fw) (hc : c.WellFormed) (depth : Nat)
    (ops : List Op) (w0 w : PlatformWindow) (evs0 : List InputEvent)
    (h0 : AllReleased w0) (hops : ∀ op ∈ ops, op.isKeyOp c)
    (hrun : run c (depth + 2) ops w0 = some (w, evs0)) :
    ∃ w2 evs, releaseAllKeys c (depth + 2) w = some (w2, evs) ∧
      ∀ k, (w2.m_keyInfo k).state = false :=
  releaseAllKeys_clears c hc depth w
    (reached_pressedOrdinary c hc depth ops w0 w evs0 h0 hops hrun)

/-- Instance of `releaseAllKeys_leaves_none_pressed`: NumLock and two keypad
digits went down on the sample window. -/
theorem releaseAllKeys_leaves_none_pressed_witness :
    sampleFw.WellFormed ∧ AllReleased sampleWindow ∧
    (∀ op ∈ sampleOps, op.isKeyOp sampleFw) ∧
    run sampleFw 2 sampleOps sampleWindow = some (samplePressed, sampleEvents) ∧
    ∃ w2 evs, releaseAllKeys sampleFw 2 samplePressed = some (w2, evs) ∧
      ∀ k, (w2.m_keyInfo k).state = false :=
  ⟨by decide, fun _ => rfl, by decide, rfl,
    releaseAllKeys_leaves_none_pressed sampleFw (by decide) 0 sampleOps sampleWindow
      samplePressed sampleEvents (fun _ => rfl) (by decide) rfl⟩

/-- C18: in a window reached from an all-released window through
`processKeyDown`, `processKeyUp`, `releaseAllKeys` and `fireKeysPress`, the
entries of the unknown sentinel, of Ctrl, of Shift and, on the non-Apple
build, of Alt are not marked pressed; every key marked pressed is an ordinary
key code. -/
theorem sentinel_and_modifiers_never_pressed (c : Fw) (hc : c.WellFormed) (depth : Nat)
    (ops : List Op) (w0 w : PlatformWindow) (evs0 : List InputEvent)
    (h0 : AllReleased w0) (hops : ∀ op ∈ ops, op.isKeyOp c)
    (hrun : run c (depth + 2) ops w0 = some (w, evs0)) :
    (w.m_keyInfo c.KeyUnknown).state = false ∧
    (w.m_keyInfo c.KeyCtrl).state = false ∧
    (w.m_keyInfo c.KeyShift).state = false ∧
    (c.apple = false → (w.m_keyInfo c.KeyAlt).state = false) ∧
    ∀ k, (w.m_keyInfo k).state = true → c.isOrdinary k := by
  have hinv := reached_pressedOrdinary c hc depth ops w0 w evs0 h0 hops hrun
  have hnot : ∀ k, ¬ c.isOrdinary k → (w.m_keyInfo k).state = false := by
    intro k hk
    cases hs : (w.m_keyInfo k).state
    · rfl
    · exact absurd (hinv k hs).1 hk
  refine ⟨?_, ?_, ?_, ?_, fun k hk => (hinv k hk).1⟩
  · exact hnot _ (fun h => h.1 rfl)
  · exact hnot _ (fun h => h.2 (Or.inl rfl))
  · exact hnot _ (fun h => h.2 (Or.inr (Or.inr rfl)))
  · intro hap
    refine hnot _ (fun h => h.2 (Or.inr (Or.inl ?_)))
    simp [Fw.altKey, hap]

/-- Instance of `sentinel_and_modifiers_never_pressed`: the window
`samplePressed`. -/
theorem sentinel_and_modifiers_never_pressed_witness :
    sampleFw.WellFormed ∧ AllReleased sampleWindow ∧
    (∀ op ∈ sampleOps, op.isKeyOp sampleFw) ∧
    run sampleFw 2 sampleOps sampleWindow = some (samplePressed, sampleEvents) ∧
    (samplePressed.m_keyInfo sampleFw.KeyUnknown).state = false ∧
    (samplePressed.m_keyInfo sampleFw.KeyCtrl).state = false ∧
    (samplePressed.m_keyInfo sampleFw.KeyShift).state = false ∧
    (sampleFw.apple = false → (samplePressed.m_keyInfo sampleFw.KeyAlt).state = false) ∧
    ∀ k, (samplePressed.m_keyInfo k).state = true → sampleFw.isOrdinary k :=
  ⟨by decide, fun _ => rfl, by decide, rfl,
    sentinel_and_modifiers_never_pressed sampleFw (by decide) 0 sampleOps sampleWindow
      samplePressed sampleEvents (fun _ => rfl) (by decide) rfl⟩

/-! ## Termination of the release routines -/

theorem processKeyUp_not_ordinary (c : Fw) (depth k : Nat) (w : PlatformWindow)
    (hk : ¬ c.isOrdinary k) :
    ∃ w2, processKeyUp c (depth + 1) k w = some (w2, []) ∧
      ∀ d, processKeyUp c (d + 1) k w = some (w2, []) := by
  by_cases h0 : k = c.KeyUnknown
  · exact ⟨w, by rw [processKeyUp, if_pos h0], fun d => by rw [processKeyUp, if_pos h0]⟩
  by_cases h1 : k = c.KeyCtrl
  · exact ⟨w.andNotModifiers c.KeyboardCtrlModifier,
      by rw [processKeyUp, if_neg h0, if_pos h1],
      fun d => by rw [processKeyUp, if_neg h0, if_pos h1]⟩
  by_cases h2 : k = c.altKey
  · exact ⟨w.andNotModifiers c.KeyboardAltModifier,
      by rw [processKeyUp, if_neg h0, if_neg h1, if_pos h2],
      fun d => by rw [processKeyUp, if_neg h0, if_neg h1, if_pos h2]⟩
  by_cases h3 : k = c.KeyShift
  · exact ⟨w.andNotModifiers c.KeyboardShiftModifier,
      by rw [processKeyUp, if_neg h0, if_neg h1, if_neg h2, if_pos h3],
      fun d => by rw [processKeyUp, if_neg h0, if_neg h1, if_neg h2, if_pos h3]⟩
  exact absurd ⟨h0, by simp [Fw.isModifier, h1, h2, h3]⟩ hk

theorem processKeyUp_depth (c : Fw) (hc : c.WellFormed) (depth k : Nat) (w : PlatformWindow) :
    processKeyUp c (depth + 2) k w = processKeyUp c 2 k w := by
  by_cases hk : c.isOrdinary k
  · by_cases hn : k = c.KeyNumLock
    · subst hn
      rw [processKeyUp_numLock c (depth + 1) w hk, processKeyUp_numLock c 1 w hk,
        numpad_loop_eq c hc depth w, numpad_loop_eq c hc 0 w]
    · rw [processKeyUp_ordinary c (depth + 1) k w hk hn, processKeyUp_ordinary c 1 k w hk hn]
  · obtain ⟨w2, -, h⟩ := processKeyUp_not_ordinary c depth k w hk
    rw [h (depth + 1), h 1]

theorem processKeyUp_without_nesting (c : Fw) (depth k : Nat) (w : PlatformWindow)
    (hn : k ≠ c.KeyNumLock) : ∃ r, processKeyUp c (depth + 1) k w = some r := by
  by_cases hk : c.isOrdinary k
  · exact ⟨_, processKeyUp_ordinary c depth k w hk hn⟩
  · obtain ⟨w2, h, -⟩ := processKeyUp_not_ordinary c depth k w hk
    exact ⟨_, h⟩

theorem forPressed_failing_body (ks : List Nat) (w : PlatformWindow)
    (h : ∃ d ∈ ks, (w.m_keyInfo d).state = true) :
    forPressed (fun _ _ => none) ks w = none := by
  induction ks with
  | nil =>
    obtain ⟨d, hd, -⟩ := h
    exact absurd hd (List.not_mem_nil _)
  | cons k ks ih =>
    cases hp : (w.m_keyInfo k).state
    · simp only [forPressed, hp, Bool.false_eq_true, if_false]
      apply ih
      obtain ⟨d, hd, hs⟩ := h
      rcases List.mem_cons.mp hd with rfl | hd2
      · rw [hp] at hs
        exact absurd hs (by simp)
      · exact ⟨d, hd2, hs⟩
    · simp only [forPressed, hp, if_true]

/-- C20: `processKeyUp` returns on every key code and window with one level
of nested calls, and a larger bound changes nothing. A call makes no nested
call unless the key is NumLock and a keypad digit is pressed; the nested calls
are made on the ten keypad digit codes, none of which is NumLock, so they make
no nested call themselves. `releaseAllKeys` returns as well. -/
theorem release_routines_terminate (c : Fw) (hc : c.WellFormed) (depth k : Nat)
    (w : PlatformWindow) :
    (∃ r, processKeyUp c (depth + 2) k w = some r) ∧
    processKeyUp c (depth + 2) k w = processKeyUp c 2 k w ∧
    (processKeyUp c 1 k w = none ↔
      (k = c.KeyNumLock ∧ ∃ d ∈ c.numpadKeys, (w.m_keyInfo d).state = true)) ∧
    c.numpadKeys.length = 10 ∧
    (∀ d ∈ c.numpadKeys, c.KeyNumpad0 ≤ d ∧ d ≤ c.KeyNumpad9 ∧ d ≠ c.KeyNumLock ∧
      ∀ w1, ∃ r, processKeyUp c 1 d w1 = some r) ∧
    (∃ r, releaseAllKeys c (depth + 2) w = some r) ∧
    releaseAllKeys c (depth + 2) w = releaseAllKeys c 2 w := by
  have h9 : c.KeyNumpad9 = c.KeyNumpad0 + 9 := hc.2.1
  refine ⟨?_, processKeyUp_depth c hc depth k w, ⟨?_, ?_⟩, ?_, ?_, ?_, ?_⟩
  · obtain ⟨w2, evs, h, -⟩ := processKeyUp_releases c hc depth k w
    exact ⟨_, h⟩
  · intro hnone
    have hk : k = c.KeyNumLock := by
      by_contra hn
      obtain ⟨r, hr⟩ := processKeyUp_without_nesting c 0 k w hn
      rw [hr] at hnone
      exact absurd hnone (by simp)
    refine ⟨hk, ?_⟩
    by_contra hno
    have hall : ∀ d ∈ c.numpadKeys, (w.m_keyInfo d).state = false := by
      intro d hd
      cases hs : (w.m_keyInfo d).state
      · rfl
      · exact absurd ⟨d, hd, hs⟩ hno
    subst hk
    rw [processKeyUp_numLock c 0 w (wellFormed_numLock c hc),
      forPressed_none_pressed _ _ _ hall] at hnone
    exact absurd hnone (by simp)
  · rintro ⟨hk, hex⟩
    subst hk
    have hbody : forPressed (fun k w1 => processKeyUp c 0 k w1) c.numpadKeys w =
        forPressed (fun _ _ => none) c.numpadKeys w :=
      forPressed_congr _ _ _ (fun _ _ _ => rfl) w
    rw [processKeyUp_numLock c 0 w (wellFormed_numLock c hc), hbody,
      forPressed_failing_body _ w hex]
  · simp only [Fw.numpadKeys, List.length_range']
    omega
  · intro d hd
    have hmem := hd
    simp only [Fw.numpadKeys, List.mem_range'_1] at hmem
    refine ⟨hmem.1, by omega, (wellFormed_numpad c hc d hd).2, fun w1 => ?_⟩
    exact processKeyUp_without_nesting c 0 d w1 (wellFormed_numpad c hc d hd).2
  · obtain ⟨w2, evs, h, -⟩ := releaseAllKeys_releases c hc depth w
    exact ⟨_, h⟩
  · have hbody : forPressed (fun k w1 => processKeyUp c (depth + 2) k w1)
        (List.range c.KeyLast) w =
        forPressed (fun k w1 => processKeyUp c 2 k w1) (List.range c.KeyLast) w :=
      forPressed_congr _ _ _ (fun j _ w1 => processKeyUp_depth c hc depth j w1) w
    simp only [releaseAllKeys, hbody]

/-- Instance of `release_routines_terminate`: NumLock on the window
`samplePressed`, where two keypad digits are pressed. -/
theorem release_routines_terminate_witness :
    sampleFw.WellFormed ∧
    (∃ r, processKeyUp sampleFw 5 18 samplePressed = some r) ∧
    processKeyUp sampleFw 5 18 samplePressed = processKeyUp sampleFw 2 18 samplePressed ∧
    (processKeyUp sampleFw 1 18 samplePressed = none ↔
      (18 = sampleFw.KeyNumLock ∧
        ∃ d ∈ sampleFw.numpadKeys, (samplePressed.m_keyInfo d).state = true)) ∧
    sampleFw.numpadKeys.length = 10 ∧
    (∀ d ∈ sampleFw.numpadKeys, sampleFw.KeyNumpad0 ≤ d ∧ d ≤ sampleFw.KeyNumpad9 ∧
      d ≠ sampleFw.KeyNumLock ∧ ∀ w1, ∃ r, processKeyUp sampleFw 1 d w1 = some r) ∧
    (∃ r, releaseAllKeys sampleFw 5 samplePressed = some r) ∧
    releaseAllKeys sampleFw 5 samplePressed = releaseAllKeys sampleFw 2 samplePressed :=
  ⟨by decide, release_routines_terminate sampleFw (by decide) 3 18 samplePressed⟩

/-! ## Alternation of KeyDown and KeyUp -/

theorem alternation_append (k : Nat) (evs1 evs2 : List InputEvent) :
    alternation k (evs1 ++ evs2) = evs2.foldl (altStep k) (alternation k evs1) := by
  simp [alternation, List.foldl_append]

theorem foldl_altStep_none (k : Nat) (evs : List InputEvent) :
    evs.foldl (altStep k) none = none := by
  induction evs with
  | nil => rfl
  | cons e evs ih => simpa [altStep] using ih

theorem foldl_altStep_inert (k : Nat) (evs : List InputEvent) (s : Option Bool)
    (h : ∀ e ∈ evs, e.keyCode ≠ k ∨ e.type = .KeyPressInputEvent) :
    evs.foldl (altStep k) s = s := by
  induction evs generalizing s with
  | nil => rfl
  | cons e evs ih =>
    have hstep : altStep k s e = s := by
      cases s with
      | none => rfl
      | some b =>
        rcases h e (List.mem_cons_self _ _) with h1 | h1
        · simp [altStep, h1]
        · simp [altStep, h1]
    rw [List.foldl_cons, hstep]
    exact ih s (fun e2 he2 => h e2 (List.mem_cons_of_mem _ he2))

theorem foldl_altStep_keyUps (k : Nat) (evs : List InputEvent)
    (ht : ∀ e ∈ evs, e.type = .KeyUpInputEvent)
    (hnd : (evs.map InputEvent.keyCode).Nodup) (hk : k ∈ evs.map InputEvent.keyCode) :
    evs.foldl (altStep k) (some true) = some false := by
  induction evs with
  | nil => exact absurd hk (by simp)
  | cons e evs ih =>
    rw [List.map_cons, List.nodup_cons] at hnd
    rw [List.map_cons, List.mem_cons] at hk
    have hte := ht e (List.mem_cons_self _ _)
    by_cases hek : e.keyCode = k
    · have hstep : altStep k (some true) e = some false := by simp [altStep, hek, hte]
      rw [List.foldl_cons, hstep]
      apply foldl_altStep_inert
      intro e2 he2
      refine Or.inl (fun h => hnd.1 ?_)
      rw [hek, ← h]
      exact List.mem_map_of_mem _ he2
    · have hstep : altStep k (some true) e = some true := by simp [altStep, hek]
      rw [List.foldl_cons, hstep]
      refine ih (fun e2 he2 => ht e2 (List.mem_cons_of_mem _ he2)) hnd.2 ?_
      rcases hk with h | h
      · exact absurd h.symm hek
      · exact h

theorem Releases.alternation {w w2 : PlatformWindow} {evs : List InputEvent}
    (hrel : Releases w w2 evs) (hh : w.m_onInputEvent = true) (k : Nat) :
    evs.foldl (altStep k) (some (w.m_keyInfo k).state) = some (w2.m_keyInfo k).state := by
  by_cases hmem : k ∈ evs.map InputEvent.keyCode
  · obtain ⟨e, he, hek⟩ := List.mem_map.mp hmem
    have hr := hrel.released e he
    rw [hek] at hr
    rw [hr.1, hr.2]
    exact foldl_altStep_keyUps k evs hrel.types hrel.nodup hmem
  · have hsame : (w2.m_keyInfo k).state = (w.m_keyInfo k).state := by
      cases h1 : (w.m_keyInfo k).state
      · cases h2 : (w2.m_keyInfo k).state
        · rfl
        · have := hrel.sub k h2
          rw [h1] at this
          exact absurd this (by simp)
      · cases h2 : (w2.m_keyInfo k).state
        · exact absurd (hrel.complete hh k h1 h2) hmem
        · rfl
    rw [hsame]
    apply foldl_altStep_inert
    intro e he
    exact Or.inl (fun h => hmem (h ▸ List.mem_map_of_mem _ he))

theorem countEvents_cons (t : InputEventType) (k : Nat) (e : InputEvent)
    (evs : List InputEvent) :
    countEvents t k (e :: evs) =
      (if e.type = t ∧ e.keyCode = k then 1 else 0) + countEvents t k evs := by
  by_cases h : e.type = t ∧ e.keyCode = k
  · simp [countEvents, h, Nat.add_comm]
  · simp only [countEvents, if_neg h, Nat.zero_add]
    rw [List.filter_cons_of_neg (by simpa using h)]

theorem alternation_counts (k : Nat) (evs : List InputEvent) (b0 b : Bool)
    (h : evs.foldl (altStep k) (some b0) = some b) :
    countEvents .KeyDownInputEvent k evs + (if b0 then 1 else 0) =
      countEvents .KeyUpInputEvent k evs + (if b then 1 else 0) := by
  induction evs generalizing b0 with
  | nil =>
    simp only [List.foldl_nil, Option.some.injEq] at h
    simp [countEvents, h]
  | cons e evs ih =>
    rw [List.foldl_cons] at h
    rw [countEvents_cons, countEvents_cons]
    by_cases hk : e.keyCode = k
    · by_cases hd : e.type = .KeyDownInputEvent
      · cases b0
        · have hstep : altStep k (some false) e = some true := by simp [altStep, hk, hd]
          rw [hstep] at h
          have := ih true h
          simp [hk, hd] at this ⊢
          omega
        · have hstep : altStep k (some true) e = none := by simp [altStep, hk, hd]
          rw [hstep, foldl_altStep_none] at h
          exact absurd h (by simp)
      · by_cases hu : e.type = .KeyUpInputEvent
        · cases b0
          · have hstep : altStep k (some false) e = none := by simp [altStep, hk, hu]
            rw [hstep, foldl_altStep_none] at h
            exact absurd h (by simp)
          · have hstep : altStep k (some true) e = some false := by simp [altStep, hk, hu]
            rw [hstep] at h
            have := ih false h
            simp [hk, hu] at this ⊢
            omega
        · have hstep : altStep k (some b0) e = some b0 := by simp [altStep, hk, hd, hu]
          rw [hstep] at h
          have := ih b0 h
          simp [hd, hu] at this ⊢
          omega
    · have hstep : altStep k (some b0) e = some b0 := by simp [altStep, hk]
      rw [hstep] at h
      have := ih b0 h
      simp [hk] at this ⊢
      omega

theorem alternation_step (c : Fw) (hc : c.WellFormed) (depth : Nat) (op : Op)
    (w : PlatformWindow) (log : List InputEvent) (hop : op.isKeyOp c)
    (hh : w.m_onInputEvent = true)
    (hlog : ∀ k, alternation k log = some (w.m_keyInfo k).state) :
    ∃ w2 evs, step c (depth + 2) op w = some (w2, evs) ∧ w2.m_onInputEvent = true ∧
      ∀ k, alternation k (log ++ evs) = some (w2.m_keyInfo k).state := by
  cases op with
  | keyDown now k =>
    obtain ⟨f1, f2, f3⟩ := processKeyDown_frame c now k w
    refine ⟨(processKeyDown c now k w).1, (processKeyDown c now k w).2, rfl, f1.trans hh, ?_⟩
    intro j
    by_cases ho : c.isOrdinary k
    · cases hp : (w.m_keyInfo k).state
      · obtain ⟨hev, hki, hother, -⟩ := processKeyDown_unpressed c now k w ho hp hh
        rw [alternation_append, hlog j, hev]
        by_cases hjk : j = k
        · subst hjk
          rw [hki, hp]
          simp [altStep]
        · have hkj : ¬ k = j := fun h => hjk h.symm
          rw [hother j hjk]
          simp [altStep, hkj]
      · rw [processKeyDown_pressed c now k w ho hp, List.append_nil]
        exact hlog j
    · rw [(f3 ho).1, (f3 ho).2, List.append_nil]
      exact hlog j
  | keyUp k =>
    obtain ⟨w2, evs, hrun, hrel, -⟩ := processKeyUp_releases c hc depth k w
    refine ⟨w2, evs, hrun, hrel.handler.trans hh, fun j => ?_⟩
    rw [alternation_append, hlog j]
    exact hrel.alternation hh j
  | releaseAll =>
    obtain ⟨w2, evs, hrun, hrel, -⟩ := releaseAllKeys_releases c hc depth w
    refine ⟨w2, evs, hrun, hrel.handler.trans hh, fun j => ?_⟩
    rw [alternation_append, hlog j]
    exact hrel.alternation hh j
  | fire now =>
    obtain ⟨f1, f2, f3⟩ := fireKeysPress_frame c now w
    refine ⟨(fireKeysPress c now w).1, (fireKeysPress c now w).2, rfl, f1.trans hh, ?_⟩
    intro j
    rw [alternation_append, hlog j, f2 j]
    exact foldl_altStep_inert j _ _ (fun e he => Or.inr (f3 e he).1)
  | setHandler => exact absurd hop (by simp [Op.isKeyOp])
  | clearHandler => exact absurd hop (by simp [Op.isKeyOp])

theorem alternation_run (c : Fw) (hc : c.WellFormed) (depth : Nat) (ops : List Op)
    (hops : ∀ op ∈ ops, op.isKeyOp c) (w : PlatformWindow) (log : List InputEvent)
    (hh : w.m_onInputEvent = true)
    (hlog : ∀ k, alternation k log = some (w.m_keyInfo k).state) :
    ∃ w2 evs, run c (depth + 2) ops w = some (w2, evs) ∧
      ∀ k, alternation k (log ++ evs) = some (w2.m_keyInfo k).state := by
  induction ops generalizing w log with
  | nil => exact ⟨w, [], rfl, by simpa using hlog⟩
  | cons op ops ih =>
    obtain ⟨w1, evs1, hs, hh1, hl1⟩ :=
      alternation_step c hc depth op w log (hops op (List.mem_cons_self _ _)) hh hlog
    obtain ⟨w2, evs2, hr, hl2⟩ :=
      ih (fun o ho => hops o (List.mem_cons_of_mem _ ho)) w1 (log ++ evs1) hh1 hl1
    refine ⟨w2, evs1 ++ evs2, by simp only [run, hs, hr], ?_⟩
    intro k
    rw [← List.append_assoc]
    exact hl2 k

/-- C19: with a handler registered from the start, for every finite sequence
of `processKeyDown`, `processKeyUp`, `releaseAllKeys` and `fireKeysPress`
calls on key codes of the table, started from an all-released window, and for
every key code: the sequence runs to its end, the KeyDown and KeyUp events of
the key alternate starting with a KeyDown, the key is marked pressed at the end
exactly when the last of them is a KeyDown, and the number of its KeyDown
events is the number of its KeyUp events plus 1 when it is pressed and plus 0
otherwise. -/
theorem keyDown_keyUp_alternate (c : Fw) (hc : c.WellFormed) (depth : Nat) (ops : List Op)
    (w0 : PlatformWindow) (h0 : AllReleased w0) (hh : w0.m_onInputEvent = true)
    (hops : ∀ op ∈ ops, op.isKeyOp c) :
    ∃ w evs, run c (depth + 2) ops w0 = some (w, evs) ∧
      ∀ k, alternation k evs = some (w.m_keyInfo k).state ∧
        countEvents .KeyDownInputEvent k evs =
          countEvents .KeyUpInputEvent k evs + (if (w.m_keyInfo k).state then 1 else 0) := by
  obtain ⟨w, evs, hr, hl⟩ := alternation_run c hc depth ops hops w0 [] hh
    (fun k => by rw [h0 k]; rfl)
  refine ⟨w, evs, hr, fun k => ?_⟩
  have ha : alternation k evs = some (w.m_keyInfo k).state := by
    simpa using hl k
  refine ⟨ha, ?_⟩
  have := alternation_counts k evs false (w.m_keyInfo k).state ha
  simpa using this

/-- Instance of `keyDown_keyUp_alternate`: three keys go down on the sample
window, the repeat engine runs and NumLock goes up. -/
theorem keyDown_keyUp_alternate_witness :
    sampleFw.WellFormed ∧ AllReleased sampleWindow ∧ sampleWindow.m_onInputEvent = true ∧
    (∀ op ∈ sampleOps ++ [.fire 60, .keyUp 18], op.isKeyOp sampleFw) ∧
    ∃ w evs, run sampleFw 2 (sampleOps ++ [.fire 60, .keyUp 18]) sampleWindow =
        some (w, evs) ∧
      ∀ k, alternation k evs = some (w.m_keyInfo k).state ∧
        countEvents .KeyDownInputEvent k evs =
          countEvents .KeyUpInputEvent k evs + (if (w.m_keyInfo k).state then 1 else 0) :=
  ⟨by decide, fun _ => rfl, rfl, by decide,
    keyDown_keyUp_alternate sampleFw (by decide) 0 _ sampleWindow (fun _ => rfl) rfl
      (by decide)⟩

/-! ## Contents of the dispatched events -/

theorem processKeyDown_events (c : Fw) (now : Int) (k : Nat) (w : PlatformWindow) :
    ∀ e ∈ (processKeyDown c now k w).2,
      e.keyCode = k ∧ (e.type = .KeyDownInputEvent ∨ e.type = .KeyPressInputEvent) ∧
      e.keyboardModifiers = w.m_inputEvent.keyboardModifiers := by
  intro e he
  by_cases ho : c.isOrdinary k
  · cases hp : (w.m_keyInfo k).state
    · cases hh : w.m_onInputEvent
      · obtain ⟨h0, hm⟩ := ho
        simp only [Fw.isModifier, not_or] at hm
        simp [processKeyDown, h0, hm.1, hm.2.1, hm.2.2, hp, hh] at he
      · rw [(processKeyDown_unpressed c now k w ho hp hh).1] at he
        simp only [List.mem_cons, List.mem_singleton, List.not_mem_nil, or_false] at he
        rcases he with rfl | rfl
        · exact ⟨rfl, Or.inl rfl, rfl⟩
        · exact ⟨rfl, Or.inr rfl, rfl⟩
    · rw [processKeyDown_pressed c now k w ho hp] at he
      exact absurd he (List.not_mem_nil _)
  · rw [((processKeyDown_frame c now k w).2.2 ho).2] at he
    exact absurd he (List.not_mem_nil _)

theorem maskOf_ordinary (c : Fw) (k : Nat) (hk : c.isOrdinary k) : c.maskOf k = 0 := by
  obtain ⟨h0, hm⟩ := hk
  simp only [Fw.isModifier, not_or] at hm
  simp [Fw.maskOf, h0, hm.1, hm.2.1, hm.2.2]

theorem processKeyDown_modifiers (c : Fw) (now : Int) (k : Nat) (w : PlatformWindow) :
    (processKeyDown c now k w).1.m_inputEvent.keyboardModifiers =
      w.m_inputEvent.keyboardModifiers ||| c.maskOf k := by
  by_cases h0 : k = c.KeyUnknown
  · subst h0
    simp [processKeyDown, Fw.maskOf]
  by_cases h1 : k = c.KeyCtrl
  · subst h1
    simp [processKeyDown, Fw.maskOf, h0, orModifiers]
  by_cases h2 : k = c.altKey
  · subst h2
    simp [processKeyDown, Fw.maskOf, h0, h1, orModifiers]
  by_cases h3 : k = c.KeyShift
  · subst h3
    simp [processKeyDown, Fw.maskOf, h0, h1, h2, orModifiers]
  have hk : c.isOrdinary k := ⟨h0, by simp [Fw.isModifier, h1, h2, h3]⟩
  rw [maskOf_ordinary c k hk, Nat.or_zero]
  cases hp : (w.m_keyInfo k).state
  · cases hh : w.m_onInputEvent <;>
      simp [processKeyDown, h0, h1, h2, h3, hp, hh, InputEvent.reset]
  · rw [processKeyDown_pressed c now k w hk hp]

theorem releaseKey_event_facts (c : Fw) (k : Nat) (w : PlatformWindow) :
    ∀ e ∈ (releaseKey c k w).2, e.type = .KeyUpInputEvent ∧ e.keyCode = k ∧
      e.keyboardModifiers = w.m_inputEvent.keyboardModifiers := by
  intro e he
  rw [releaseKey_events] at he
  split at he
  · rw [List.mem_singleton.mp he]
    exact ⟨rfl, rfl, rfl⟩
  · exact absurd he (List.not_mem_nil _)

theorem forPressed_events
    (body : Nat → PlatformWindow → Option (PlatformWindow × List InputEvent))
    (P : PlatformWindow → Prop) (Q : InputEvent → Prop) (ks : List Nat)
    (hbody : ∀ k ∈ ks, ∀ w w1 evs, P w → (w.m_keyInfo k).state = true →
      body k w = some (w1, evs) →
      P w1 ∧ w1.m_inputEvent.keyboardModifiers = w.m_inputEvent.keyboardModifiers ∧
      ∀ e ∈ evs, e.keyboardModifiers = w.m_inputEvent.keyboardModifiers ∧ Q e)
    (w w2 : PlatformWindow) (evs : List InputEvent) (hP : P w)
    (hrun : forPressed body ks w = some (w2, evs)) :
    P w2 ∧ w2.m_inputEvent.keyboardModifiers = w.m_inputEvent.keyboardModifiers ∧
      ∀ e ∈ evs, e.keyboardModifiers = w.m_inputEvent.keyboardModifiers ∧ Q e := by
  induction ks generalizing w evs with
  | nil =>
    simp only [forPressed, Option.some.injEq, Prod.mk.injEq] at hrun
    obtain ⟨rfl, rfl⟩ := hrun
    exact ⟨hP, rfl, fun e he => absurd he (List.not_mem_nil _)⟩
  | cons k ks ih =>
    have ih2 := ih (fun j hj => hbody j (List.mem_cons_of_mem _ hj))
    cases hp : (w.m_keyInfo k).state
    · simp only [forPressed, hp, Bool.false_eq_true, if_false] at hrun
      exact ih2 w evs hP hrun
    · simp only [forPressed, hp, if_true] at hrun
      cases hb : body k w with
      | none => simp [hb] at hrun
      | some r1 =>
        obtain ⟨w1, evs1⟩ := r1
        simp only [hb] at hrun
        cases hr : forPressed body ks w1 with
        | none => simp [hr] at hrun
        | some r2 =>
          obtain ⟨w3, evs3⟩ := r2
          simp only [hr, Option.some.injEq, Prod.mk.injEq] at hrun
          obtain ⟨rfl, rfl⟩ := hrun
          obtain ⟨p1, m1, e1⟩ := hbody k (List.mem_cons_self _ _) w w1 evs1 hP hp hb
          obtain ⟨p2, m2, e2⟩ := ih2 w1 evs3 p1 hr
          refine ⟨p2, m2.trans m1, ?_⟩
          intro e he
          rcases List.mem_append.mp he with h | h
          · exact e1 e h
          · exact ⟨(e2 e h).1.trans m1, (e2 e h).2⟩

theorem processKeyUp_ordinary_events (c : Fw) (hc : c.WellFormed) (depth k : Nat)
    (w w2 : PlatformWindow) (evs : List InputEvent) (hk : c.isOrdinary k)
    (hrun : processKeyUp c (depth + 2) k w = some (w2, evs)) :
    w2.m_inputEvent.keyboardModifiers = w.m_inputEvent.keyboardModifiers ∧
    ∀ e ∈ evs, e.keyboardModifiers = w.m_inputEvent.keyboardModifiers ∧
      e.type = .KeyUpInputEvent ∧
      (e.keyCode = k ∨ (k = c.KeyNumLock ∧ e.keyCode ∈ c.numpadKeys)) := by
  by_cases hn : k = c.KeyNumLock
  · subst hn
    rw [processKeyUp_numLock c (depth + 1) w hk] at hrun
    cases hl : forPressed (fun k w1 => processKeyUp c (depth + 1) k w1) c.numpadKeys w with
    | none => simp [hl] at hrun
    | some r1 =>
      obtain ⟨w1, evs1⟩ := r1
      simp only [hl, Option.some.injEq, Prod.mk.injEq] at hrun
      obtain ⟨rfl, rfl⟩ := hrun
      obtain ⟨-, m1, e1⟩ := forPressed_events
        (fun k w1 => processKeyUp c (depth + 1) k w1) (fun _ => True)
        (fun e => e.type = .KeyUpInputEvent ∧ e.keyCode ∈ c.numpadKeys) c.numpadKeys
        (fun j hj wa wb eb _ _ hb => by
          have hb : processKeyUp c (depth + 1) j wa = some (wb, eb) := hb
          rw [processKeyUp_ordinary c depth j wa (wellFormed_numpad c hc j hj).1
            (wellFormed_numpad c hc j hj).2] at hb
          simp only [Option.some.injEq] at hb
          show True ∧ wb.m_inputEvent.keyboardModifiers = wa.m_inputEvent.keyboardModifiers ∧
            ∀ e ∈ eb, e.keyboardModifiers = wa.m_inputEvent.keyboardModifiers ∧
              (e.type = .KeyUpInputEvent ∧ e.keyCode ∈ c.numpadKeys)
          have hb1 : wb = (releaseKey c j wa).1 := (congrArg Prod.fst hb).symm
          have hb2 : eb = (releaseKey c j wa).2 := (congrArg Prod.snd hb).symm
          subst hb1 hb2
          refine ⟨trivial, (releaseKey_frame c j wa).2.1, fun e he => ?_⟩
          obtain ⟨t, kc, m⟩ := releaseKey_event_facts c j wa e he
          exact ⟨m, t, by rw [kc]; exact hj⟩) w w1 evs1 trivial hl
      refine ⟨((releaseKey_frame c c.KeyNumLock w1).2.1).trans m1, ?_⟩
      intro e he
      rcases List.mem_append.mp he with h | h
      · exact ⟨(e1 e h).1, (e1 e h).2.1, Or.inr ⟨rfl, (e1 e h).2.2⟩⟩
      · obtain ⟨t, kc, m⟩ := releaseKey_event_facts c c.KeyNumLock w1 e h
        exact ⟨m.trans m1, t, Or.inl kc⟩
  · rw [processKeyUp_ordinary c (depth + 1) k w hk hn] at hrun
    simp only [Option.some.injEq] at hrun
    have hb1 : w2 = (releaseKey c k w).1 := (congrArg Prod.fst hrun).symm
    have hb2 : evs = (releaseKey c k w).2 := (congrArg Prod.snd hrun).symm
    subst hb1 hb2
    refine ⟨(releaseKey_frame c k w).2.1, fun e he => ?_⟩
    obtain ⟨t, kc, m⟩ := releaseKey_event_facts c k w e he
    exact ⟨m, t, Or.inl kc⟩

theorem clearBits_zero (x : Nat) : clearBits x 0 = x := by
  simp [clearBits]

theorem processKeyUp_not_ordinary_result (c : Fw) (depth k : Nat) (w w2 : PlatformWindow)
    (evs : List InputEvent) (hk : ¬ c.isOrdinary k)
    (hrun : processKeyUp c (depth + 1) k w = some (w2, evs)) :
    evs = [] ∧ w2.m_inputEvent.keyboardModifiers =
      clearBits w.m_inputEvent.keyboardModifiers (c.maskOf k) := by
  by_cases h0 : k = c.KeyUnknown
  · rw [processKeyUp, if_pos h0] at hrun
    simp only [Option.some.injEq, Prod.mk.injEq] at hrun
    obtain ⟨rfl, rfl⟩ := hrun
    simp [Fw.maskOf, h0, clearBits_zero]
  by_cases h1 : k = c.KeyCtrl
  · rw [processKeyUp, if_neg h0, if_pos h1] at hrun
    simp only [Option.some.injEq, Prod.mk.injEq] at hrun
    obtain ⟨rfl, rfl⟩ := hrun
    rw [Fw.maskOf, if_neg h0, if_pos h1]
    exact ⟨rfl, rfl⟩
  by_cases h2 : k = c.altKey
  · rw [processKeyUp, if_neg h0, if_neg h1, if_pos h2] at hrun
    simp only [Option.some.injEq, Prod.mk.injEq] at hrun
    obtain ⟨rfl, rfl⟩ := hrun
    rw [Fw.maskOf, if_neg h0, if_neg h1, if_pos h2]
    exact ⟨rfl, rfl⟩
  by_cases h3 : k = c.KeyShift
  · rw [processKeyUp, if_neg h0, if_neg h1, if_neg h2, if_pos h3] at hrun
    simp only [Option.some.injEq, Prod.mk.injEq] at hrun
    obtain ⟨rfl, rfl⟩ := hrun
    rw [Fw.maskOf, if_neg h0, if_neg h1, if_neg h2, if_pos h3]
    exact ⟨rfl, rfl⟩
  exact absurd ⟨h0, by simp [Fw.isModifier, h1, h2, h3]⟩ hk

theorem processKeyUp_modifiers (c : Fw) (hc : c.WellFormed) (depth k : Nat)
    (w w2 : PlatformWindow) (evs : List InputEvent)
    (hrun : processKeyUp c (depth + 2) k w = some (w2, evs)) :
    w2.m_inputEvent.keyboardModifiers =
      clearBits w.m_inputEvent.keyboardModifiers (c.maskOf k) := by
  by_cases hk : c.isOrdinary k
  · rw [maskOf_ordinary c k hk, clearBits_zero]
    exact (processKeyUp_ordinary_events c hc depth k w w2 evs hk hrun).1
  · exact (processKeyUp_not_ordinary_result c (depth + 1) k w w2 evs hk hrun).2

theorem releaseAllKeys_events (c : Fw) (hc : c.WellFormed) (depth : Nat)
    (w w2 : PlatformWindow) (evs : List InputEvent) (hinv : PressedOrdinary c w)
    (hrun : releaseAllKeys c (depth + 2) w = some (w2, evs)) :
    w2.m_inputEvent.keyboardModifiers = 0 ∧
    ∀ e ∈ evs, e.keyboardModifiers = w.m_inputEvent.keyboardModifiers ∧
      e.type = .KeyUpInputEvent ∧ (w.m_keyInfo e.keyCode).state = true := by
  obtain ⟨w3, evs3, hr3, hrel, -, hm, -⟩ := releaseAllKeys_releases c hc depth w
  rw [hrun] at hr3
  simp only [Option.some.injEq, Prod.mk.injEq] at hr3
  obtain ⟨rfl, rfl⟩ := hr3
  refine ⟨hm, ?_⟩
  unfold releaseAllKeys at hrun
  cases hl : forPressed (fun k w1 => processKeyUp c (depth + 2) k w1)
      (List.range c.KeyLast) w with
  | none => simp [hl] at hrun
  | some r1 =>
    obtain ⟨w1, evs1⟩ := r1
    simp only [hl, Option.some.injEq, Prod.mk.injEq] at hrun
    obtain ⟨-, rfl⟩ := hrun
    obtain ⟨-, -, e1⟩ := forPressed_events
      (fun k w1 => processKeyUp c (depth + 2) k w1) (PressedOrdinary c) (fun _ => True)
      (List.range c.KeyLast)
      (fun j _ wa wb eb hP hs hb => by
        have hb : processKeyUp c (depth + 2) j wa = some (wb, eb) := hb
        obtain ⟨wx, ex, hx, hrelx, -⟩ := processKeyUp_releases c hc depth j wa
        rw [hb] at hx
        simp only [Option.some.injEq, Prod.mk.injEq] at hx
        obtain ⟨rfl, rfl⟩ := hx
        obtain ⟨m, ev⟩ := processKeyUp_ordinary_events c hc depth j wa wb eb (hP j hs).1 hb
        exact ⟨hrelx.pressedOrdinary hP, m, fun e he => ⟨(ev e he).1, trivial⟩⟩)
      w w1 evs1 hinv hl
    intro e he
    exact ⟨(e1 e he).1, hrel.types e he, (hrel.released e he).1⟩

theorem fireKey_event_modifiers (c : Fw) (now : Int) (j : Nat) (w : PlatformWindow) :
    ∀ e ∈ (fireKey c now j w).2,
      e.keyboardModifiers = w.m_inputEvent.keyboardModifiers := by
  intro e he
  cases hp : (w.m_keyInfo j).state
  · rw [fireKey_unpressed c now j w hp] at he
    exact absurd he (List.not_mem_nil _)
  · by_cases hd : now - (w.m_keyInfo j).lastTicks ≥ (w.m_keyInfo j).delay
    · rw [(fireKey_due c now j w hp hd).1] at he
      split at he
      · rw [List.mem_singleton.mp he]
      · exact absurd he (List.not_mem_nil _)
    · rw [fireKey_not_due c now j w hd] at he
      exact absurd he (List.not_mem_nil _)

theorem fireKeys_event_modifiers (c : Fw) (now : Int) (ks : List Nat) (w : PlatformWindow) :
    ∀ e ∈ (fireKeys c now ks w).2,
      e.keyboardModifiers = w.m_inputEvent.keyboardModifiers := by
  induction ks generalizing w with
  | nil =>
    intro e he
    exact absurd he (List.not_mem_nil _)
  | cons j ks ih =>
    intro e he
    simp only [fireKeys] at he
    rcases List.mem_append.mp he with h | h
    · exact fireKey_event_modifiers c now j w e h
    · rw [ih (fireKey c now j w).1 e h]
      exact (fireKey_frame c now j w).2.1

theorem fireKeysPress_modifiers (c : Fw) (now : Int) (w : PlatformWindow) :
    (fireKeysPress c now w).1.m_inputEvent.keyboardModifiers =
      w.m_inputEvent.keyboardModifiers ∧
    ∀ e ∈ (fireKeysPress c now w).2,
      e.keyboardModifiers = w.m_inputEvent.keyboardModifiers := by
  by_cases h : w.ticksElapsed now < 10
  · rw [fireKeysPress_noop_when_throttled c now w h]
    exact ⟨rfl, fun e he => absurd he (List.not_mem_nil _)⟩
  · simp only [fireKeysPress, if_neg h]
    exact ⟨(fireKeys_frame c now _ _).2.1, fireKeys_event_modifiers c now _ _⟩

theorem processKeyDown_event_list (c : Fw) (now : Int) (k : Nat) (w : PlatformWindow) :
    (processKeyDown c now k w).2 = [] ∨
    (processKeyDown c now k w).2 =
      [⟨.KeyDownInputEvent, k, w.m_inputEvent.keyboardModifiers, 0⟩,
       ⟨.KeyPressInputEvent, k, w.m_inputEvent.keyboardModifiers, 0⟩] := by
  by_cases ho : c.isOrdinary k
  · cases hp : (w.m_keyInfo k).state
    · cases hh : w.m_onInputEvent
      · obtain ⟨h0, hm⟩ := ho
        simp only [Fw.isModifier, not_or] at hm
        exact Or.inl (by simp [processKeyDown, h0, hm.1, hm.2.1, hm.2.2, hp, hh])
      · exact Or.inr (processKeyDown_unpressed c now k w ho hp hh).1
    · rw [processKeyDown_pressed c now k w ho hp]
      exact Or.inl rfl
  · exact Or.inl ((processKeyDown_frame c now k w).2.2 ho).2

theorem forPressed_forall
    (body : Nat → PlatformWindow → Option (PlatformWindow × List InputEvent))
    (Q : InputEvent → Prop) (ks : List Nat)
    (hbody : ∀ k ∈ ks, ∀ w w1 evs, body k w = some (w1, evs) → ∀ e ∈ evs, Q e)
    (w w2 : PlatformWindow) (evs : List InputEvent)
    (hrun : forPressed body ks w = some (w2, evs)) : ∀ e ∈ evs, Q e := by
  induction ks generalizing w evs with
  | nil =>
    simp only [forPressed, Option.some.injEq, Prod.mk.injEq] at hrun
    obtain ⟨-, rfl⟩ := hrun
    exact fun e he => absurd he (List.not_mem_nil _)
  | cons k ks ih =>
    have ih2 := ih (fun j hj => hbody j (List.mem_cons_of_mem _ hj))
    cases hp : (w.m_keyInfo k).state
    · simp only [forPressed, hp, Bool.false_eq_true, if_false] at hrun
      exact ih2 w evs hrun
    · simp only [forPressed, hp, if_true] at hrun
      cases hb : body k w with
      | none => simp [hb] at hrun
      | some r1 =>
        obtain ⟨w1, evs1⟩ := r1
        simp only [hb] at hrun
        cases hr : forPressed body ks w1 with
        | none => simp [hr] at hrun
        | some r2 =>
          obtain ⟨w3, evs3⟩ := r2
          simp only [hr, Option.some.injEq, Prod.mk.injEq] at hrun
          obtain ⟨rfl, rfl⟩ := hrun
          intro e he
          rcases List.mem_append.mp he with h | h
          · exact hbody k (List.mem_cons_self _ _) w w1 evs1 hb e h
          · exact ih2 w1 evs3 hr e h

theorem releaseKey_event_ticks (c : Fw) (k : Nat) (w : PlatformWindow) :
    ∀ e ∈ (releaseKey c k w).2, e.autoRepeatTicks = 0 := by
  intro e he
  rw [releaseKey_events] at he
  split at he
  · rw [List.mem_singleton.mp he]
  · exact absurd he (List.not_mem_nil _)

theorem processKeyUp_event_ticks (c : Fw) (hc : c.WellFormed) (depth k : Nat)
    (w w2 : PlatformWindow) (evs : List InputEvent)
    (hrun : processKeyUp c (depth + 2) k w = some (w2, evs)) :
    ∀ e ∈ evs, e.autoRepeatTicks = 0 := by
  by_cases hk : c.isOrdinary k
  · by_cases hn : k = c.KeyNumLock
    · subst hn
      rw [processKeyUp_numLock c (depth + 1) w hk, numpad_loop_eq c hc depth w] at hrun
      cases hl : forPressed (fun k w1 => some (releaseKey c k w1)) c.numpadKeys w with
      | none => simp [hl] at hrun
      | some r1 =>
        obtain ⟨w1, evs1⟩ := r1
        simp only [hl, Option.some.injEq, Prod.mk.injEq] at hrun
        obtain ⟨-, rfl⟩ := hrun
        have h1 := forPressed_forall (fun k w1 => some (releaseKey c k w1))
          (fun e => e.autoRepeatTicks = 0) c.numpadKeys
          (fun j _ wa wb eb hb e he => by
            have hb : some (releaseKey c j wa) = some (wb, eb) := hb
            have hb2 : eb = (releaseKey c j wa).2 :=
              (congrArg Prod.snd (Option.some.inj hb)).symm
            rw [hb2] at he
            exact releaseKey_event_ticks c j wa e he) w w1 evs1 hl
        intro e he
        rcases List.mem_append.mp he with h | h
        · exact h1 e h
        · exact releaseKey_event_ticks c _ w1 e h
    · rw [processKeyUp_ordinary c (depth + 1) k w hk hn] at hrun
      have hb2 : evs = (releaseKey c k w).2 :=
        (congrArg Prod.snd (Option.some.inj hrun)).symm
      rw [hb2]
      exact releaseKey_event_ticks c k w
  · rw [(processKeyUp_not_ordinary_result c (depth + 1) k w w2 evs hk hrun).1]
    exact fun e he => absurd he (List.not_mem_nil _)

theorem releaseAllKeys_event_ticks (c : Fw) (hc : c.WellFormed) (depth : Nat)
    (w w2 : PlatformWindow) (evs : List InputEvent)
    (hrun : releaseAllKeys c (depth + 2) w = some (w2, evs)) :
    ∀ e ∈ evs, e.autoRepeatTicks = 0 := by
  unfold releaseAllKeys at hrun
  cases hl : forPressed (fun k w1 => processKeyUp c (depth + 2) k w1)
      (List.range c.KeyLast) w with
  | none => simp [hl] at hrun
  | some r1 =>
    obtain ⟨w1, evs1⟩ := r1
    simp only [hl, Option.some.injEq, Prod.mk.injEq] at hrun
    obtain ⟨-, rfl⟩ := hrun
    exact forPressed_forall (fun k w1 => processKeyUp c (depth + 2) k w1)
      (fun e => e.autoRepeatTicks = 0) (List.range c.KeyLast)
      (fun j _ wa wb eb hb => processKeyUp_event_ticks c hc depth j wa wb eb hb) w w1 evs1 hl

theorem fireKey_event_ticks (c : Fw) (now : Int) (j : Nat) (w : PlatformWindow) :
    (∀ e ∈ (fireKey c now j w).2,
      e.autoRepeatTicks = narrowInt32 (now - (w.m_keyInfo e.keyCode).firstTicks)) ∧
    ∀ k, ((fireKey c now j w).1.m_keyInfo k).firstTicks = (w.m_keyInfo k).firstTicks := by
  cases hp : (w.m_keyInfo j).state
  · rw [fireKey_unpressed c now j w hp]
    exact ⟨fun e he => absurd he (List.not_mem_nil _), fun _ => rfl⟩
  · by_cases hd : now - (w.m_keyInfo j).lastTicks ≥ (w.m_keyInfo j).delay
    · obtain ⟨e1, k1⟩ := fireKey_due c now j w hp hd
      refine ⟨fun e he => ?_, fun k => ?_⟩
      · rw [e1] at he
        split at he
        · rw [List.mem_singleton.mp he]
        · exact absurd he (List.not_mem_nil _)
      · by_cases hk : k = j
        · subst hk
          rw [k1]
        · rw [(fireKey_frame c now j w).2.2.2.2.1 k hk]
    · rw [fireKey_not_due c now j w hd]
      exact ⟨fun e he => absurd he (List.not_mem_nil _), fun _ => rfl⟩

theorem fireKeys_event_ticks (c : Fw) (now : Int) (ks : List Nat) (w : PlatformWindow) :
    (∀ e ∈ (fireKeys c now ks w).2,
      e.autoRepeatTicks = narrowInt32 (now - (w.m_keyInfo e.keyCode).firstTicks)) ∧
    ∀ k, ((fireKeys c now ks w).1.m_keyInfo k).firstTicks = (w.m_keyInfo k).firstTicks := by
  induction ks generalizing w with
  | nil => exact ⟨fun e he => absurd he (List.not_mem_nil _), fun _ => rfl⟩
  | cons j ks ih =>
    obtain ⟨a1, a2⟩ := fireKey_event_ticks c now j w
    obtain ⟨b1, b2⟩ := ih (fireKey c now j w).1
    simp only [fireKeys]
    refine ⟨fun e he => ?_, fun k => (b2 k).trans (a2 k)⟩
    rcases List.mem_append.mp he with h | h
    · exact a1 e h
    · rw [b1 e h, a2]

theorem fireKeysPress_event_ticks (c : Fw) (now : Int) (w : PlatformWindow) :
    ∀ e ∈ (fireKeysPress c now w).2,
      e.autoRepeatTicks = narrowInt32 (now - (w.m_keyInfo e.keyCode).firstTicks) := by
  by_cases h : w.ticksElapsed now < 10
  · rw [fireKeysPress_noop_when_throttled c now w h]
    exact fun e he => absurd he (List.not_mem_nil _)
  · simp only [fireKeysPress, if_neg h]
    exact (fireKeys_event_ticks c now _ _).1

theorem step_dispatch (c : Fw) (hc : c.WellFormed) (depth : Nat) (op : Op)
    (w w2 : PlatformWindow) (evs : List InputEvent) (hinv : PressedOrdinary c w)
    (hstep : step c (depth + 2) op w = some (w2, evs)) :
    (EventsOfPath c w op evs ∧
      ∀ e ∈ evs, e.keyboardModifiers = w.m_inputEvent.keyboardModifiers) ∧
    (∀ i, w2.m_inputEvent.keyboardModifiers.testBit i =
      bitStep c i (w.m_inputEvent.keyboardModifiers.testBit i) op) := by
  cases op with
  | keyDown now k =>
    simp only [step, Option.some.injEq] at hstep
    have h1 : w2 = (processKeyDown c now k w).1 := (congrArg Prod.fst hstep).symm
    have h2 : evs = (processKeyDown c now k w).2 := (congrArg Prod.snd hstep).symm
    subst h1 h2
    refine ⟨⟨processKeyDown_event_list c now k w, fun e he => ?_⟩, fun i => ?_⟩
    · exact (processKeyDown_events c now k w e he).2.2
    · rw [processKeyDown_modifiers, Nat.testBit_or]
      rfl
  | keyUp k =>
    have hrun : processKeyUp c (depth + 2) k w = some (w2, evs) := hstep
    have hev : ∀ e ∈ evs, e.type = .KeyUpInputEvent ∧
        (e.keyCode = k ∨ (k = c.KeyNumLock ∧ e.keyCode ∈ c.numpadKeys)) ∧
        e.keyboardModifiers = w.m_inputEvent.keyboardModifiers ∧ e.autoRepeatTicks = 0 := by
      intro e he
      by_cases hk : c.isOrdinary k
      · obtain ⟨m, t, kc⟩ :=
          (processKeyUp_ordinary_events c hc depth k w w2 evs hk hrun).2 e he
        exact ⟨t, kc, m, processKeyUp_event_ticks c hc depth k w w2 evs hrun e he⟩
      · rw [(processKeyUp_not_ordinary_result c (depth + 1) k w w2 evs hk hrun).1] at he
        exact absurd he (List.not_mem_nil _)
    refine ⟨⟨hev, fun e he => (hev e he).2.2.1⟩, fun i => ?_⟩
    rw [processKeyUp_modifiers c hc depth k w w2 evs hrun, testBit_clearBits]
    rfl
  | releaseAll =>
    have hrun : releaseAllKeys c (depth + 2) w = some (w2, evs) := hstep
    obtain ⟨hm, hev⟩ := releaseAllKeys_events c hc depth w w2 evs hinv hrun
    refine ⟨⟨fun e he => ?_, fun e he => (hev e he).1⟩, fun i => ?_⟩
    · obtain ⟨m, t, st⟩ := hev e he
      exact ⟨t, st, m, releaseAllKeys_event_ticks c hc depth w w2 evs hrun e he⟩
    · rw [hm, Nat.zero_testBit]
      rfl
  | fire now =>
    simp only [step, Option.some.injEq] at hstep
    have h1 : w2 = (fireKeysPress c now w).1 := (congrArg Prod.fst hstep).symm
    have h2 : evs = (fireKeysPress c now w).2 := (congrArg Prod.snd hstep).symm
    subst h1 h2
    refine ⟨⟨fun e he => ?_, (fireKeysPress_modifiers c now w).2⟩, fun i => ?_⟩
    · exact ⟨((fireKeysPress_frame c now w).2.2 e he).1,
        ((fireKeysPress_frame c now w).2.2 e he).2,
        (fireKeysPress_modifiers c now w).2 e he, fireKeysPress_event_ticks c now w e he⟩
    · rw [(fireKeysPress_modifiers c now w).1]
      rfl
  | setHandler =>
    simp only [step, Option.some.injEq, Prod.mk.injEq] at hstep
    obtain ⟨rfl, rfl⟩ := hstep
    exact ⟨⟨rfl, fun e he => absurd he (List.not_mem_nil _)⟩, fun i => rfl⟩
  | clearHandler =>
    simp only [step, Option.some.injEq, Prod.mk.injEq] at hstep
    obtain ⟨rfl, rfl⟩ := hstep
    exact ⟨⟨rfl, fun e he => absurd he (List.not_mem_nil _)⟩, fun i => rfl⟩

theorem step_keeps_pressedOrdinary (c : Fw) (hc : c.WellFormed) (depth : Nat) (op : Op)
    (w w2 : PlatformWindow) (evs : List InputEvent) (hop : op.inTable c)
    (hinv : PressedOrdinary c w) (hstep : step c (depth + 2) op w = some (w2, evs)) :
    PressedOrdinary c w2 := by
  have hkey : op.isKeyOp c → PressedOrdinary c w2 := by
    intro hk
    obtain ⟨w3, evs3, h3, hinv3⟩ := step_pressedOrdinary c hc depth op w hk hinv
    rw [hstep] at h3
    have hw : w2 = w3 := congrArg Prod.fst (Option.some.inj h3)
    rw [hw]
    exact hinv3
  cases op with
  | keyDown now k => exact hkey hop
  | keyUp k => exact hkey hop
  | releaseAll => exact hkey trivial
  | fire now => exact hkey trivial
  | setHandler =>
    simp only [step, Option.some.injEq, Prod.mk.injEq] at hstep
    obtain ⟨rfl, -⟩ := hstep
    exact hinv
  | clearHandler =>
    simp only [step, Option.some.injEq, Prod.mk.injEq] at hstep
    obtain ⟨rfl, -⟩ := hstep
    exact hinv

theorem run_modifier_bits (c : Fw) (hc : c.WellFormed) (depth : Nat) (ops : List Op)
    (hops : ∀ op ∈ ops, op.inTable c) (w0 w : PlatformWindow) (evs0 : List InputEvent)
    (hinv : PressedOrdinary c w0) (hrun : run c (depth + 2) ops w0 = some (w, evs0)) :
    PressedOrdinary c w ∧
    ∀ i, w.m_inputEvent.keyboardModifiers.testBit i =
      ops.foldl (bitStep c i) (w0.m_inputEvent.keyboardModifiers.testBit i) := by
  induction ops generalizing w0 evs0 with
  | nil =>
    simp only [run, Option.some.injEq, Prod.mk.injEq] at hrun
    obtain ⟨rfl, -⟩ := hrun
    exact ⟨hinv, fun i => rfl⟩
  | cons op ops ih =>
    simp only [run] at hrun
    cases hs : step c (depth + 2) op w0 with
    | none => simp [hs] at hrun
    | some r1 =>
      obtain ⟨w1, evs1⟩ := r1
      simp only [hs] at hrun
      cases hr : run c (depth + 2) ops w1 with
      | none => simp [hr] at hrun
      | some r2 =>
        obtain ⟨w3, evs3⟩ := r2
        simp only [hr, Option.some.injEq, Prod.mk.injEq] at hrun
        obtain ⟨rfl, -⟩ := hrun
        have hinv1 := step_keeps_pressedOrdinary c hc depth op w0 w1 evs1
          (hops op (List.mem_cons_self _ _)) hinv hs
        obtain ⟨hinv3, hbits⟩ :=
          ih (fun o ho => hops o (List.mem_cons_of_mem _ ho)) w1 evs3 hinv1 hr
        refine ⟨hinv3, fun i => ?_⟩
        rw [hbits i, (step_dispatch c hc depth op w0 w1 evs1 hinv hs).2 i]
        rfl

/-- C16: after any sequence of calls on key codes of the table, started from
an all-released window with modifier state 0, the events dispatched by the
next call are those of its dispatch path: for `processKeyDown` a KeyDown of
the key followed by a KeyPress of the key (or nothing), for `processKeyUp`
KeyUp events of the key being released, for `fireKeysPress` KeyPress events of
pressed keys, each carrying no field of an earlier dispatch. Every one of them
carries the modifier state of the window at the call, whose bits are exactly
those set by a modifier down and not cleared since by the up of a modifier
with that bit or by `releaseAllKeys`. -/
theorem dispatched_event_contents (c : Fw) (hc : c.WellFormed) (depth : Nat)
    (ops : List Op) (op : Op) (w0 w w2 : PlatformWindow) (evs0 evs : List InputEvent)
    (h0 : AllReleased w0) (hm0 : w0.m_inputEvent.keyboardModifiers = 0)
    (hops : ∀ o ∈ ops, o.inTable c)
    (hrun : run c (depth + 2) ops w0 = some (w, evs0))
    (hstep : step c (depth + 2) op w = some (w2, evs)) :
    EventsOfPath c w op evs ∧
    ∀ e ∈ evs, e.keyboardModifiers = w.m_inputEvent.keyboardModifiers ∧
      ∀ i, e.keyboardModifiers.testBit i = bitAfter c i ops := by
  obtain ⟨hinv, hbits⟩ := run_modifier_bits c hc depth ops hops w0 w evs0
    (allReleased_pressedOrdinary c w0 h0) hrun
  obtain ⟨hpath, hm⟩ := (step_dispatch c hc depth op w w2 evs hinv hstep).1
  refine ⟨hpath, fun e he => ⟨hm e he, fun i => ?_⟩⟩
  rw [hm e he, hbits i, hm0, Nat.zero_testBit]
  rfl

/-- Instance of `dispatched_event_contents`: Ctrl and Shift go down, Shift
goes up, then key 30 goes down; its KeyDown and KeyPress carry the Ctrl bit. -/
theorem dispatched_event_contents_witness :
    sampleFw.WellFormed ∧ AllReleased sampleWindow ∧
    sampleWindow.m_inputEvent.keyboardModifiers = 0 ∧
    (∀ o ∈ sampleModOps, o.inTable sampleFw) ∧
    run sampleFw 2 sampleModOps sampleWindow = some (sampleModWindow, []) ∧
    step sampleFw 2 (.keyDown 9 30) sampleModWindow =
      some ((processKeyDown sampleFw 9 30 sampleModWindow).1,
        [⟨.KeyDownInputEvent, 30, 1, 0⟩, ⟨.KeyPressInputEvent, 30, 1, 0⟩]) ∧
    EventsOfPath sampleFw sampleModWindow (.keyDown 9 30)
      [⟨.KeyDownInputEvent, 30, 1, 0⟩, ⟨.KeyPressInputEvent, 30, 1, 0⟩] ∧
    ∀ e ∈ [(⟨.KeyDownInputEvent, 30, 1, 0⟩ : InputEvent), ⟨.KeyPressInputEvent, 30, 1, 0⟩],
      e.keyboardModifiers = sampleModWindow.m_inputEvent.keyboardModifiers ∧
      ∀ i, e.keyboardModifiers.testBit i = bitAfter sampleFw i sampleModOps :=
  ⟨by decide, fun _ => rfl, rfl, by decide, rfl, rfl,
    dispatched_event_contents sampleFw (by decide) 0 sampleModOps (.keyDown 9 30)
      sampleWindow sampleModWindow _ [] _ (fun _ => rfl) rfl (by decide) rfl rfl⟩

/-! ## Timestamps of released keys -/

theorem AgreeUpToStale.refl (a : PlatformWindow) : AgreeUpToStale a a :=
  ⟨fun _ => ⟨rfl, rfl, fun _ => rfl⟩, rfl, rfl, rfl, rfl, rfl, rfl, rfl, rfl, rfl, rfl⟩

theorem AgreeUpToStale.setEvent {a b : PlatformWindow} (h : AgreeUpToStale a b)
    (e : InputEvent) : AgreeUpToStale (a.setEvent e) (b.setEvent e) := by
  obtain ⟨h1, -, h3, h4, h5, h6, h7, h8, h9, h10, h11⟩ := h
  exact ⟨h1, rfl, h3, h4, h5, h6, h7, h8, h9, h10, h11⟩

theorem AgreeUpToStale.setKey {a b : PlatformWindow} (h : AgreeUpToStale a b) (k : Nat)
    (va vb : KeyInfo) (hs : va.state = vb.state) (hd : va.delay = vb.delay)
    (he : va.state = true → va = vb) :
    AgreeUpToStale (a.setKey k va) (b.setKey k vb) := by
  obtain ⟨h1, h2, h3, h4, h5, h6, h7, h8, h9, h10, h11⟩ := h
  refine ⟨fun j => ?_, h2, h3, h4, h5, h6, h7, h8, h9, h10, h11⟩
  rw [setKey_keyInfo, setKey_keyInfo]
  by_cases hj : j = k
  · rw [if_pos hj, if_pos hj]
    exact ⟨hs, hd, he⟩
  · rw [if_neg hj, if_neg hj]
    exact h1 j

theorem AgreeUpToStale.setTimer {a b : PlatformWindow} (h : AgreeUpToStale a b)
    (now : Int) :
    AgreeUpToStale { a with m_keyPressTimer := now } { b with m_keyPressTimer := now } := by
  obtain ⟨h1, h2, h3, h4, -, h6, h7, h8, h9, h10, h11⟩ := h
  exact ⟨h1, h2, h3, h4, rfl, h6, h7, h8, h9, h10, h11⟩

theorem AgreeUpToStale.orModifiers {a b : PlatformWindow} (h : AgreeUpToStale a b)
    (mask : Nat) : AgreeUpToStale (a.orModifiers mask) (b.orModifiers mask) := by
  have := h.setEvent { a.m_inputEvent with
    keyboardModifiers := a.m_inputEvent.keyboardModifiers ||| mask }
  unfold PlatformWindow.orModifiers
  rw [← h.2.1]
  exact this

theorem AgreeUpToStale.andNotModifiers {a b : PlatformWindow} (h : AgreeUpToStale a b)
    (mask : Nat) : AgreeUpToStale (a.andNotModifiers mask) (b.andNotModifiers mask) := by
  have := h.setEvent { a.m_inputEvent with
    keyboardModifiers := clearBits a.m_inputEvent.keyboardModifiers mask }
  unfold PlatformWindow.andNotModifiers
  rw [← h.2.1]
  exact this

theorem processKeyDown_agree (c : Fw) (now : Int) (k : Nat) (a b : PlatformWindow)
    (h : AgreeUpToStale a b) (hh : a.m_onInputEvent = true) :
    (processKeyDown c now k a).2 = (processKeyDown c now k b).2 ∧
    AgreeUpToStale (processKeyDown c now k a).1 (processKeyDown c now k b).1 := by
  have hhb : b.m_onInputEvent = true := by rw [← h.2.2.2.1]; exact hh
  have hev : a.m_inputEvent = b.m_inputEvent := h.2.1
  by_cases h0 : k = c.KeyUnknown
  · have ha : processKeyDown c now k a = (a, []) := by
      simp only [processKeyDown, if_pos h0]
    have hb : processKeyDown c now k b = (b, []) := by
      simp only [processKeyDown, if_pos h0]
    rw [ha, hb]
    exact ⟨rfl, h⟩
  by_cases h1 : k = c.KeyCtrl
  · have ha : processKeyDown c now k a = (a.orModifiers c.KeyboardCtrlModifier, []) := by
      simp only [processKeyDown, if_neg h0, if_pos h1]
    have hb : processKeyDown c now k b = (b.orModifiers c.KeyboardCtrlModifier, []) := by
      simp only [processKeyDown, if_neg h0, if_pos h1]
    rw [ha, hb]
    exact ⟨rfl, h.orModifiers _⟩
  by_cases h2 : k = c.altKey
  · have ha : processKeyDown c now k a = (a.orModifiers c.KeyboardAltModifier, []) := by
      simp only [processKeyDown, if_neg h0, if_neg h1, if_pos h2]
    have hb : processKeyDown c now k b = (b.orModifiers c.KeyboardAltModifier, []) := by
      simp only [processKeyDown, if_neg h0, if_neg h1, if_pos h2]
    rw [ha, hb]
    exact ⟨rfl, h.orModifiers _⟩
  by_cases h3 : k = c.KeyShift
  · have ha : processKeyDown c now k a = (a.orModifiers c.KeyboardShiftModifier, []) := by
      simp only [processKeyDown, if_neg h0, if_neg h1, if_neg h2, if_pos h3]
    have hb : processKeyDown c now k b = (b.orModifiers c.KeyboardShiftModifier, []) := by
      simp only [processKeyDown, if_neg h0, if_neg h1, if_neg h2, if_pos h3]
    rw [ha, hb]
    exact ⟨rfl, h.orModifiers _⟩
  have hk : c.isOrdinary k := ⟨h0, by simp [Fw.isModifier, h1, h2, h3]⟩
  cases hp : (a.m_keyInfo k).state
  · have hpb : (b.m_keyInfo k).state = false := by rw [← (h.1 k).1]; exact hp
    obtain ⟨ea, ka, oa, ha⟩ := processKeyDown_unpressed c now k a hk hp hh
    obtain ⟨eb, kb, ob, hb⟩ := processKeyDown_unpressed c now k b hk hpb hhb
    refine ⟨by rw [ea, eb, hev], ?_⟩
    obtain ⟨g1, g2, g3, g4, g5, g6, g7, g8, g9, g10, g11⟩ := h
    refine ⟨fun j => ?_, ?_, ?_, ?_, ?_, ?_, ?_, ?_, ?_, ?_, ?_⟩
    · by_cases hj : j = k
      · subst hj
        rw [ka, kb]
        exact ⟨rfl, (g1 j).2.1, fun _ => congrArg (KeyInfo.mk true now now) (g1 j).2.1⟩
      · rw [oa j hj, ob j hj]
        exact g1 j
    all_goals
      simp [processKeyDown, h0, h1, h2, h3, hp, hpb, hh, hhb, InputEvent.reset,
        PlatformWindow.setKey, PlatformWindow.setEvent, *]
  · have hpb : (b.m_keyInfo k).state = true := by rw [← (h.1 k).1]; exact hp
    rw [processKeyDown_pressed c now k a hk hp, processKeyDown_pressed c now k b hk hpb]
    exact ⟨rfl, h⟩

theorem releaseKey_agree (c : Fw) (k : Nat) (a b : PlatformWindow)
    (h : AgreeUpToStale a b) :
    (releaseKey c k a).2 = (releaseKey c k b).2 ∧
    AgreeUpToStale (releaseKey c k a).1 (releaseKey c k b).1 := by
  have hs : (a.m_keyInfo k).state = (b.m_keyInfo k).state := (h.1 k).1
  have hd : (a.m_keyInfo k).delay = (b.m_keyInfo k).delay := (h.1 k).2.1
  have hh : a.m_onInputEvent = b.m_onInputEvent := h.2.2.2.1
  have hev : a.m_inputEvent = b.m_inputEvent := h.2.1
  cases hp : (a.m_keyInfo k).state
  · rw [releaseKey_unpressed c k a hp, releaseKey_unpressed c k b (by rw [← hs]; exact hp)]
    exact ⟨rfl, h⟩
  · have hpb : (b.m_keyInfo k).state = true := by rw [← hs]; exact hp
    have hkey := h.setKey k { a.m_keyInfo k with state := false }
      { b.m_keyInfo k with state := false } rfl hd (fun hx => absurd hx (by simp))
    cases hha : a.m_onInputEvent
    · have hhb : b.m_onInputEvent = false := by rw [← hh]; exact hha
      simp only [releaseKey, hp, hpb, Bool.not_true, Bool.false_eq_true, if_false,
        setKey_onInputEvent, hha, hhb]
      exact ⟨trivial, hkey⟩
    · have hhb : b.m_onInputEvent = true := by rw [← hh]; exact hha
      simp only [releaseKey, hp, hpb, Bool.not_true, Bool.false_eq_true, if_false, if_true,
        setKey_onInputEvent, setKey_inputEvent, hha, hhb, hev]
      exact ⟨trivial, hkey.setEvent _⟩

theorem agreeResults_some (x y : PlatformWindow × List InputEvent) :
    AgreeResults (some x) (some y) ↔ x.2 = y.2 ∧ AgreeUpToStale x.1 y.1 := Iff.rfl

theorem agreeResults_cases {ra rb : Option (PlatformWindow × List InputEvent)}
    (h : AgreeResults ra rb) :
    (ra = none ∧ rb = none) ∨
    ∃ x y, ra = some x ∧ rb = some y ∧ x.2 = y.2 ∧ AgreeUpToStale x.1 y.1 := by
  cases ra with
  | none =>
    cases rb with
    | none => exact Or.inl ⟨rfl, rfl⟩
    | some y => exact absurd h (by simp [AgreeResults])
  | some x =>
    cases rb with
    | none => exact absurd h (by simp [AgreeResults])
    | some y => exact Or.inr ⟨x, y, rfl, rfl, h.1, h.2⟩

theorem forPressed_agree
    (body : Nat → PlatformWindow → Option (PlatformWindow × List InputEvent))
    (hbody : ∀ k a b, AgreeUpToStale a b → AgreeResults (body k a) (body k b))
    (ks : List Nat) (a b : PlatformWindow) (h : AgreeUpToStale a b) :
    AgreeResults (forPressed body ks a) (forPressed body ks b) := by
  induction ks generalizing a b with
  | nil => exact ⟨rfl, h⟩
  | cons k ks ih =>
    have hs : (a.m_keyInfo k).state = (b.m_keyInfo k).state := (h.1 k).1
    cases hp : (a.m_keyInfo k).state
    · have hpb : (b.m_keyInfo k).state = false := by rw [← hs]; exact hp
      simp only [forPressed, hp, hpb, Bool.false_eq_true, if_false]
      exact ih a b h
    · have hpb : (b.m_keyInfo k).state = true := by rw [← hs]; exact hp
      simp only [forPressed, hp, hpb, if_true]
      rcases agreeResults_cases (hbody k a b h) with ⟨ha, hb⟩ | ⟨x, y, ha, hb, he, hag⟩
      · rw [ha, hb]
        trivial
      · rw [ha, hb]
        rcases agreeResults_cases (ih x.1 y.1 hag) with ⟨ha2, hb2⟩ | ⟨x2, y2, ha2, hb2, he2, hag2⟩
        · simp only [ha2, hb2]
          trivial
        · simp only [ha2, hb2]
          exact ⟨by rw [he, he2], hag2⟩

theorem processKeyUp_agree (c : Fw) (depth k : Nat) (a b : PlatformWindow)
    (h : AgreeUpToStale a b) :
    AgreeResults (processKeyUp c depth k a) (processKeyUp c depth k b) := by
  induction depth generalizing k a b with
  | zero => trivial
  | succ depth ih =>
    by_cases h0 : k = c.KeyUnknown
    · rw [processKeyUp, processKeyUp, if_pos h0, if_pos h0]
      exact ⟨rfl, h⟩
    by_cases h1 : k = c.KeyCtrl
    · rw [processKeyUp, processKeyUp, if_neg h0, if_neg h0, if_pos h1, if_pos h1]
      exact ⟨rfl, h.andNotModifiers _⟩
    by_cases h2 : k = c.altKey
    · rw [processKeyUp, processKeyUp, if_neg h0, if_neg h0, if_neg h1, if_neg h1,
        if_pos h2, if_pos h2]
      exact ⟨rfl, h.andNotModifiers _⟩
    by_cases h3 : k = c.KeyShift
    · rw [processKeyUp, processKeyUp, if_neg h0, if_neg h0, if_neg h1, if_neg h1,
        if_neg h2, if_neg h2, if_pos h3, if_pos h3]
      exact ⟨rfl, h.andNotModifiers _⟩
    have hk : c.isOrdinary k := ⟨h0, by simp [Fw.isModifier, h1, h2, h3]⟩
    by_cases hn : k = c.KeyNumLock
    · subst hn
      rw [processKeyUp_numLock c depth a hk, processKeyUp_numLock c depth b hk]
      rcases agreeResults_cases (forPressed_agree (fun k w1 => processKeyUp c depth k w1)
          (fun j x y hxy => ih j x y hxy) c.numpadKeys a b h) with
        ⟨ha, hb⟩ | ⟨x, y, ha, hb, he, hag⟩
      · simp only [ha, hb]
        trivial
      · simp only [ha, hb]
        obtain ⟨e2, ag2⟩ := releaseKey_agree c c.KeyNumLock x.1 y.1 hag
        exact ⟨by rw [he, e2], ag2⟩
    · rw [processKeyUp_ordinary c depth k a hk hn, processKeyUp_ordinary c depth k b hk hn]
      exact releaseKey_agree c k a b h

theorem releaseAllKeys_agree (c : Fw) (depth : Nat) (a b : PlatformWindow)
    (h : AgreeUpToStale a b) :
    AgreeResults (releaseAllKeys c depth a) (releaseAllKeys c depth b) := by
  unfold releaseAllKeys
  rcases agreeResults_cases (forPressed_agree (fun k w1 => processKeyUp c depth k w1)
      (fun j x y hxy => processKeyUp_agree c depth j x y hxy) (List.range c.KeyLast) a b h) with
    ⟨ha, hb⟩ | ⟨x, y, ha, hb, he, hag⟩
  · simp only [ha, hb]
    trivial
  · simp only [ha, hb]
    obtain ⟨g1, g2, g3, g4, g5, g6, g7, g8, g9, g10, g11⟩ := hag
    exact ⟨he, g1,
      congrArg (fun e : InputEvent => ({ e with keyboardModifiers := 0 } : InputEvent)) g2,
      rfl, g4, g5, g6, g7, g8, g9, g10, g11⟩

theorem fireKey_agree (c : Fw) (now : Int) (j : Nat) (a b : PlatformWindow)
    (h : AgreeUpToStale a b) :
    (fireKey c now j a).2 = (fireKey c now j b).2 ∧
    AgreeUpToStale (fireKey c now j a).1 (fireKey c now j b).1 := by
  have hs : (a.m_keyInfo j).state = (b.m_keyInfo j).state := (h.1 j).1
  have hh : a.m_onInputEvent = b.m_onInputEvent := h.2.2.2.1
  have hev : a.m_inputEvent = b.m_inputEvent := h.2.1
  cases hp : (a.m_keyInfo j).state
  · rw [fireKey_unpressed c now j a hp, fireKey_unpressed c now j b (by rw [← hs]; exact hp)]
    exact ⟨rfl, h⟩
  · have hrec : a.m_keyInfo j = b.m_keyInfo j := (h.1 j).2.2 hp
    have hpb : (b.m_keyInfo j).state = true := by rw [← hs]; exact hp
    by_cases hd : now - (a.m_keyInfo j).lastTicks ≥ (a.m_keyInfo j).delay
    · have hdb : now - (b.m_keyInfo j).lastTicks ≥ (b.m_keyInfo j).delay := by
        rw [← hrec]; exact hd
      have hkey : ∀ x y : PlatformWindow, AgreeUpToStale x y →
          AgreeUpToStale
            (x.setKey j ⟨true, (a.m_keyInfo j).firstTicks, now, (a.m_keyInfo j).delay⟩)
            (y.setKey j ⟨true, (b.m_keyInfo j).firstTicks, now, (b.m_keyInfo j).delay⟩) := by
        intro x y hxy
        rw [hrec]
        exact hxy.setKey j _ _ rfl rfl (fun _ => rfl)
      cases hha : a.m_onInputEvent
      · have hhb : b.m_onInputEvent = false := by rw [← hh]; exact hha
        simp only [fireKey, hp, hpb, hd, hdb, hha, hhb, Bool.not_true, Bool.false_eq_true,
          if_false, if_true]
        exact ⟨trivial, hkey a b h⟩
      · have hhb : b.m_onInputEvent = true := by rw [← hh]; exact hha
        simp only [fireKey, hp, hpb, hd, hdb, hha, hhb, Bool.not_true, Bool.false_eq_true,
          if_false, if_true, setEvent_keyInfo]
        rw [hev, hrec]
        exact ⟨rfl, hrec ▸ hkey _ _ (h.setEvent _)⟩
    · have hdb : ¬ now - (b.m_keyInfo j).lastTicks ≥ (b.m_keyInfo j).delay := by
        rw [← hrec]; exact hd
      rw [fireKey_not_due c now j a hd, fireKey_not_due c now j b hdb]
      exact ⟨rfl, h⟩

theorem fireKeys_agree (c : Fw) (now : Int) (ks : List Nat) (a b : PlatformWindow)
    (h : AgreeUpToStale a b) :
    (fireKeys c now ks a).2 = (fireKeys c now ks b).2 ∧
    AgreeUpToStale (fireKeys c now ks a).1 (fireKeys c now ks b).1 := by
  induction ks generalizing a b with
  | nil => exact ⟨rfl, h⟩
  | cons j ks ih =>
    obtain ⟨e1, ag1⟩ := fireKey_agree c now j a b h
    obtain ⟨e2, ag2⟩ := ih (fireKey c now j a).1 (fireKey c now j b).1 ag1
    simp only [fireKeys]
    exact ⟨by rw [e1, e2], ag2⟩

theorem fireKeysPress_agree (c : Fw) (now : Int) (a b : PlatformWindow)
    (h : AgreeUpToStale a b) :
    (fireKeysPress c now a).2 = (fireKeysPress c now b).2 ∧
    AgreeUpToStale (fireKeysPress c now a).1 (fireKeysPress c now b).1 := by
  have ht : a.ticksElapsed now = b.ticksElapsed now := by
    unfold PlatformWindow.ticksElapsed
    rw [h.2.2.2.2.1]
  by_cases hth : a.ticksElapsed now < 10
  · rw [fireKeysPress_noop_when_throttled c now a hth,
      fireKeysPress_noop_when_throttled c now b (by rw [← ht]; exact hth)]
    exact ⟨rfl, h⟩
  · have hthb : ¬ b.ticksElapsed now < 10 := by rw [← ht]; exact hth
    simp only [fireKeysPress, if_neg hth, if_neg hthb]
    exact fireKeys_agree c now _ _ _ (h.setTimer now)

/-- What holds of the reading of stale timestamps: from two windows that agree
up to the timestamps of released keys, `processKeyDown` with a handler
registered, `processKeyUp`, `releaseAllKeys` and `fireKeysPress` dispatch the
same events and return windows that agree in the same way, and
`fireKeysPress` dispatches no event for a key that is not pressed. -/
theorem stale_timestamps_not_read (c : Fw) (hc : c.WellFormed) (depth : Nat) (now : Int)
    (k : Nat) (a b : PlatformWindow) (h : AgreeUpToStale a b) :
    (a.m_onInputEvent = true →
      (processKeyDown c now k a).2 = (processKeyDown c now k b).2 ∧
      AgreeUpToStale (processKeyDown c now k a).1 (processKeyDown c now k b).1) ∧
    (∃ x y, processKeyUp c (depth + 2) k a = some x ∧
      processKeyUp c (depth + 2) k b = some y ∧ x.2 = y.2 ∧ AgreeUpToStale x.1 y.1) ∧
    (∃ x y, releaseAllKeys c (depth + 2) a = some x ∧
      releaseAllKeys c (depth + 2) b = some y ∧ x.2 = y.2 ∧ AgreeUpToStale x.1 y.1) ∧
    ((fireKeysPress c now a).2 = (fireKeysPress c now b).2 ∧
      AgreeUpToStale (fireKeysPress c now a).1 (fireKeysPress c now b).1) ∧
    (∀ e ∈ (fireKeysPress c now a).2, (a.m_keyInfo e.keyCode).state = true) := by
  refine ⟨fun hh => processKeyDown_agree c now k a b h hh, ?_, ?_,
    fireKeysPress_agree c now a b h, fun e he => ((fireKeysPress_frame c now a).2.2 e he).2⟩
  · obtain ⟨wa, ea, hra, -⟩ := processKeyUp_releases c hc depth k a
    rcases agreeResults_cases (processKeyUp_agree c (depth + 2) k a b h) with
      ⟨ha, -⟩ | ⟨x, y, ha, hb, he, hag⟩
    · rw [hra] at ha
      exact absurd ha (by simp)
    · exact ⟨x, y, ha, hb, he, hag⟩
  · obtain ⟨wa, ea, hra, -⟩ := releaseAllKeys_releases c hc depth a
    rcases agreeResults_cases (releaseAllKeys_agree c (depth + 2) a b h) with
      ⟨ha, -⟩ | ⟨x, y, ha, hb, he, hag⟩
    · rw [hra] at ha
      exact absurd ha (by simp)
    · exact ⟨x, y, ha, hb, he, hag⟩

theorem sampleMute_agree : AgreeUpToStale sampleMute sampleMuteStale := by
  refine ⟨fun k => ?_, rfl, rfl, rfl, rfl, rfl, rfl, rfl, rfl, rfl, rfl⟩
  by_cases hk : k = 30
  · subst hk
    exact ⟨rfl, rfl, fun h => absurd h (by decide)⟩
  · have : sampleMuteStale.m_keyInfo k = sampleMute.m_keyInfo k := by
      simp [sampleMuteStale, setKey_keyInfo, hk]
    rw [this]
    exact ⟨rfl, rfl, fun _ => rfl⟩

set_option maxRecDepth 20000 in
/-- C17, evaluated on the code: two windows with no handler registered differ
only in the timestamps of the released key 30. After `processKeyDown(30)` the
key is pressed in both and keeps its old `firstTicks`, 0 in one window and 99
in the other, so the windows no longer agree; once a handler is registered,
`fireKeysPress` at clock value 40 reads that value and dispatches a KeyPress
with `autoRepeatTicks` 40 from one window and -59 from the other. -/
theorem stale_firstTicks_read_after_keyDown_without_handler :
    AgreeUpToStale sampleMute sampleMuteStale ∧
    (processKeyDown sampleFw 7 30 sampleMute).2 = [] ∧
    (processKeyDown sampleFw 7 30 sampleMuteStale).2 = [] ∧
    (processKeyDown sampleFw 7 30 sampleMute).1.m_keyInfo 30 =
      { state := true, firstTicks := 0, lastTicks := -1, delay := 30 } ∧
    (processKeyDown sampleFw 7 30 sampleMuteStale).1.m_keyInfo 30 =
      { state := true, firstTicks := 99, lastTicks := -1, delay := 30 } ∧
    ¬ AgreeUpToStale (processKeyDown sampleFw 7 30 sampleMute).1
      (processKeyDown sampleFw 7 30 sampleMuteStale).1 ∧
    (fireKeysPress sampleFw 40
      { (processKeyDown sampleFw 7 30 sampleMute).1 with m_onInputEvent := true }).2 =
      [⟨.KeyPressInputEvent, 30, 0, 40⟩] ∧
    (fireKeysPress sampleFw 40
      { (processKeyDown sampleFw 7 30 sampleMuteStale).1 with m_onInputEvent := true }).2 =
      [⟨.KeyPressInputEvent, 30, 0, -59⟩] := by
  refine ⟨sampleMute_agree, by decide, by decide, by decide, by decide, ?_, by decide,
    by decide⟩
  intro h
  have h30 := (h.1 30).2.2 (by decide)
  exact absurd h30 (by decide)
